import Mathlib

/-!
Verification of the priority queue in `queue.go` (package `github.com/caffix/queue`).

The Go source stores elements as a slice of pointers (`priorityQueue []*queueElement`)
managed through `container/heap` with `sort.Sort` invoked on every `Push`.  We embed the
slice as a `List` of records, the element pointers' mutable `index` field as a record
field that the embedded `Swap`/`Push`/`Pop` update exactly as the Go methods do, and the
`Signal` channel (`make(chan struct{}, 2)`) as the number of buffered values it holds.

Library calls are embedded from their sources as well: `container/heap`'s `up`, `down`,
`Push` and `Pop`, and `sort.Sort` as implemented since Go 1.19 (`pdqsort`; for slices of
at most 12 elements it runs plain insertion sort, which is the only path exercised by
the concrete scenarios below).  Loops are written as fuelled or structural recursions;
every fuel argument is chosen at the call site to exceed the loop's maximal iteration
count, so the fuelled function agrees with the Go loop there.
-/

namespace CaffixQueue

/-- Embeds `queueElement` (queue.go lines 20-24): payload `Data interface{}`,
`priority int`, and the heap bookkeeping field `index int`. -/
structure QElem (α : Type) where
  Data : α
  priority : Int
  index : Int
deriving DecidableEq, Repr

/-- Embeds the slice type `priorityQueue []*queueElement` (queue.go line 26). -/
abbrev PQ (α : Type) := List (QElem α)

/-- The priority constants of queue.go lines 13-18 (`PriorityLow int = iota`, ...). -/
def PriorityLow : Int := 0

/-- Priority constant `PriorityNormal` (= 1). -/
def PriorityNormal : Int := 1

/-- Priority constant `PriorityHigh` (= 2). -/
def PriorityHigh : Int := 2

/-- Priority constant `PriorityCritical` (= 3). -/
def PriorityCritical : Int := 3

/-- Embeds `priorityQueue.Less` (queue.go lines 32-34):
`return pq[i].priority > pq[j].priority`.  Out-of-range indices (which would panic in
Go and are never used by the embedded callers) yield `false`. -/
def pqLess (l : PQ α) (i j : ℕ) : Bool :=
  match l[i]?, l[j]? with
  | some a, some b => decide (a.priority > b.priority)
  | _, _ => false

/-- Embeds `priorityQueue.Swap` (queue.go lines 37-41):
`pq[i], pq[j] = pq[j], pq[i]; pq[i].index = i; pq[j].index = j`.
Out-of-range indices (a panic in Go, never reached by the embedded callers) leave the
list unchanged. -/
def pqSwap (l : PQ α) (i j : ℕ) : PQ α :=
  match l[i]?, l[j]? with
  | some a, some b => (l.set i { b with index := (i : Int) }).set j { a with index := (j : Int) }
  | _, _ => l

/-! Embedding of Go's `sort.Sort` (Go 1.19+, `sort/sort.go` together with the generated
`sort/zsortinterface.go`), specialised to the `priorityQueue` receiver: `data.Less` is
`pqLess` and `data.Swap` is `pqSwap`. -/

/-- Inner loop of Go's `insertionSort`:
`for j := i; j > a && data.Less(j, j-1); j-- { data.Swap(j, j-1) }`.
Structural recursion on `j` mirrors the decrementing loop counter. -/
def insertionInner (l : PQ α) (a : ℕ) : ℕ → PQ α
  | 0 => l
  | j+1 =>
    if j + 1 > a && pqLess l (j+1) j then insertionInner (pqSwap l (j+1) j) a j else l

/-- Outer loop of Go's `insertionSort`: `for i := a + 1; i < b; i++`.  The fuel is the
number of remaining iterations `b - i`, so it never runs out. -/
def insertionOuter (l : PQ α) (a b : ℕ) : ℕ → ℕ → PQ α
  | _, 0 => l
  | i, fuel+1 => if i < b then insertionOuter (insertionInner l a i) a b (i+1) fuel else l

/-- Go's `insertionSort(data, a, b)`. -/
def insertionSortGo (l : PQ α) (a b : ℕ) : PQ α :=
  insertionOuter l a b (a+1) b

/-- Loop of Go's `siftDown(data, lo, hi, first)` for heapsort.  The `root` strictly
increases past `2*root+1`, so fuel `hi` suffices. -/
def siftDownLoop (hi first : ℕ) : PQ α → ℕ → ℕ → PQ α
  | l, _, 0 => l
  | l, root, fuel+1 =>
    let child := 2*root + 1
    if child < hi then
      let child' := if child + 1 < hi && pqLess l (first+child) (first+child+1) then child + 1 else child
      if pqLess l (first+root) (first+child') then
        siftDownLoop hi first (pqSwap l (first+root) (first+child')) child' fuel
      else l
    else l

/-- Go's `siftDown(data, lo, hi, first)`: the chooser is
`if child+1 < hi && data.Less(first+child, first+child+1) { child++ }` (move to the
`Less`-greater child) and the loop returns once `!data.Less(first+root, first+child)`,
else swaps `first+root` with `first+child` and descends.  With
`Less i j = pq[i].priority > pq[j].priority` the resulting heap keeps the
`Less`-greatest (lowest-priority) element at the root. -/
def siftDownGo (l : PQ α) (lo hi first : ℕ) : PQ α :=
  siftDownLoop hi first l lo hi

/-- Build phase of Go's `heapSort`: `for i := (hi-1)/2; i >= 0; i--`.  Structural
recursion on the decrementing counter `i`. -/
def heapSortBuild (hi first : ℕ) : PQ α → ℕ → PQ α
  | l, 0 => siftDownGo l 0 hi first
  | l, i+1 => heapSortBuild hi first (siftDownGo l (i+1) hi first) i

/-- Pop phase of Go's `heapSort`:
`for i := hi - 1; i >= 0; i-- { data.Swap(first, first+i); siftDown(data, lo, i, first) }`. -/
def heapSortPop (first : ℕ) : PQ α → ℕ → PQ α
  | l, 0 => siftDownGo (pqSwap l first first) 0 0 first
  | l, i+1 =>
    heapSortPop first (siftDownGo (pqSwap l first (first+i+1)) 0 (i+1) first) i

/-- Go's `heapSort(data, a, b)`.  When `hi = b - a = 0` neither loop body runs. -/
def heapSortGo (l : PQ α) (a b : ℕ) : PQ α :=
  let first := a
  let hi := b - a
  if hi = 0 then l
  else heapSortPop first (heapSortBuild hi first l ((hi-1)/2)) (hi-1)

/-- Loop of Go's `reverseRange(data, a, b)`: `i, j := a, b-1; for i < j { Swap(i, j); i++; j-- }`.
Fuel `j` bounds the iteration count. -/
def reverseLoop : PQ α → ℕ → ℕ → ℕ → PQ α
  | l, _, _, 0 => l
  | l, i, j, fuel+1 => if i < j then reverseLoop (pqSwap l i j) (i+1) (j-1) fuel else l

/-- Go's `reverseRange(data, a, b)`. -/
def reverseRangeGo (l : PQ α) (a b : ℕ) : PQ α :=
  reverseLoop l a (b-1) b

/-- Scanning loop of Go's `partialInsertionSort`:
`for i < b && !data.Less(i, i-1) { i++ }`.  Returns the final `i`; fuel `b` bounds it. -/
def pisAdvance (l : PQ α) (b : ℕ) : ℕ → ℕ → ℕ
  | i, 0 => i
  | i, fuel+1 => if i < b && !(pqLess l i (i-1)) then pisAdvance l b (i+1) fuel else i

/-- Left-shift loop of Go's `partialInsertionSort`:
`for j := i - 1; j >= 1; j-- { if !data.Less(j, j-1) { break }; data.Swap(j, j-1) }`. -/
def pisShiftLeft : PQ α → ℕ → PQ α
  | l, 0 => l
  | l, j+1 => if pqLess l (j+1) j then pisShiftLeft (pqSwap l (j+1) j) j else l

/-- Right-shift loop of Go's `partialInsertionSort`:
`for j := i + 1; j < b; j++ { if !data.Less(j, j-1) { break }; data.Swap(j, j-1) }`. -/
def pisShiftRight (b : ℕ) : PQ α → ℕ → ℕ → PQ α
  | l, _, 0 => l
  | l, j, fuel+1 =>
    if j < b then
      if pqLess l j (j-1) then pisShiftRight b (pqSwap l j (j-1)) (j+1) fuel else l
    else l

/-- Outer loop of Go's `partialInsertionSort(data, a, b) bool` (`maxSteps = 5`,
`shortestShifting = 50`); `steps` counts the remaining of the five allowed steps.
Returns the mutated slice and the boolean result. -/
def pisOuter (a b : ℕ) : PQ α → ℕ → ℕ → PQ α × Bool
  | l, _, 0 => (l, false)
  | l, i, steps+1 =>
    let i' := pisAdvance l b i b
    if i' = b then (l, true)
    else if b - a < 50 then (l, false)
    else
      let l1 := pqSwap l i' (i'-1)
      let l2 := if i' - a ≥ 2 then pisShiftLeft l1 (i'-1) else l1
      let l3 := if b - i' ≥ 2 then pisShiftRight b l2 (i'+1) b else l2
      pisOuter a b l3 i' steps

/-- Go's `partialInsertionSort(data, a, b)`. -/
def partialInsertionSortGo (l : PQ α) (a b : ℕ) : PQ α × Bool :=
  pisOuter a b l (a+1) 5

/-- First scanning loop of Go's `partition`: `for i <= j && data.Less(i, a) { i++ }`.
Returns the final `i`. -/
def scanLt (l : PQ α) (a j : ℕ) : ℕ → ℕ → ℕ
  | i, 0 => i
  | i, fuel+1 => if i ≤ j && pqLess l i a then scanLt l a j (i+1) fuel else i

/-- Second scanning loop of Go's `partition`: `for i <= j && !data.Less(j, a) { j-- }`.
Returns the final `j`. -/
def scanGe (l : PQ α) (a i : ℕ) : ℕ → ℕ → ℕ
  | j, 0 => j
  | j, fuel+1 => if i ≤ j && !(pqLess l j a) then scanGe l a i (j-1) fuel else j

/-- The `for {}` swap loop of Go's `partition`: rescans from the current `i`, `j`, swaps
`data[i]` with `data[j]` while `i <= j`.  Returns the slice and the final `i`, `j`. -/
def partLoop (a b : ℕ) : PQ α → ℕ → ℕ → ℕ → PQ α × ℕ × ℕ
  | l, i, j, 0 => (l, i, j)
  | l, i, j, fuel+1 =>
    let i1 := scanLt l a j i b
    let j1 := scanGe l a i1 j b
    if i1 > j1 then (l, i1, j1)
    else partLoop a b (pqSwap l i1 j1) (i1+1) (j1-1) fuel

/-- Go's `partition(data, a, b, pivot) (newpivot int, alreadyPartitioned bool)`:
moves the pivot to `a`, partitions `a+1 .. b-1` around it, swaps the pivot into its
final slot `j` and reports whether no swap loop iteration was needed. -/
def partitionGo (l : PQ α) (a b pivot : ℕ) : PQ α × ℕ × Bool :=
  let l0 := pqSwap l a pivot
  let i1 := scanLt l0 a (b-1) (a+1) b
  let j1 := scanGe l0 a i1 (b-1) b
  if i1 > j1 then (pqSwap l0 j1 a, j1, true)
  else
    let step := partLoop a b (pqSwap l0 i1 j1) (i1+1) (j1-1) b
    (pqSwap step.1 step.2.2 a, step.2.2, false)

/-- First scanning loop of Go's `partitionEqual`: `for i <= j && !data.Less(a, i) { i++ }`. -/
def scanLe (l : PQ α) (a j : ℕ) : ℕ → ℕ → ℕ
  | i, 0 => i
  | i, fuel+1 => if i ≤ j && !(pqLess l a i) then scanLe l a j (i+1) fuel else i

/-- Second scanning loop of Go's `partitionEqual`: `for i <= j && data.Less(a, j) { j-- }`. -/
def scanGt (l : PQ α) (a i : ℕ) : ℕ → ℕ → ℕ
  | j, 0 => j
  | j, fuel+1 => if i ≤ j && pqLess l a j then scanGt l a i (j-1) fuel else j

/-- The `for {}` loop of Go's `partitionEqual`.  Returns the slice and the final `i`. -/
def partEqLoop (a b : ℕ) : PQ α → ℕ → ℕ → ℕ → PQ α × ℕ
  | l, i, _, 0 => (l, i)
  | l, i, j, fuel+1 =>
    let i1 := scanLe l a j i b
    let j1 := scanGt l a i1 j b
    if i1 > j1 then (l, i1)
    else partEqLoop a b (pqSwap l i1 j1) (i1+1) (j1-1) fuel

/-- Go's `partitionEqual(data, a, b, pivot) (newpivot int)`: gathers the elements equal
to the pivot at the front, returning the index past them. -/
def partitionEqualGo (l : PQ α) (a b pivot : ℕ) : PQ α × ℕ :=
  partEqLoop a b (pqSwap l a pivot) (a+1) (b-1) b

/-- One step of Go's `xorshift` pseudo-random generator over `uint64`:
`*r ^= *r << 13; *r ^= *r >> 7; *r ^= *r << 17`. -/
def xorshiftNext (r : ℕ) : ℕ :=
  let r1 := (r ^^^ (r <<< 13)) % 2^64
  let r2 := (r1 ^^^ (r1 >>> 7)) % 2^64
  (r2 ^^^ (r2 <<< 17)) % 2^64

/-- Fuelled form of `bits.Len(uint(n))`: the number of bits needed to represent `n`.
The fuel (instantiated with `n` itself) exceeds the recursion depth `log2 n + 1`. -/
def bitsLenF : ℕ → ℕ → ℕ
  | 0, _ => 0
  | _, 0 => 0
  | fuel+1, n+1 => bitsLenF fuel ((n+1) / 2) + 1

/-- Go's `bits.Len(uint(n))`. -/
def bitsLen (n : ℕ) : ℕ := bitsLenF n n

/-- The three-iteration swap loop of Go's `breakPatterns`, with `k` the remaining
iterations (so the loop counter is `i = 3 - k`). -/
def bpLoop (a length idx modulus : ℕ) : PQ α → ℕ → ℕ → ℕ → PQ α
  | l, _, _, 0 => l
  | l, r, i, k+1 =>
    let r' := xorshiftNext r
    let other0 := r' &&& (modulus - 1)
    let other := if other0 ≥ length then other0 - length else other0
    bpLoop a length idx modulus (pqSwap l (idx - 1 + i) (a + other)) r' (i+1) k

/-- Go's `breakPatterns(data, a, b)`: for ranges of at least 8 elements, swaps three
slots around the middle with pseudo-randomly chosen ones (`xorshift` seeded with the
length, modulus `nextPowerOfTwo(length) = 1 << bits.Len(uint(length))`). -/
def breakPatternsGo (l : PQ α) (a b : ℕ) : PQ α :=
  let length := b - a
  if length ≥ 8 then
    bpLoop a length (a + (length/4)*2 - 1) (2 ^ (bitsLen length)) l (length % 2^64) 0 3
  else l

/-- The `sortedHint` values of Go's sort package. -/
inductive SortedHint where
  | increasingH
  | decreasingH
  | unknownH
deriving DecidableEq, Repr

/-- Go's `order2(data, a, b, swaps)`: orders the two indices by `Less`, counting swaps. -/
def order2 (l : PQ α) (a b swaps : ℕ) : ℕ × ℕ × ℕ :=
  if pqLess l b a then (b, a, swaps + 1) else (a, b, swaps)

/-- Go's `median(data, a, b, c, swaps)`: index of the median element, counting swaps. -/
def medianGo (l : PQ α) (a b c swaps : ℕ) : ℕ × ℕ :=
  let s1 := order2 l a b swaps
  let s2 := order2 l s1.2.1 c s1.2.2
  let s3 := order2 l s1.1 s2.1 s2.2.2
  (s3.2.1, s3.2.2)

/-- Go's `medianAdjacent(data, a, swaps)`: median of `a-1`, `a`, `a+1`. -/
def medianAdjacentGo (l : PQ α) (a swaps : ℕ) : ℕ × ℕ :=
  medianGo l (a-1) a (a+1) swaps

/-- Go's `choosePivot(data, a, b) (pivot int, hint sortedHint)` with
`shortestNinther = 50` and `maxSwaps = 12`. -/
def choosePivotGo (l : PQ α) (a b : ℕ) : ℕ × SortedHint :=
  let length := b - a
  let i := a + length/4*1
  let j := a + length/4*2
  let k := a + length/4*3
  let js :=
    if length ≥ 8 then
      if length ≥ 50 then
        let m1 := medianAdjacentGo l i 0
        let m2 := medianAdjacentGo l j m1.2
        let m3 := medianAdjacentGo l k m2.2
        medianGo l m1.1 m2.1 m3.1 m3.2
      else medianGo l i j k 0
    else (j, 0)
  match js.2 with
  | 0 => (js.1, SortedHint.increasingH)
  | 12 => (js.1, SortedHint.decreasingH)
  | _ => (js.1, SortedHint.unknownH)

/-- Stage of Go's `pdqsort` loop body:
`if !wasBalanced { breakPatterns(data, a, b); limit-- }`, returning the slice and the
(possibly decremented) limit. -/
def pdqBreak (l : PQ α) (a b limit : ℕ) (wasBalanced : Bool) : PQ α × ℕ :=
  if !wasBalanced then (breakPatternsGo l a b, limit - 1) else (l, limit)

/-- Stage of Go's `pdqsort` loop body: `pivot, hint := choosePivot(data, a, b)` followed
by the `hint == decreasingHint` reversal (`reverseRange`; the pivot index is reflected:
`pivot = (b - 1) - (pivot - a)`, and the hint becomes increasing). -/
def pdqPivot (l1 : PQ α) (a b : ℕ) : PQ α × ℕ × SortedHint :=
  let cp := choosePivotGo l1 a b
  if cp.2 = SortedHint.decreasingH then
    (reverseRangeGo l1 a b, (b-1) - (cp.1 - a), SortedHint.increasingH)
  else (l1, cp.1, cp.2)

/-- Stage of Go's `pdqsort` loop body: the likely-sorted check
`if wasBalanced && wasPartitioned && hint == increasingHint { if partialInsertionSort(data, a, b) { return } }`.
Returns the (possibly mutated) slice and whether `pdqsort` returns now. -/
def pdqTryPis (l2 : PQ α) (a b : ℕ) (wasBalanced wasPartitioned : Bool)
    (hint : SortedHint) : PQ α × Bool :=
  if wasBalanced && wasPartitioned && (hint = SortedHint.increasingH : Bool) then
    partialInsertionSortGo l2 a b
  else (l2, false)

/-- Go's `pdqsort(data, a, b, limit)` (the body of its `for {}` loop, with the two local
flags `wasBalanced` and `wasPartitioned` as parameters; the recursive calls restart them
at `true` exactly as the Go locals do).  One unit of fuel is spent per loop iteration or
recursive call; since every iteration and every call strictly shrinks `b - a`, the fuel
`b - a + 1` supplied by `sortSort` is never exhausted. -/
def pdqsortRec : PQ α → ℕ → ℕ → ℕ → Bool → Bool → ℕ → PQ α
  | l, _, _, _, _, _, 0 => l
  | l, a, b, limit, wasBalanced, wasPartitioned, fuel+1 =>
    if b - a ≤ 12 then insertionSortGo l a b
    else if limit = 0 then heapSortGo l a b
    else
      let st := pdqBreak l a b limit wasBalanced
      let st2 := pdqPivot st.1 a b
      let pis := pdqTryPis st2.1 a b wasBalanced wasPartitioned st2.2.2
      if pis.2 then pis.1
      else
        if a > 0 && !(pqLess pis.1 (a-1) st2.2.1) then
          let pe := partitionEqualGo pis.1 a b st2.2.1
          pdqsortRec pe.1 pe.2 b st.2 wasBalanced wasPartitioned fuel
        else
          let pt := partitionGo pis.1 a b st2.2.1
          let wasBalanced' := decide (min (pt.2.1 - a) (b - pt.2.1) ≥ (b - a) / 8)
          if pt.2.1 - a < b - pt.2.1 then
            pdqsortRec (pdqsortRec pt.1 a pt.2.1 st.2 true true fuel)
              (pt.2.1+1) b st.2 wasBalanced' pt.2.2 fuel
          else
            pdqsortRec (pdqsortRec pt.1 (pt.2.1+1) b st.2 true true fuel)
              a pt.2.1 st.2 wasBalanced' pt.2.2 fuel

/-- Go's `sort.Sort(data)` (Go 1.19+):
`n := data.Len(); if n <= 1 { return }; limit := bits.Len(uint(n)); pdqsort(data, 0, n, limit)`. -/
def sortSort (l : PQ α) : PQ α :=
  if l.length ≤ 1 then l
  else pdqsortRec l 0 l.length (bitsLen l.length) true true (l.length + 1)

/-! Embedding of `container/heap` (Go standard library), specialised to the
`priorityQueue` receiver. -/

/-- Go's `container/heap` `up(h, j)`:
`for { i := (j - 1) / 2; if i == j || !h.Less(j, i) { break }; h.Swap(i, j); j = i }`.
In Go, `(j-1)/2` at `j = 0` is `0` by truncation towards zero, which `i == j` catches;
natural subtraction gives the same value.  The fuel `j+1` exceeds the iteration count
since `j` strictly decreases. -/
def upLoop : PQ α → ℕ → ℕ → PQ α
  | l, _, 0 => l
  | l, j, fuel+1 =>
    let i := (j - 1) / 2
    if i = j || !(pqLess l j i) then l
    else upLoop (pqSwap l i j) i fuel

/-- Go's `container/heap` `down(h, i0, n)` loop.  The Go function also returns whether
anything moved, which `heap.Pop` discards; the `j1 < 0` test guards `int` overflow and
cannot fire on `ℕ`.  The root index strictly increases, so fuel `n` suffices. -/
def downLoop (n : ℕ) : PQ α → ℕ → ℕ → PQ α
  | l, _, 0 => l
  | l, i, fuel+1 =>
    let j1 := 2*i + 1
    if j1 < n then
      let j := if j1 + 1 < n && pqLess l (j1+1) j1 then j1 + 1 else j1
      if pqLess l j i then downLoop n (pqSwap l i j) j fuel else l
    else l

/-- Embeds `heap.Push(&q.queue, element)`: `priorityQueue.Push` (queue.go lines 44-50)
sets `element.index = n`, appends it and calls `sort.Sort(*pq)`; `heap.Push` then calls
`up(h, h.Len()-1)`. -/
def heapPush (l : PQ α) (e : QElem α) : PQ α :=
  let l1 := sortSort (l ++ [{ e with index := (l.length : Int) }])
  upLoop l1 (l1.length - 1) l1.length

/-- Embeds `heap.Pop(&q.queue)`: `n := h.Len() - 1; h.Swap(0, n); down(h, 0, n)`
followed by `priorityQueue.Pop` (queue.go lines 53-61), which removes the final slot,
sets the removed element's `index` to `-1` (the `old[n-1] = nil` store only drops the
slice's reference) and returns it.  On an empty queue Go would panic; `Queue.Next`
guards every call with `q.queue.Len() > 0`, and the embedding returns `none` there. -/
def heapPop (l : PQ α) : Option (QElem α) × PQ α :=
  let n := l.length - 1
  let l2 := downLoop n (pqSwap l 0 n) 0 n
  match l2.getLast? with
  | none => (none, l2)
  | some e => (some { e with index := -1 }, l2.dropLast)

/-! Embedding of the `Queue` type and its methods (queue.go lines 63-146). -/

/-- Embeds `Queue` (queue.go lines 63-68): the store `queue priorityQueue` and the
channel `Signal chan struct{}` of capacity 2, represented by the number `sig` of
values it currently buffers.  The mutex serialises the operations; the embedding
executes each operation atomically in program order. -/
structure GoQueue (α : Type) where
  queue : PQ α
  sig : ℕ
deriving DecidableEq, Repr

/-- Embeds `NewQueue` (queue.go lines 71-73): empty store, empty signal channel
(`make(chan struct{}, 2)` buffers no value initially). -/
def newQueue : GoQueue α := ⟨[], 0⟩

/-- Embeds `Queue.SendSignal` (queue.go lines 97-101):
`if len(q.Signal) == 0 { q.Signal <- struct{}{} }`.  The send is executed only on an
empty channel, so it never blocks (capacity 2). -/
def sendSignal (q : GoQueue α) : GoQueue α :=
  if q.sig = 0 then { q with sig := q.sig + 1 } else q

/-- Embeds the unexported `Queue.append` (queue.go lines 85-94): a fresh element with
the given data and priority (its `index` field zero-valued by `new`), `heap.Push` under
the lock, then `SendSignal`. -/
def appendQP (q : GoQueue α) (data : α) (priority : Int) : GoQueue α :=
  sendSignal { q with queue := heapPush q.queue ⟨data, priority, 0⟩ }

/-- Embeds `Queue.Append` (queue.go lines 76-78): `q.append(data, PriorityNormal)`. -/
def appendGo (q : GoQueue α) (data : α) : GoQueue α :=
  appendQP q data PriorityNormal

/-- Embeds `Queue.AppendPriority` (queue.go lines 81-83): `q.append(data, priority)`. -/
def appendPriorityGo (q : GoQueue α) (data : α) (priority : Int) : GoQueue α :=
  appendQP q data priority

/-- Embeds `Queue.Next` (queue.go lines 104-123).  Returns the `(data, ok)` pair and
the queue state after the call: if the store is non-empty, pop the front element; then
either re-raise the signal (store still non-empty) or drain one buffered value from the
channel (store empty and channel non-empty). -/
def next (q : GoQueue α) : Option α × Bool × GoQueue α :=
  let step :=
    if q.queue.length > 0 then
      let p := heapPop q.queue
      (p.1.map (fun e => e.Data), true, { q with queue := p.2 })
    else (none, false, q)
  let q1 := step.2.2
  let q2 :=
    if q1.queue.length > 0 then sendSignal q1
    else if q1.sig > 0 then { q1 with sig := q1.sig - 1 } else q1
  (step.1, step.2.1, q2)

/-- Fuelled loop of `Queue.Process` (queue.go lines 126-133):
`element, ok := q.Next(); for ok { callback(element); element, ok = q.Next() }`.
Returns the arguments passed to the callback, in order, and the final queue state
(the state after the last `Next` call, the one that reported `ok = false`). -/
def processF : ℕ → GoQueue α → List (Option α) × GoQueue α
  | 0, q => ([], q)
  | fuel+1, q =>
    let r := next q
    if r.2.1 then
      let rest := processF fuel r.2.2
      (r.1 :: rest.1, rest.2)
    else ([], r.2.2)

/-- Embeds `Queue.Process`.  Each successful `Next` removes one element, so the fuel
`q.queue.Len() + 1` exceeds the loop's iteration count. -/
def processGo (q : GoQueue α) : List (Option α) × GoQueue α :=
  processF (q.queue.length + 1) q

/-- Embeds `Queue.Len` (queue.go lines 141-146): `q.queue.Len()` under the lock. -/
def lenGo (q : GoQueue α) : ℕ := q.queue.length

/-- Embeds `Queue.Empty` (queue.go lines 136-138): `q.Len() == 0`. -/
def emptyGo (q : GoQueue α) : Bool := lenGo q == 0

/-- Modelled from the spec: the `Signal()` accessor method of the repository's current
revision is not under src/ (src exposes the channel directly as the public field
`Signal`; the bundled current test file calls `q.Signal()`).  Per the spec, the method
"returns a handle observers can wait on" and "must itself reconcile the signal state
against current occupancy: if the store is non-empty but the signal had been left unset
due to a race, Signal() must (re)assert readiness before returning the handle".  The
returned handle is the channel itself; its readiness is the buffered-value count of the
returned state. -/
def signalMethod (q : GoQueue α) : GoQueue α :=
  if q.queue.length > 0 && q.sig == 0 then { q with sig := q.sig + 1 } else q

/-- Queue states reachable from `NewQueue` through the exported mutating operations
(`Append`, `AppendPriority`, `SendSignal`, `Next`; `Process` is a loop of `Next` calls
and `Len`/`Empty` do not mutate).  Claims about "every queue state between operations"
quantify over these states. -/
inductive Reach : GoQueue α → Prop where
  | new : Reach newQueue
  | app (q : GoQueue α) (d : α) : Reach q → Reach (appendGo q d)
  | appP (q : GoQueue α) (d : α) (p : Int) : Reach q → Reach (appendPriorityGo q d p)
  | send (q : GoQueue α) : Reach q → Reach (sendSignal q)
  | nxt (q : GoQueue α) : Reach q → Reach (next q).2.2

/-- Fuelled store-level drain: repeatedly `heap.Pop` until the store is empty,
collecting the popped elements in order.  The data components of this sequence are
exactly what successive `Next` calls return. -/
def drainF : ℕ → PQ α → List (QElem α)
  | 0, _ => []
  | fuel+1, l =>
    if l.length > 0 then
      let p := heapPop l
      match p.1 with
      | some e => e :: drainF fuel p.2
      | none => []
    else []

/-- Store-level drain with sufficient fuel. -/
def drainStore (l : PQ α) : List (QElem α) := drainF l.length l

/-! Length preservation: every building block of `sort.Sort` and of the heap operations
is a composition of `pqSwap` calls, so it preserves the slice length. -/

theorem pqSwap_length (l : PQ α) (i j : ℕ) : (pqSwap l i j).length = l.length := by
  unfold pqSwap
  split <;> simp

theorem insertionInner_length (a : ℕ) :
    ∀ (j : ℕ) (l : PQ α), (insertionInner l a j).length = l.length := by
  intro j
  induction j with
  | zero => intro l; rfl
  | succ j ih =>
    intro l
    rw [insertionInner]
    split
    · rw [ih, pqSwap_length]
    · rfl

theorem insertionOuter_length (a b : ℕ) :
    ∀ (fuel i : ℕ) (l : PQ α), (insertionOuter l a b i fuel).length = l.length := by
  intro fuel
  induction fuel with
  | zero => intro i l; rfl
  | succ fuel ih =>
    intro i l
    rw [insertionOuter]
    split
    · rw [ih, insertionInner_length]
    · rfl

theorem insertionSortGo_length (l : PQ α) (a b : ℕ) :
    (insertionSortGo l a b).length = l.length := by
  rw [insertionSortGo, insertionOuter_length]

theorem siftDownLoop_length (hi first : ℕ) :
    ∀ (fuel root : ℕ) (l : PQ α), (siftDownLoop hi first l root fuel).length = l.length := by
  intro fuel
  induction fuel with
  | zero => intro root l; rfl
  | succ fuel ih =>
    intro root l
    rw [siftDownLoop]
    dsimp only
    repeat' split
    all_goals simp [ih, pqSwap_length]

theorem siftDownGo_length (l : PQ α) (lo hi first : ℕ) :
    (siftDownGo l lo hi first).length = l.length := by
  rw [siftDownGo, siftDownLoop_length]

theorem heapSortBuild_length (hi first : ℕ) :
    ∀ (i : ℕ) (l : PQ α), (heapSortBuild hi first l i).length = l.length := by
  intro i
  induction i with
  | zero => intro l; rw [heapSortBuild, siftDownGo_length]
  | succ i ih => intro l; rw [heapSortBuild, ih, siftDownGo_length]

theorem heapSortPop_length (first : ℕ) :
    ∀ (i : ℕ) (l : PQ α), (heapSortPop first l i).length = l.length := by
  intro i
  induction i with
  | zero => intro l; rw [heapSortPop, siftDownGo_length, pqSwap_length]
  | succ i ih => intro l; rw [heapSortPop, ih, siftDownGo_length, pqSwap_length]

theorem heapSortGo_length (l : PQ α) (a b : ℕ) : (heapSortGo l a b).length = l.length := by
  rw [heapSortGo]
  split
  · rfl
  · rw [heapSortPop_length, heapSortBuild_length]

theorem reverseLoop_length :
    ∀ (fuel i j : ℕ) (l : PQ α), (reverseLoop l i j fuel).length = l.length := by
  intro fuel
  induction fuel with
  | zero => intro i j l; rfl
  | succ fuel ih =>
    intro i j l
    rw [reverseLoop]
    split
    · rw [ih, pqSwap_length]
    · rfl

theorem reverseRangeGo_length (l : PQ α) (a b : ℕ) :
    (reverseRangeGo l a b).length = l.length := by
  rw [reverseRangeGo, reverseLoop_length]

theorem pisShiftLeft_length :
    ∀ (j : ℕ) (l : PQ α), (pisShiftLeft l j).length = l.length := by
  intro j
  induction j with
  | zero => intro l; rfl
  | succ j ih =>
    intro l
    rw [pisShiftLeft]
    split
    · rw [ih, pqSwap_length]
    · rfl

theorem pisShiftRight_length (b : ℕ) :
    ∀ (fuel j : ℕ) (l : PQ α), (pisShiftRight b l j fuel).length = l.length := by
  intro fuel
  induction fuel with
  | zero => intro j l; rfl
  | succ fuel ih =>
    intro j l
    rw [pisShiftRight]
    split
    · split
      · rw [ih, pqSwap_length]
      · rfl
    · rfl

theorem pisOuter_length (a b : ℕ) :
    ∀ (steps i : ℕ) (l : PQ α), (pisOuter a b l i steps).1.length = l.length := by
  intro steps
  induction steps with
  | zero => intro i l; rfl
  | succ steps ih =>
    intro i l
    rw [pisOuter]
    split
    · rfl
    · split
      · rfl
      · rw [ih]
        split <;> split <;>
          simp [pisShiftRight_length, pisShiftLeft_length, pqSwap_length]

theorem partialInsertionSortGo_length (l : PQ α) (a b : ℕ) :
    (partialInsertionSortGo l a b).1.length = l.length := by
  rw [partialInsertionSortGo, pisOuter_length]

theorem partLoop_length (a b : ℕ) :
    ∀ (fuel i j : ℕ) (l : PQ α), (partLoop a b l i j fuel).1.length = l.length := by
  intro fuel
  induction fuel with
  | zero => intro i j l; rfl
  | succ fuel ih =>
    intro i j l
    rw [partLoop]
    split
    · rfl
    · rw [ih, pqSwap_length]

theorem partitionGo_length (l : PQ α) (a b pivot : ℕ) :
    (partitionGo l a b pivot).1.length = l.length := by
  rw [partitionGo]
  split
  · rw [pqSwap_length, pqSwap_length]
  · rw [pqSwap_length, partLoop_length, pqSwap_length, pqSwap_length]

theorem partEqLoop_length (a b : ℕ) :
    ∀ (fuel i j : ℕ) (l : PQ α), (partEqLoop a b l i j fuel).1.length = l.length := by
  intro fuel
  induction fuel with
  | zero => intro i j l; rfl
  | succ fuel ih =>
    intro i j l
    rw [partEqLoop]
    split
    · rfl
    · rw [ih, pqSwap_length]

theorem partitionEqualGo_length (l : PQ α) (a b pivot : ℕ) :
    (partitionEqualGo l a b pivot).1.length = l.length := by
  rw [partitionEqualGo, partEqLoop_length, pqSwap_length]

theorem bpLoop_length (a len idx modulus : ℕ) :
    ∀ (k r i : ℕ) (l : PQ α), (bpLoop a len idx modulus l r i k).length = l.length := by
  intro k
  induction k with
  | zero => intro r i l; rfl
  | succ k ih => intro r i l; rw [bpLoop, ih, pqSwap_length]

theorem breakPatternsGo_length (l : PQ α) (a b : ℕ) :
    (breakPatternsGo l a b).length = l.length := by
  rw [breakPatternsGo]
  split
  · rw [bpLoop_length]
  · rfl

theorem pdqBreak_length (l : PQ α) (a b limit : ℕ) (wb : Bool) :
    (pdqBreak l a b limit wb).1.length = l.length := by
  rw [pdqBreak]
  split
  · rw [breakPatternsGo_length]
  · rfl

theorem pdqPivot_length (l : PQ α) (a b : ℕ) :
    (pdqPivot l a b).1.length = l.length := by
  rw [pdqPivot]
  split
  · rw [reverseRangeGo_length]
  · rfl

theorem pdqTryPis_length (l : PQ α) (a b : ℕ) (wb wp : Bool) (hint : SortedHint) :
    (pdqTryPis l a b wb wp hint).1.length = l.length := by
  rw [pdqTryPis]
  split
  · rw [partialInsertionSortGo_length]
  · rfl

theorem pdqsortRec_length :
    ∀ (fuel : ℕ) (l : PQ α) (a b limit : ℕ) (wb wp : Bool),
      (pdqsortRec l a b limit wb wp fuel).length = l.length := by
  intro fuel
  induction fuel with
  | zero => intro l a b limit wb wp; rfl
  | succ fuel ih =>
    intro l a b limit wb wp
    rw [pdqsortRec]
    dsimp only
    split
    · exact insertionSortGo_length l a b
    · split
      · exact heapSortGo_length l a b
      · split
        · simp [pdqTryPis_length, pdqPivot_length, pdqBreak_length]
        · split
          · simp [ih, partitionEqualGo_length, pdqTryPis_length, pdqPivot_length,
              pdqBreak_length]
          · split <;>
              simp [ih, partitionGo_length, pdqTryPis_length, pdqPivot_length,
                pdqBreak_length]

theorem sortSort_length (l : PQ α) : (sortSort l).length = l.length := by
  rw [sortSort]
  split
  · rfl
  · rw [pdqsortRec_length]

theorem upLoop_length :
    ∀ (fuel j : ℕ) (l : PQ α), (upLoop l j fuel).length = l.length := by
  intro fuel
  induction fuel with
  | zero => intro j l; rfl
  | succ fuel ih =>
    intro j l
    rw [upLoop]
    split
    · rfl
    · rw [ih, pqSwap_length]

theorem downLoop_length (n : ℕ) :
    ∀ (fuel i : ℕ) (l : PQ α), (downLoop n l i fuel).length = l.length := by
  intro fuel
  induction fuel with
  | zero => intro i l; rfl
  | succ fuel ih =>
    intro i l
    rw [downLoop]
    dsimp only
    repeat' split
    all_goals simp [ih, pqSwap_length]

/-- `heap.Push` grows the slice by exactly one element. -/
theorem heapPush_length (l : PQ α) (e : QElem α) :
    (heapPush l e).length = l.length + 1 := by
  rw [heapPush, upLoop_length, sortSort_length]
  simp

/-- The slice after the swap-and-sift stage of `heap.Pop` is non-empty when the input
slice is. -/
theorem heapPop_stage_ne_nil (l : PQ α) (hl : l ≠ []) :
    downLoop (l.length - 1) (pqSwap l 0 (l.length - 1)) 0 (l.length - 1) ≠ [] := by
  intro h
  have hlen := downLoop_length (l.length - 1) (l.length - 1) 0 (pqSwap l 0 (l.length - 1))
  rw [h, pqSwap_length] at hlen
  exact hl (List.length_eq_zero.mp hlen.symm)

/-- On a non-empty slice, `heap.Pop` returns an element. -/
theorem heapPop_isSome (l : PQ α) (hl : l ≠ []) : (heapPop l).1.isSome := by
  rw [heapPop]
  split
  · next heq => exact absurd (List.getLast?_eq_none_iff.mp heq) (heapPop_stage_ne_nil l hl)
  · simp

/-- `heap.Pop` shrinks a non-empty slice by exactly one element. -/
theorem heapPop_length (l : PQ α) (hl : l ≠ []) :
    (heapPop l).2.length = l.length - 1 := by
  rw [heapPop]
  split
  · next heq => exact absurd (List.getLast?_eq_none_iff.mp heq) (heapPop_stage_ne_nil l hl)
  · simp only []
    rw [List.length_dropLast, downLoop_length, pqSwap_length]

/-- Pushing onto an empty slice yields the one-element slice (the element's `index` is
set to `n = 0`; the sort and the sift are no-ops on a singleton). -/
theorem heapPush_nil (e : QElem α) : heapPush [] e = [{ e with index := 0 }] := by
  rw [heapPush]
  simp only [List.nil_append, List.length_nil, List.length_singleton, Nat.cast_zero]
  rw [sortSort]
  simp only [List.length_singleton, Nat.le_refl, if_true, le_refl, if_pos]
  rw [upLoop]
  simp [pqLess]

/-- Popping a singleton slice returns its element (with `index` set to `-1`) and the
empty slice. -/
theorem heapPop_singleton (e : QElem α) : heapPop [e] = (some { e with index := -1 }, []) := by
  rw [heapPop]
  rfl

/-! Permutation lemmas: swapping two slots permutes the slice, so the sift loops and
`heap.Pop` return the same elements (up to the mutated `index` bookkeeping field). -/

theorem cons_set_perm :
    ∀ (t : List β) (k : ℕ) (hk : k < t.length) (a : β),
      (t.get ⟨k, hk⟩ :: t.set k a).Perm (a :: t) := by
  intro t
  induction t with
  | nil => intro k hk a; simp at hk
  | cons c t ih =>
    intro k hk a
    cases k with
    | zero => simpa using List.Perm.swap a c t
    | succ k =>
      have hk' : k < t.length := by simpa using hk
      simpa using ((List.Perm.swap c _ _).trans ((ih k hk' a).cons c)).trans
        (List.Perm.swap a c t)

theorem set_set_perm :
    ∀ (m : List β) (i j : ℕ) (hi : i < m.length) (hj : j < m.length),
      ((m.set i (m.get ⟨j, hj⟩)).set j (m.get ⟨i, hi⟩)).Perm m := by
  intro m
  induction m with
  | nil => intro i j hi; simp at hi
  | cons c t ih =>
    intro i j hi hj
    cases i with
    | zero =>
      cases j with
      | zero => simp
      | succ j =>
        have hj' : j < t.length := by simpa using hj
        simpa using cons_set_perm t j hj' c
    | succ i =>
      have hi' : i < t.length := by simpa using hi
      cases j with
      | zero => simpa using cons_set_perm t i hi' c
      | succ j =>
        have hj' : j < t.length := by simpa using hj
        simpa using (ih i j hi' hj').cons c

/-- A projection that ignores the `index` bookkeeping field (such as the payload or the
priority) sees `pqSwap` as a permutation. -/
theorem pqSwap_map_perm (f : QElem α → β)
    (hf : ∀ (e : QElem α) (x : Int), f { e with index := x } = f e) (l : PQ α) (i j : ℕ) :
    ((pqSwap l i j).map f).Perm (l.map f) := by
  rw [pqSwap]
  split
  · next a b hi hj =>
    obtain ⟨hi', hia⟩ := List.getElem?_eq_some.mp hi
    obtain ⟨hj', hjb⟩ := List.getElem?_eq_some.mp hj
    have h1 : f { b with index := (i : Int) } = f b := hf b i
    have h2 : f { a with index := (j : Int) } = f a := hf a j
    have hfa : f a = (l.map f).get ⟨i, by simpa using hi'⟩ := by
      simp [← hia]
    have hfb : f b = (l.map f).get ⟨j, by simpa using hj'⟩ := by
      simp [← hjb]
    rw [List.map_set, List.map_set, h1, h2, hfa, hfb]
    exact set_set_perm (l.map f) i j (by simpa using hi') (by simpa using hj')
  · exact List.Perm.refl _

theorem downLoop_map_perm (f : QElem α → β)
    (hf : ∀ (e : QElem α) (x : Int), f { e with index := x } = f e) (n : ℕ) :
    ∀ (fuel i : ℕ) (l : PQ α), ((downLoop n l i fuel).map f).Perm (l.map f) := by
  intro fuel
  induction fuel with
  | zero => intro i l; exact List.Perm.refl _
  | succ fuel ih =>
    intro i l
    rw [downLoop]
    dsimp only
    repeat' split
    · exact (ih _ _).trans (pqSwap_map_perm f hf l _ _)
    · exact List.Perm.refl _
    · exact (ih _ _).trans (pqSwap_map_perm f hf l _ _)
    · exact List.Perm.refl _
    · exact List.Perm.refl _

/-- On a non-empty slice, `heap.Pop` returns some element `e`, and `e` together with the
remaining slice holds exactly the original contents (through any projection that ignores
the `index` field). -/
theorem heapPop_map_perm (f : QElem α → β)
    (hf : ∀ (e : QElem α) (x : Int), f { e with index := x } = f e) (l : PQ α)
    (hl : l ≠ []) :
    ∃ e, (heapPop l).1 = some e ∧ (f e :: (heapPop l).2.map f).Perm (l.map f) := by
  have h2 := heapPop_stage_ne_nil l hl
  have hperm : ((downLoop (l.length - 1) (pqSwap l 0 (l.length - 1)) 0 (l.length - 1)).map f).Perm
      (l.map f) :=
    (downLoop_map_perm f hf _ _ _ _).trans (pqSwap_map_perm f hf l _ _)
  rw [heapPop]
  split
  · next heq => exact absurd (List.getLast?_eq_none_iff.mp heq) h2
  · next e heq =>
    refine ⟨{ e with index := -1 }, rfl, ?_⟩
    rw [hf]
    have hsplit :
        (downLoop (l.length - 1) (pqSwap l 0 (l.length - 1)) 0 (l.length - 1)).dropLast ++ [e] =
          downLoop (l.length - 1) (pqSwap l 0 (l.length - 1)) 0 (l.length - 1) :=
      List.dropLast_append_getLast? e (by simp [heq])
    refine List.Perm.trans ?_ hperm
    have hmap := congrArg (List.map f) hsplit
    rw [List.map_append, List.map_cons, List.map_nil] at hmap
    rw [← hmap]
    exact (List.perm_append_singleton _ _).symm

/-! Behaviour of the `Queue` methods. -/

theorem sendSignal_queue (q : GoQueue α) : (sendSignal q).queue = q.queue := by
  rw [sendSignal]
  split <;> rfl

theorem sendSignal_sig (q : GoQueue α) :
    (sendSignal q).sig = if q.sig = 0 then 1 else q.sig := by
  rw [sendSignal]
  split <;> simp_all

/-- A `Next` call on a non-empty store pops, reports `ok = true` and leaves the store
returned by `heap.Pop` (the signal branch never touches the store). -/
theorem next_pop (q : GoQueue α) (h : q.queue.length > 0) :
    (next q).1 = (heapPop q.queue).1.map (fun e => e.Data) ∧ (next q).2.1 = true ∧
      (next q).2.2.queue = (heapPop q.queue).2 := by
  rw [next]
  dsimp only
  rw [if_pos h]
  dsimp only
  refine ⟨rfl, rfl, ?_⟩
  split
  · rw [sendSignal_queue]
  · split <;> rfl

/-- A `Next` call on an empty store returns `(nil, false)`, leaves the store empty and
drains one buffered signal value if present (`q.sig - 1` covers both branches on `ℕ`). -/
theorem next_empty (q : GoQueue α) (h : q.queue = []) :
    (next q).1 = none ∧ (next q).2.1 = false ∧ (next q).2.2.queue = [] ∧
      (next q).2.2.sig = q.sig - 1 := by
  have hstep : next q = (none, false, if q.sig > 0 then { q with sig := q.sig - 1 } else q) := by
    rw [next]
    dsimp only
    simp [h]
  rw [hstep]
  refine ⟨rfl, rfl, ?_, ?_⟩
  · split
    · exact h
    · exact h
  · split
    · rfl
    · show q.sig = q.sig - 1
      omega

/-- The store left behind by a `Next` call. -/
theorem next_queue (q : GoQueue α) :
    (next q).2.2.queue = if q.queue.length > 0 then (heapPop q.queue).2 else q.queue := by
  rw [next]
  dsimp only
  by_cases h1 : q.queue.length > 0
  · rw [if_pos h1, if_pos h1]
    dsimp only
    split
    · rw [sendSignal_queue]
    · split <;> rfl
  · rw [if_neg h1, if_neg h1]
    dsimp only
    split <;> rfl

/-- The signal-channel occupancy left behind by a `Next` call. -/
theorem next_sig (q : GoQueue α) :
    (next q).2.2.sig =
      if q.queue.length > 0 then
        if (heapPop q.queue).2.length > 0 then (if q.sig = 0 then 1 else q.sig)
        else q.sig - 1
      else q.sig - 1 := by
  rw [next]
  dsimp only
  by_cases h1 : q.queue.length > 0
  · rw [if_pos h1, if_pos h1]
    dsimp only
    split
    · rw [sendSignal_sig]
    · split
      · rfl
      · next h3 => show q.sig = q.sig - 1 ; omega
  · rw [if_neg h1]
    dsimp only
    rw [if_neg h1, if_neg h1]
    split
    · rfl
    · next h3 => show q.sig = q.sig - 1 ; omega

theorem next_ok_queue_length (q : GoQueue α) (h : (next q).2.1 = true) :
    (next q).2.2.queue.length = q.queue.length - 1 := by
  by_cases hq : q.queue.length > 0
  · obtain ⟨-, -, h3⟩ := next_pop q hq
    rw [h3, heapPop_length]
    intro hnil
    rw [hnil] at hq
    simp at hq
  · have hnil : q.queue = [] := by
      cases hl : q.queue
      · rfl
      · rw [hl] at hq; simp at hq
    obtain ⟨-, h2, -, -⟩ := next_empty q hnil
    rw [h] at h2
    cases h2

/-! The joint signal invariant: across all reachable states the channel buffers at most
one value, and it buffers exactly one whenever the store is non-empty. -/

theorem reach_inv {q : GoQueue α} (h : Reach q) :
    q.sig ≤ 1 ∧ (q.queue ≠ [] → q.sig = 1) := by
  induction h with
  | new => exact ⟨by simp [newQueue], fun hne => absurd rfl hne⟩
  | app q d _ ih =>
    have h1 := ih.1
    have hs : (appendGo q d).sig = 1 := by
      rw [appendGo, appendQP, sendSignal_sig]
      dsimp only
      split <;> omega
    exact ⟨by omega, fun _ => hs⟩
  | appP q d p _ ih =>
    have h1 := ih.1
    have hs : (appendPriorityGo q d p).sig = 1 := by
      rw [appendPriorityGo, appendQP, sendSignal_sig]
      dsimp only
      split <;> omega
    exact ⟨by omega, fun _ => hs⟩
  | send q _ ih =>
    have h1 := ih.1
    rw [sendSignal_sig, sendSignal_queue]
    constructor
    · split <;> omega
    · intro hne
      have h2 := ih.2 hne
      split <;> omega
  | nxt q _ ih =>
    have hs := ih.1
    constructor
    · rw [next_sig]
      split_ifs <;> omega
    · intro hne
      rw [next_queue] at hne
      rw [next_sig]
      by_cases h1 : q.queue.length > 0
      · rw [if_pos h1] at hne ⊢
        by_cases h2 : (heapPop q.queue).2.length > 0
        · rw [if_pos h2]
          have hq1 : q.sig = 1 := by
            refine ih.2 ?_
            intro hnil
            rw [hnil] at h1
            simp at h1
          split <;> omega
        · refine absurd (List.length_eq_zero.mp (by omega)) hne
      · rw [if_neg h1] at hne
        exact absurd (by simpa [List.length_eq_zero] using h1) hne

/-! Full drain: the `Process` loop. -/

theorem processF_spec :
    ∀ (fuel : ℕ) (q : GoQueue α), q.queue.length < fuel →
      ((processF fuel q).1).Perm (q.queue.map (fun e => some e.Data)) ∧
        (processF fuel q).2.queue = [] := by
  intro fuel
  induction fuel with
  | zero => intro q hq; omega
  | succ fuel ih =>
    intro q hq
    rw [processF]
    dsimp only
    by_cases h1 : q.queue.length > 0
    · have hne : q.queue ≠ [] := by
        intro hnil
        rw [hnil] at h1
        simp at h1
      obtain ⟨hd, hok, hqueue⟩ := next_pop q h1
      obtain ⟨e, he, hperm⟩ :=
        heapPop_map_perm (fun e => some e.Data) (fun e x => rfl) q.queue hne
      rw [if_pos hok]
      dsimp only
      have hlen : (next q).2.2.queue.length < fuel := by
        have := next_ok_queue_length q hok
        omega
      obtain ⟨ihp, ihq⟩ := ih (next q).2.2 hlen
      refine ⟨?_, ihq⟩
      rw [hd, he]
      refine List.Perm.trans ?_ hperm
      simp only [Option.map_some']
      refine List.Perm.cons _ ?_
      rw [hqueue] at ihp
      exact ihp
    · have hnil : q.queue = [] := by
        simpa [List.length_eq_zero] using h1
      obtain ⟨-, hok, hqueue, -⟩ := next_empty q hnil
      rw [hok]
      simp only [Bool.false_eq_true, if_false]
      exact ⟨by rw [hnil]; simp, hqueue⟩

/-! Ordering machinery for the dequeue-order claim: the slice viewed through its
priorities, adjacent sortedness (the state of the store after the `Push`-time sorts),
and the binary-max-heap property that `heap.Pop`'s sift-down maintains. -/

/-- The priority stored at slot `i` (`0` for an out-of-range slot, which no lemma
relies on). -/
def priAt (l : PQ α) (i : ℕ) : Int :=
  ((l[i]?).map QElem.priority).getD 0

theorem priAt_of_lt (l : PQ α) (i : ℕ) (h : i < l.length) :
    priAt l i = (l.get ⟨i, h⟩).priority := by
  rw [priAt, List.getElem?_eq_getElem h]
  rfl

/-- `priorityQueue.Less` is the raw integer comparison of the stored priorities. -/
theorem pqLess_eq (l : PQ α) (i j : ℕ) (hi : i < l.length) (hj : j < l.length) :
    pqLess l i j = decide (priAt l j < priAt l i) := by
  rw [pqLess, List.getElem?_eq_getElem hi, List.getElem?_eq_getElem hj,
    priAt_of_lt l i hi, priAt_of_lt l j hj]
  rfl

/-- `pqSwap` exchanges the priorities of the two slots and leaves the rest alone. -/
theorem priAt_pqSwap (l : PQ α) (i j k : ℕ) (hi : i < l.length) (hj : j < l.length) :
    priAt (pqSwap l i j) k =
      if k = j then priAt l i else if k = i then priAt l j else priAt l k := by
  rw [pqSwap, List.getElem?_eq_getElem hi, List.getElem?_eq_getElem hj]
  dsimp only
  rw [priAt, List.getElem?_set, List.getElem?_set]
  simp only [List.length_set]
  by_cases hkj : j = k
  · subst hkj
    simp [hj, priAt_of_lt l i hi]
  · rw [if_neg hkj]
    by_cases hki : i = k
    · subst hki
      simp [hi, priAt_of_lt l j hj, hkj, Ne.symm hkj]
    · simp [hki, hkj, Ne.symm hki, Ne.symm hkj, priAt]

/-- Positions untouched by `pqSwap` keep their slot contents. -/
theorem pqSwap_getElem?_ne (l : PQ α) (i j k : ℕ) (hki : k ≠ i) (hkj : k ≠ j) :
    (pqSwap l i j)[k]? = l[k]? := by
  rw [pqSwap]
  split
  · rw [List.getElem?_set, List.getElem?_set]
    simp [Ne.symm hki, Ne.symm hkj]
  · rfl

/-- The store is sorted by descending priority, adjacent form. -/
def SortedAdj (l : PQ α) : Prop :=
  ∀ k, k + 1 < l.length → priAt l (k+1) ≤ priAt l k

theorem sortedAdj_mono (l : PQ α) (h : SortedAdj l) :
    ∀ (j : ℕ), j < l.length → ∀ i, i ≤ j → priAt l j ≤ priAt l i := by
  intro j
  induction j with
  | zero =>
    intro _ i hi
    interval_cases i
    exact le_refl _
  | succ j ih =>
    intro hj i hi
    rcases Nat.eq_or_lt_of_le hi with heq | hlt
    · rw [heq]
    · exact le_trans (h j hj) (ih (by omega) i (by omega))

/-- The binary max-heap property on priorities: every child slot within range carries a
priority no greater than its parent's. -/
def IsMaxHeap (l : PQ α) : Prop :=
  ∀ p c, c < l.length → (c = 2*p+1 ∨ c = 2*p+2) → priAt l c ≤ priAt l p

theorem sortedAdj_isMaxHeap (l : PQ α) (h : SortedAdj l) : IsMaxHeap l := by
  intro p c hc hpc
  refine sortedAdj_mono l h c hc p ?_
  omega

/-- In a max-heap the root carries a maximal priority. -/
theorem isMaxHeap_root_max (l : PQ α) (h : IsMaxHeap l) :
    ∀ k, k < l.length → priAt l k ≤ priAt l 0 := by
  intro k
  induction k using Nat.strong_induction_on with
  | _ k ih =>
    intro hk
    match k with
    | 0 => exact le_refl _
    | k+1 =>
      have hp : k + 1 = 2*(k/2)+1 ∨ k + 1 = 2*(k/2)+2 := by omega
      exact le_trans (h (k/2) (k+1) hk hp) (ih (k/2) (by omega) (by omega))

/-- Membership form of root-maximality. -/
theorem isMaxHeap_root_max_mem (l : PQ α) (h : IsMaxHeap l) (e : QElem α) (he : e ∈ l) :
    e.priority ≤ priAt l 0 := by
  obtain ⟨k, hk⟩ := List.get_of_mem he
  have : priAt l k = e.priority := by rw [priAt_of_lt l k k.isLt, hk]
  rw [← this]
  exact isMaxHeap_root_max l h k k.isLt

/-! Range-level machinery for the correctness proof of the embedded `sort.Sort`
(pdqsort).  `RangeP l l' a b` states that `l'` is obtained from `l` by rearranging the
`(payload, priority)` contents of the slot range `[a, b)` only; `SortedR l a b` states
that the slots of `[a, b)` are sorted by non-increasing priority (the ascending order
of `priorityQueue.Less`).  Every loop of the embedded sort is a chain of `pqSwap`
calls with both indices inside the worked range, so `RangeP` is established once for
`pqSwap` and then by induction for each loop. -/

/-- The slots through the projection that drops the `index` bookkeeping field. -/
def emap (l : PQ α) : List (α × Int) :=
  l.map (fun e => (e.Data, e.priority))

/-- `l'` arises from `l` by a permutation of the `(payload, priority)` contents of the
slot range `[a, b)`: same length, identical slots outside the range, and the same
contents overall. -/
def RangeP (l l' : PQ α) (a b : ℕ) : Prop :=
  l'.length = l.length ∧ (∀ k, k < a ∨ b ≤ k → l'[k]? = l[k]?) ∧ (emap l').Perm (emap l)

/-- The slot range `[a, b)` is sorted by non-increasing priority. -/
def SortedR (l : PQ α) (a b : ℕ) : Prop :=
  ∀ k, a ≤ k → k + 1 < b → priAt l (k+1) ≤ priAt l k

theorem emap_length (l : PQ α) : (emap l).length = l.length := by
  rw [emap, List.length_map]

theorem rangeP_refl (l : PQ α) (a b : ℕ) : RangeP l l a b :=
  ⟨rfl, fun _ _ => rfl, List.Perm.refl _⟩

theorem rangeP_trans {l1 l2 l3 : PQ α} {a b : ℕ} (h1 : RangeP l1 l2 a b)
    (h2 : RangeP l2 l3 a b) : RangeP l1 l3 a b :=
  ⟨h2.1.trans h1.1, fun k hk => (h2.2.1 k hk).trans (h1.2.1 k hk), h2.2.2.trans h1.2.2⟩

theorem rangeP_mono {l l' : PQ α} {a b : ℕ} (a2 b2 : ℕ) (h : RangeP l l' a b)
    (ha : a2 ≤ a) (hb : b ≤ b2) : RangeP l l' a2 b2 :=
  ⟨h.1, fun k hk => h.2.1 k (by omega), h.2.2⟩

theorem rangeP_priAt_outside {l l' : PQ α} {a b : ℕ} (h : RangeP l l' a b) (k : ℕ)
    (hk : k < a ∨ b ≤ k) : priAt l' k = priAt l k := by
  rw [priAt, priAt, h.2.1 k hk]

theorem rangeP_pqSwap (l : PQ α) (a b i j : ℕ) (hai : a ≤ i) (hib : i < b)
    (haj : a ≤ j) (hjb : j < b) : RangeP l (pqSwap l i j) a b := by
  refine ⟨pqSwap_length l i j, ?_, ?_⟩
  · intro k hk
    exact pqSwap_getElem?_ne l i j k (by omega) (by omega)
  · show ((pqSwap l i j).map (fun e => (e.Data, e.priority))).Perm
      (l.map (fun e => (e.Data, e.priority)))
    exact pqSwap_map_perm (fun e => (e.Data, e.priority)) (fun e x => rfl) l i j

theorem rangeP_take_eq {l l' : PQ α} {a b : ℕ} (h : RangeP l l' a b) :
    l'.take a = l.take a := by
  apply List.ext_getElem?
  intro i
  rw [List.getElem?_take, List.getElem?_take]
  by_cases hi : i < a
  · rw [if_pos hi, if_pos hi, h.2.1 i (Or.inl hi)]
  · rw [if_neg hi, if_neg hi]

theorem rangeP_drop_eq {l l' : PQ α} {a b : ℕ} (h : RangeP l l' a b) :
    l'.drop b = l.drop b := by
  apply List.ext_getElem?
  intro i
  rw [List.getElem?_drop, List.getElem?_drop, h.2.1 (b + i) (Or.inr (by omega))]

theorem emap_decomp (l : PQ α) (a b : ℕ) (hab : a ≤ b) :
    emap l = emap (l.take a) ++ (emap ((l.drop a).take (b - a)) ++ emap (l.drop b)) := by
  rw [emap, emap, emap, emap, ← List.map_append, ← List.map_append]
  congr 1
  conv_lhs => rw [← List.take_append_drop a l]
  congr 1
  conv_lhs => rw [← List.take_append_drop (b - a) (l.drop a)]
  congr 1
  rw [List.drop_drop]
  congr 1
  omega

theorem rangeP_mid_perm {l l' : PQ α} {a b : ℕ} (h : RangeP l l' a b) (hab : a ≤ b) :
    (emap ((l'.drop a).take (b - a))).Perm (emap ((l.drop a).take (b - a))) := by
  have hp := h.2.2
  rw [emap_decomp l a b hab, emap_decomp l' a b hab, rangeP_take_eq h,
    rangeP_drop_eq h] at hp
  exact (List.perm_append_right_iff _).mp ((List.perm_append_left_iff _).mp hp)

/-- Every slot of the worked range of `l'` carries the `(payload, priority)` contents
of some slot of the worked range of `l`. -/
theorem rangeP_exists {l l' : PQ α} {a b : ℕ} (h : RangeP l l' a b) (hb : b ≤ l.length) :
    ∀ k, a ≤ k → k < b → ∃ t, a ≤ t ∧ t < b ∧ priAt l' k = priAt l t := by
  intro k hak hkb
  have hmid := rangeP_mid_perm h (by omega)
  have hkl' : k < l'.length := by rw [h.1]; omega
  have he : l'[k]? = some (l'.get ⟨k, hkl'⟩) := List.getElem?_eq_getElem hkl'
  have hmem1 : ((l'.drop a).take (b - a))[k - a]? = some (l'.get ⟨k, hkl'⟩) := by
    rw [List.getElem?_take, if_pos (by omega), List.getElem?_drop]
    have h7 : a + (k - a) = k := by omega
    rw [h7, he]
  have hmem3 : ((l'.get ⟨k, hkl'⟩).Data, (l'.get ⟨k, hkl'⟩).priority) ∈
      emap ((l'.drop a).take (b - a)) := by
    rw [emap]
    obtain ⟨hlt9, heq9⟩ := List.getElem?_eq_some.mp hmem1
    exact List.mem_map_of_mem _ (heq9 ▸ List.getElem_mem hlt9)
  have hmem4 := hmid.subset hmem3
  rw [emap] at hmem4
  obtain ⟨x, hxmem, hxeq⟩ := List.mem_map.mp hmem4
  obtain ⟨t0, ht0⟩ := List.get_of_mem hxmem
  have hlenmid : ((l.drop a).take (b - a)).length = b - a := by
    rw [List.length_take, List.length_drop]
    omega
  have ht0lt : (t0 : ℕ) < b - a := by
    have h5 := t0.isLt
    omega
  have hgt : ((l.drop a).take (b - a))[(t0 : ℕ)]? = some x := by
    rw [List.getElem?_eq_getElem t0.isLt, ← ht0]
    rfl
  have hval : l[a + (t0 : ℕ)]? = some x := by
    have h6 := hgt
    rw [List.getElem?_take, if_pos ht0lt, List.getElem?_drop] at h6
    exact h6
  refine ⟨a + (t0 : ℕ), by omega, by omega, ?_⟩
  rw [priAt, priAt, he, hval]
  have hpri : (l'.get ⟨k, hkl'⟩).priority = x.priority := (congrArg Prod.snd hxeq).symm
  simp only [Option.map_some', Option.getD_some]
  exact hpri

/-- Pointwise priority bounds transfer across an in-range permutation. -/
theorem rangeP_transfer {l l' : PQ α} {a b : ℕ} (P : Int → Prop) (h : RangeP l l' a b)
    (hb : b ≤ l.length) (hP : ∀ k, a ≤ k → k < b → P (priAt l k)) :
    ∀ k, a ≤ k → k < b → P (priAt l' k) := by
  intro k h1 h2
  obtain ⟨t, ht1, ht2, ht3⟩ := rangeP_exists h hb k h1 h2
  rw [ht3]
  exact hP t ht1 ht2

theorem sortedR_vacuous (l : PQ α) (a b : ℕ) (h : b ≤ a + 1) : SortedR l a b := by
  intro k h1 h2
  omega

theorem sortedR_le {l : PQ α} {a b : ℕ} (h : SortedR l a b) :
    ∀ (j : ℕ), j < b → ∀ i, a ≤ i → i ≤ j → priAt l j ≤ priAt l i := by
  intro j
  induction j with
  | zero =>
    intro _ i _ h2
    have h3 : (0:ℕ) = i := by omega
    rw [h3]
  | succ j ih =>
    intro hj i h1 h2
    rcases Nat.eq_or_lt_of_le h2 with heq | hlt
    · rw [heq]
    · have hja : a ≤ j := by omega
      exact le_trans (h j hja hj) (ih (by omega) i h1 (by omega))

theorem sortedAdj_of_sortedR {l : PQ α} (h : SortedR l 0 l.length) : SortedAdj l :=
  fun k hk => h k (Nat.zero_le k) hk

/-! `RangeP` facts for each loop of the embedded sort: every loop only swaps slots
inside the range it was asked to work on. -/

theorem rangeP_insertionInner (a b : ℕ) :
    ∀ (j : ℕ) (l : PQ α), j < b → RangeP l (insertionInner l a j) a b := by
  intro j
  induction j with
  | zero => intro l _; exact rangeP_refl l a b
  | succ j ih =>
    intro l hj
    rw [insertionInner]
    split
    · next hcond =>
      simp only [Bool.and_eq_true, decide_eq_true_eq] at hcond
      exact rangeP_trans
        (rangeP_pqSwap l a b (j+1) j (by omega) hj (by omega) (by omega))
        (ih (pqSwap l (j+1) j) (by omega))
    · exact rangeP_refl l a b

theorem rangeP_insertionOuter (a b : ℕ) :
    ∀ (fuel i : ℕ) (l : PQ α), RangeP l (insertionOuter l a b i fuel) a b := by
  intro fuel
  induction fuel with
  | zero => intro i l; exact rangeP_refl l a b
  | succ fuel ih =>
    intro i l
    rw [insertionOuter]
    split
    · next hi =>
      exact rangeP_trans (rangeP_insertionInner a b i l hi) (ih (i+1) _)
    · exact rangeP_refl l a b

theorem rangeP_insertionSortGo (l : PQ α) (a b : ℕ) :
    RangeP l (insertionSortGo l a b) a b := by
  rw [insertionSortGo]
  exact rangeP_insertionOuter a b b (a+1) l

theorem rangeP_siftDownLoop (hi first a b : ℕ) (hfa : a ≤ first) (hb : first + hi ≤ b) :
    ∀ (fuel root : ℕ) (l : PQ α), RangeP l (siftDownLoop hi first l root fuel) a b := by
  intro fuel
  induction fuel with
  | zero => intro root l; exact rangeP_refl l a b
  | succ fuel ih =>
    intro root l
    rw [siftDownLoop]
    dsimp only
    split
    · next h1 =>
      split
      · next h2 =>
        have h2' : 2*root+1+1 < hi := by
          simp only [Bool.and_eq_true, decide_eq_true_eq] at h2
          exact h2.1
        split
        · exact rangeP_trans
            (rangeP_pqSwap l a b (first+root) (first+(2*root+1+1)) (by omega) (by omega)
              (by omega) (by omega))
            (ih _ _)
        · exact rangeP_refl l a b
      · split
        · exact rangeP_trans
            (rangeP_pqSwap l a b (first+root) (first+(2*root+1)) (by omega) (by omega)
              (by omega) (by omega))
            (ih _ _)
        · exact rangeP_refl l a b
    · exact rangeP_refl l a b

theorem rangeP_siftDownGo (l : PQ α) (lo hi first a b : ℕ) (hfa : a ≤ first)
    (hb : first + hi ≤ b) : RangeP l (siftDownGo l lo hi first) a b := by
  rw [siftDownGo]
  exact rangeP_siftDownLoop hi first a b hfa hb hi lo l

theorem rangeP_heapSortBuild (hi first a b : ℕ) (hfa : a ≤ first) (hb : first + hi ≤ b) :
    ∀ (i : ℕ) (l : PQ α), RangeP l (heapSortBuild hi first l i) a b := by
  intro i
  induction i with
  | zero =>
    intro l
    rw [heapSortBuild]
    exact rangeP_siftDownGo l 0 hi first a b hfa hb
  | succ i ih =>
    intro l
    rw [heapSortBuild]
    exact rangeP_trans (rangeP_siftDownGo l (i+1) hi first a b hfa hb) (ih _)

theorem rangeP_heapSortPop (first a b : ℕ) (hfa : a ≤ first) :
    ∀ (i : ℕ) (l : PQ α), first + i < b → RangeP l (heapSortPop first l i) a b := by
  intro i
  induction i with
  | zero =>
    intro l hib
    rw [heapSortPop]
    exact rangeP_trans
      (rangeP_pqSwap l a b first first (by omega) (by omega) (by omega) (by omega))
      (rangeP_siftDownGo _ 0 0 first a b hfa (by omega))
  | succ i ih =>
    intro l hib
    rw [heapSortPop]
    refine rangeP_trans
      (rangeP_pqSwap l a b first (first+i+1) (by omega) (by omega) (by omega) (by omega)) ?_
    refine rangeP_trans (rangeP_siftDownGo _ 0 (i+1) first a b hfa (by omega)) ?_
    exact ih _ (by omega)

theorem rangeP_heapSortGo (l : PQ α) (a b : ℕ) (hab : a ≤ b) :
    RangeP l (heapSortGo l a b) a b := by
  rw [heapSortGo]
  split
  · exact rangeP_refl l a b
  · next hne =>
    refine rangeP_trans (rangeP_heapSortBuild (b-a) a a b (le_refl a) (by omega)
      ((b-a-1)/2) l) ?_
    exact rangeP_heapSortPop a a b (le_refl a) (b-a-1) _ (by omega)

theorem rangeP_reverseLoop (a b : ℕ) :
    ∀ (fuel i j : ℕ) (l : PQ α), a ≤ i → j < b → RangeP l (reverseLoop l i j fuel) a b := by
  intro fuel
  induction fuel with
  | zero => intro i j l _ _; exact rangeP_refl l a b
  | succ fuel ih =>
    intro i j l hi hj
    rw [reverseLoop]
    split
    · next hij =>
      exact rangeP_trans (rangeP_pqSwap l a b i j hi (by omega) (by omega) hj)
        (ih (i+1) (j-1) _ (by omega) (by omega))
    · exact rangeP_refl l a b

theorem rangeP_reverseRangeGo (l : PQ α) (a b : ℕ) (hb : 1 ≤ b) :
    RangeP l (reverseRangeGo l a b) a b := by
  rw [reverseRangeGo]
  exact rangeP_reverseLoop a b b a (b-1) l (le_refl a) (by omega)

theorem rangeP_pisShiftRight (a b : ℕ) :
    ∀ (fuel t : ℕ) (l : PQ α), a + 1 ≤ t → RangeP l (pisShiftRight b l t fuel) a b := by
  intro fuel
  induction fuel with
  | zero => intro t l _; exact rangeP_refl l a b
  | succ fuel ih =>
    intro t l ht
    rw [pisShiftRight]
    split
    · next htb =>
      split
      · exact rangeP_trans (rangeP_pqSwap l a b t (t-1) (by omega) htb (by omega) (by omega))
          (ih (t+1) _ (by omega))
      · exact rangeP_refl l a b
    · exact rangeP_refl l a b

/-! Index bounds for the scanning loops of `partition` and `partitionEqual`. -/

theorem scanLt_ge (l : PQ α) (a j : ℕ) :
    ∀ (fuel i : ℕ), i ≤ scanLt l a j i fuel := by
  intro fuel
  induction fuel with
  | zero => intro i; exact le_refl i
  | succ fuel ih =>
    intro i
    rw [scanLt]
    split
    · exact le_trans (by omega) (ih (i+1))
    · exact le_refl i

theorem scanLt_le (l : PQ α) (a j : ℕ) :
    ∀ (fuel i : ℕ), i ≤ j + 1 → scanLt l a j i fuel ≤ j + 1 := by
  intro fuel
  induction fuel with
  | zero => intro i h; exact h
  | succ fuel ih =>
    intro i h
    rw [scanLt]
    split
    · next hc =>
      simp only [Bool.and_eq_true, decide_eq_true_eq] at hc
      exact ih (i+1) (by omega)
    · exact h

theorem scanGe_le (l : PQ α) (a i : ℕ) :
    ∀ (fuel j : ℕ), scanGe l a i j fuel ≤ j := by
  intro fuel
  induction fuel with
  | zero => intro j; exact le_refl j
  | succ fuel ih =>
    intro j
    rw [scanGe]
    split
    · exact le_trans (ih (j-1)) (by omega)
    · exact le_refl j

theorem scanGe_lb (l : PQ α) (a i : ℕ) :
    ∀ (fuel j : ℕ), i - 1 ≤ scanGe l a i j fuel ∨ scanGe l a i j fuel = j := by
  intro fuel
  induction fuel with
  | zero => intro j; exact Or.inr rfl
  | succ fuel ih =>
    intro j
    rw [scanGe]
    split
    · next hc =>
      simp only [Bool.and_eq_true, decide_eq_true_eq] at hc
      rcases ih (j-1) with h | h
      · exact Or.inl h
      · exact Or.inl (by omega)
    · exact Or.inr rfl

theorem scanLe_ge (l : PQ α) (a j : ℕ) :
    ∀ (fuel i : ℕ), i ≤ scanLe l a j i fuel := by
  intro fuel
  induction fuel with
  | zero => intro i; exact le_refl i
  | succ fuel ih =>
    intro i
    rw [scanLe]
    split
    · exact le_trans (by omega) (ih (i+1))
    · exact le_refl i

theorem scanLe_le (l : PQ α) (a j : ℕ) :
    ∀ (fuel i : ℕ), i ≤ j + 1 → scanLe l a j i fuel ≤ j + 1 := by
  intro fuel
  induction fuel with
  | zero => intro i h; exact h
  | succ fuel ih =>
    intro i h
    rw [scanLe]
    split
    · next hc =>
      simp only [Bool.and_eq_true, Bool.not_eq_true', decide_eq_true_eq] at hc
      exact ih (i+1) (by omega)
    · exact h

theorem scanGt_le (l : PQ α) (a i : ℕ) :
    ∀ (fuel j : ℕ), scanGt l a i j fuel ≤ j := by
  intro fuel
  induction fuel with
  | zero => intro j; exact le_refl j
  | succ fuel ih =>
    intro j
    rw [scanGt]
    split
    · exact le_trans (ih (j-1)) (by omega)
    · exact le_refl j

theorem scanGt_lb (l : PQ α) (a i : ℕ) :
    ∀ (fuel j : ℕ), i - 1 ≤ scanGt l a i j fuel ∨ scanGt l a i j fuel = j := by
  intro fuel
  induction fuel with
  | zero => intro j; exact Or.inr rfl
  | succ fuel ih =>
    intro j
    rw [scanGt]
    split
    · next hc =>
      simp only [Bool.and_eq_true, decide_eq_true_eq] at hc
      rcases ih (j-1) with h | h
      · exact Or.inl h
      · exact Or.inl (by omega)
    · exact Or.inr rfl

theorem rangeP_partLoop (a b : ℕ) :
    ∀ (fuel : ℕ) (l : PQ α) (i j : ℕ), a + 1 ≤ i → j ≤ b - 1 → 1 ≤ b →
      RangeP l (partLoop a b l i j fuel).1 a b := by
  intro fuel
  induction fuel with
  | zero => intro l i j _ _ _; exact rangeP_refl l a b
  | succ fuel ih =>
    intro l i j hi hj hb
    rw [partLoop]
    split
    · exact rangeP_refl l a b
    · next hij =>
      have h1 : i ≤ scanLt l a j i b := scanLt_ge l a j b i
      have h2 : scanGe l a (scanLt l a j i b) j b ≤ j := scanGe_le l a _ b j
      exact rangeP_trans
        (rangeP_pqSwap l a b _ _ (by omega) (by omega) (by omega) (by omega))
        (ih _ _ _ (by omega) (by omega) hb)

theorem partLoop_j_bounds (a b : ℕ) :
    ∀ (fuel : ℕ) (l : PQ α) (i j : ℕ), a + 1 ≤ i → a ≤ j → j ≤ b - 1 →
      a ≤ (partLoop a b l i j fuel).2.2 ∧ (partLoop a b l i j fuel).2.2 ≤ b - 1 := by
  intro fuel
  induction fuel with
  | zero => intro l i j _ hj1 hj2; exact ⟨hj1, hj2⟩
  | succ fuel ih =>
    intro l i j hi hj1 hj2
    rw [partLoop]
    split
    · next hij =>
      have h1 : i ≤ scanLt l a j i b := scanLt_ge l a j b i
      have h2 : scanGe l a (scanLt l a j i b) j b ≤ j := scanGe_le l a _ b j
      dsimp only
      rcases scanGe_lb l a (scanLt l a j i b) b j with h3 | h3
      · constructor
        · omega
        · omega
      · rw [h3]
        exact ⟨hj1, hj2⟩
    · next hij =>
      have h1 : i ≤ scanLt l a j i b := scanLt_ge l a j b i
      have h2 : scanGe l a (scanLt l a j i b) j b ≤ j := scanGe_le l a _ b j
      exact ih _ _ _ (by omega) (by omega) (by omega)

theorem rangeP_partitionGo (l : PQ α) (a b pivot : ℕ) (hp1 : a ≤ pivot) (hp2 : pivot < b) :
    RangeP l (partitionGo l a b pivot).1 a b := by
  rw [partitionGo]
  dsimp only
  have hswap0 : RangeP l (pqSwap l a pivot) a b :=
    rangeP_pqSwap l a b a pivot (le_refl a) (by omega) hp1 hp2
  set l0 := pqSwap l a pivot with hl0
  set i1 := scanLt l0 a (b - 1) (a + 1) b with hi1def
  set j1 := scanGe l0 a i1 (b - 1) b with hj1def
  have hi1 : a + 1 ≤ i1 := by rw [hi1def]; exact scanLt_ge l0 a (b-1) b (a+1)
  have hj1le : j1 ≤ b - 1 := by rw [hj1def]; exact scanGe_le l0 a i1 b (b-1)
  have hj1lb : i1 - 1 ≤ j1 ∨ j1 = b - 1 := by rw [hj1def]; exact scanGe_lb l0 a i1 b (b-1)
  split
  · next hgt =>
    have hj1a : a ≤ j1 := by omega
    exact rangeP_trans hswap0
      (rangeP_pqSwap l0 a b j1 a hj1a (by omega) (le_refl a) (by omega))
  · next hle =>
    have hij : i1 ≤ j1 := by omega
    refine rangeP_trans hswap0 ?_
    refine rangeP_trans
      (rangeP_pqSwap l0 a b i1 j1 (by omega) (by omega) (by omega) (by omega)) ?_
    refine rangeP_trans
      (rangeP_partLoop a b b (pqSwap l0 i1 j1) (i1+1) (j1-1) (by omega) (by omega)
        (by omega)) ?_
    have hjb := partLoop_j_bounds a b b (pqSwap l0 i1 j1) (i1+1) (j1-1) (by omega)
      (by omega) (by omega)
    exact rangeP_pqSwap _ a b (partLoop a b (pqSwap l0 i1 j1) (i1+1) (j1-1) b).2.2 a
      (by omega) (by omega) (le_refl a) (by omega)

theorem rangeP_partEqLoop (a b : ℕ) :
    ∀ (fuel : ℕ) (l : PQ α) (i j : ℕ), a + 1 ≤ i → j ≤ b - 1 → 1 ≤ b →
      RangeP l (partEqLoop a b l i j fuel).1 a b := by
  intro fuel
  induction fuel with
  | zero => intro l i j _ _ _; exact rangeP_refl l a b
  | succ fuel ih =>
    intro l i j hi hj hb
    rw [partEqLoop]
    split
    · exact rangeP_refl l a b
    · next hij =>
      have h1 : i ≤ scanLe l a j i b := scanLe_ge l a j b i
      have h2 : scanGt l a (scanLe l a j i b) j b ≤ j := scanGt_le l a _ b j
      exact rangeP_trans
        (rangeP_pqSwap l a b _ _ (by omega) (by omega) (by omega) (by omega))
        (ih _ _ _ (by omega) (by omega) hb)

theorem rangeP_partitionEqualGo (l : PQ α) (a b pivot : ℕ) (hp1 : a ≤ pivot)
    (hp2 : pivot < b) : RangeP l (partitionEqualGo l a b pivot).1 a b := by
  rw [partitionEqualGo]
  exact rangeP_trans (rangeP_pqSwap l a b a pivot (le_refl a) (by omega) hp1 hp2)
    (rangeP_partEqLoop a b b _ (a+1) (b-1) (by omega) (by omega) (by omega))

/-! `RangeP` for `breakPatterns`: the three swapped slots sit inside the range. -/

theorem bitsLenF_bound : ∀ (fuel n : ℕ), n ≤ fuel → 1 ≤ n →
    n < 2 ^ bitsLenF fuel n ∧ 2 ^ bitsLenF fuel n ≤ 2 * n := by
  intro fuel
  induction fuel with
  | zero => intro n h1 h2; omega
  | succ fuel ih =>
    intro n h1 h2
    match n, h2 with
    | n+1, _ =>
      rw [bitsLenF]
      by_cases hn : n = 0
      · subst hn
        have h0 : bitsLenF fuel ((0+1)/2) = 0 := by
          have h9 : (0+1)/2 = 0 := rfl
          rw [h9]
          cases fuel <;> rfl
        rw [h0, pow_succ, pow_zero]
        omega
      · have hge : 1 ≤ (n+1)/2 := by omega
        have hle : (n+1)/2 ≤ fuel := by omega
        obtain ⟨ha, hb⟩ := ih ((n+1)/2) hle hge
        rw [pow_succ]
        constructor
        · omega
        · omega

theorem bitsLen_bound (n : ℕ) (h : 1 ≤ n) :
    n < 2 ^ bitsLen n ∧ 2 ^ bitsLen n ≤ 2 * n :=
  bitsLenF_bound n n (le_refl n) h

theorem bpOther_lt (len modulus r : ℕ) (h1 : 1 ≤ len) (hmod : modulus ≤ 2 * len) :
    (if xorshiftNext r &&& (modulus - 1) ≥ len then (xorshiftNext r &&& (modulus - 1)) - len
      else xorshiftNext r &&& (modulus - 1)) < len := by
  have h0 : xorshiftNext r &&& (modulus - 1) ≤ modulus - 1 := Nat.and_le_right
  split
  · next hge => omega
  · next hlt => omega

theorem rangeP_bpLoop (a len idx modulus b : ℕ) (hlen : 1 ≤ len)
    (hmod : modulus ≤ 2 * len) (hb : a + len ≤ b) :
    ∀ (k i r : ℕ) (l : PQ α),
      (∀ t, i ≤ t → t < i + k → a ≤ idx - 1 + t ∧ idx - 1 + t < b) →
      RangeP l (bpLoop a len idx modulus l r i k) a b := by
  intro k
  induction k with
  | zero => intro i r l _; exact rangeP_refl l a b
  | succ k ih =>
    intro i r l hbd
    rw [bpLoop]
    have hother := bpOther_lt len modulus r hlen hmod
    have hme := hbd i (le_refl i) (by omega)
    refine rangeP_trans
      (rangeP_pqSwap l a b (idx - 1 + i)
        (a + (if xorshiftNext r &&& (modulus - 1) ≥ len
          then (xorshiftNext r &&& (modulus - 1)) - len
          else xorshiftNext r &&& (modulus - 1)))
        (by omega) (by omega) (by omega) (by omega)) ?_
    refine ih (i+1) _ _ ?_
    intro t ht1 ht2
    exact hbd t (by omega) (by omega)

theorem rangeP_breakPatternsGo (l : PQ α) (a b : ℕ) :
    RangeP l (breakPatternsGo l a b) a b := by
  rw [breakPatternsGo]
  split
  · next h8 =>
    obtain ⟨hb1, hb2⟩ := bitsLen_bound (b - a) (by omega)
    refine rangeP_bpLoop a (b-a) (a + ((b-a)/4)*2 - 1) (2 ^ bitsLen (b-a)) b (by omega)
      hb2 (by omega) 3 0 _ l ?_
    intro t ht1 ht2
    constructor
    · omega
    · omega
  · exact rangeP_refl l a b

/-! Correctness of `insertionSort(data, a, b)` on an arbitrary range: the inner loop
bubbles the element at the current outer index leftward into the sorted prefix.  The
invariants track the moving element at position `j` inside the processed prefix
`[a, S)`. -/

theorem insertionInner_bubble (a S : ℕ) :
    ∀ (j : ℕ) (l : PQ α), S ≤ l.length → j < S →
      (∀ k, a ≤ k → k + 1 < S → k + 1 ≠ j → priAt l (k+1) ≤ priAt l k) →
      (∀ k, j < k → k < S → priAt l k < priAt l j) →
      (∀ k, a + 1 ≤ j → j < k → k < S → priAt l k ≤ priAt l (j-1)) →
      ∀ k, a ≤ k → k + 1 < S →
        priAt (insertionInner l a j) (k+1) ≤ priAt (insertionInner l a j) k := by
  intro j
  induction j with
  | zero =>
    intro l _ _ I1 _ _ k hk1 hk2
    rw [insertionInner]
    exact I1 k hk1 hk2 (by omega)
  | succ j ih =>
    intro l hS hj I1 I2 I3 k hk1 hk2
    have hjm : j + 1 < l.length := by omega
    have hjm' : j < l.length := by omega
    rw [insertionInner]
    split
    · next hcond =>
      simp only [Bool.and_eq_true, decide_eq_true_eq] at hcond
      have haj : a ≤ j := by omega
      have hlt : priAt l j < priAt l (j+1) := by
        have hc2 := hcond.2
        rw [pqLess_eq l (j+1) j hjm hjm'] at hc2
        simpa using hc2
      have hswap := fun t => priAt_pqSwap l (j+1) j t hjm hjm'
      have hI1 : ∀ t, a ≤ t → t + 1 < S → t + 1 ≠ j →
          priAt (pqSwap l (j+1) j) (t+1) ≤ priAt (pqSwap l (j+1) j) t := by
        intro t ht0 ht htj
        rw [hswap (t+1), hswap t]
        by_cases h1 : t + 1 = j + 1
        · have ht0' : t = j := by omega
          rw [if_neg (by omega), if_pos h1, if_pos ht0']
          exact le_of_lt hlt
        · by_cases h2 : t = j + 1
          · rw [if_neg (by omega), if_neg h1, if_neg (by omega), if_pos h2]
            have ha := I3 (t+1) (by omega) (by omega) (by omega)
            simpa using ha
          · rw [if_neg htj, if_neg h1, if_neg (by omega), if_neg h2]
            exact I1 t ht0 ht (by omega)
      have hI2 : ∀ t, j < t → t < S → priAt (pqSwap l (j+1) j) t <
          priAt (pqSwap l (j+1) j) j := by
        intro t h1 h2
        rw [hswap t, hswap j, if_pos rfl]
        by_cases h3 : t = j
        · omega
        · by_cases h4 : t = j + 1
          · rw [if_neg h3, if_pos h4]
            exact hlt
          · rw [if_neg h3, if_neg h4]
            exact I2 t (by omega) h2
      have hI3 : ∀ t, a + 1 ≤ j → j < t → t < S →
          priAt (pqSwap l (j+1) j) t ≤ priAt (pqSwap l (j+1) j) (j-1) := by
        intro t h0 h1 h2
        have hb := I1 (j-1) (by omega) (by omega) (by omega)
        have hj1 : j - 1 + 1 = j := by omega
        rw [hj1] at hb
        have hj1v : priAt (pqSwap l (j+1) j) (j-1) = priAt l (j-1) := by
          rw [hswap (j-1), if_neg (by omega), if_neg (by omega)]
        rw [hswap t, hj1v]
        by_cases h3 : t = j
        · omega
        · by_cases h4 : t = j + 1
          · rw [if_neg h3, if_pos h4]
            exact hb
          · rw [if_neg h3, if_neg h4]
            have ha := I3 t (by omega) (by omega) h2
            have hc : j + 1 - 1 = j := by omega
            rw [hc] at ha
            exact le_trans ha hb
      exact ih (pqSwap l (j+1) j) (by rw [pqSwap_length]; exact hS) (by omega)
        hI1 hI2 hI3 k hk1 hk2
    · next hcond =>
      by_cases hja : a < j + 1
      · have hge : priAt l (j+1) ≤ priAt l j := by
          simp only [Bool.and_eq_true, decide_eq_true_eq, not_and] at hcond
          have hc2 := hcond hja
          rw [pqLess_eq l (j+1) j hjm hjm'] at hc2
          simpa using hc2
        by_cases hkj : k + 1 = j + 1
        · have hkk : k = j := by omega
          subst hkk
          exact hge
        · exact I1 k hk1 hk2 hkj
      · exact I1 k hk1 hk2 (by omega)

theorem insertionOuter_sortedR (a b : ℕ) :
    ∀ (fuel i : ℕ) (l : PQ α), b ≤ l.length → a + 1 ≤ i → b - i ≤ fuel →
      (∀ k, a ≤ k → k + 1 < i → priAt l (k+1) ≤ priAt l k) →
      ∀ k, a ≤ k → k + 1 < b →
        priAt (insertionOuter l a b i fuel) (k+1) ≤ priAt (insertionOuter l a b i fuel) k := by
  intro fuel
  induction fuel with
  | zero =>
    intro i l _ _ hfuel hsorted k hk1 hk2
    rw [insertionOuter]
    exact hsorted k hk1 (by omega)
  | succ fuel ih =>
    intro i l hb hi hfuel hsorted k hk1 hk2
    rw [insertionOuter]
    split
    · next hib =>
      have hstep : ∀ t, a ≤ t → t + 1 < i + 1 →
          priAt (insertionInner l a i) (t+1) ≤ priAt (insertionInner l a i) t := by
        refine insertionInner_bubble a (i+1) i l (by omega) (by omega) ?_ ?_ ?_
        · intro t ht0 ht1 ht2
          exact hsorted t ht0 (by omega)
        · intro t ht1 ht2
          omega
        · intro t ht0 ht1 ht2
          omega
      refine ih (i+1) (insertionInner l a i) ?_ (by omega) (by omega) hstep k hk1 hk2
      rw [insertionInner_length]
      exact hb
    · next hib =>
      exact hsorted k hk1 (by omega)

theorem insertionSortGo_sortedR (l : PQ α) (a b : ℕ) (hb : b ≤ l.length) :
    SortedR (insertionSortGo l a b) a b := by
  rw [insertionSortGo]
  intro k h1 h2
  refine insertionOuter_sortedR a b b (a+1) l hb (le_refl _) (by omega) ?_ k h1 h2
  intro t ht1 ht2
  omega

/-! Correctness of Go sort's `heapSort(data, a, b)`.  Its `siftDown` keeps the
`Less`-greatest — i.e. lowest-priority — element at the root of the worked prefix, and
the pop phase then moves that minimum behind the shrinking prefix, building the sorted
(non-increasing priority) range back to front.  `siftDownLoop_heapO` is the sift-down
lemma for this min-priority heap, offset by `first`, with the heap relation required of
parents at index `M` or above. -/

theorem siftDownLoop_heapO (hi first M : ℕ) :
    ∀ (fuel : ℕ) (l : PQ α) (root : ℕ), first + hi ≤ l.length → hi - root ≤ fuel →
      M ≤ root →
      (∀ p c, M ≤ p → c < hi → (c = 2*p+1 ∨ c = 2*p+2) → p ≠ root →
        priAt l (first+p) ≤ priAt l (first+c)) →
      (∀ c, c < hi → (c = 2*root+1 ∨ c = 2*root+2) →
        ∀ p, M ≤ p → (root = 2*p+1 ∨ root = 2*p+2) →
          priAt l (first+p) ≤ priAt l (first+c)) →
      ∀ p c, M ≤ p → c < hi → (c = 2*p+1 ∨ c = 2*p+2) →
        priAt (siftDownLoop hi first l root fuel) (first+p) ≤
          priAt (siftDownLoop hi first l root fuel) (first+c) := by
  intro fuel
  induction fuel with
  | zero =>
    intro l root _ hfuel _ Ha _ p c hMp hc hpc
    by_cases hpr : p = root
    · subst hpr
      omega
    · exact Ha p c hMp hc hpc hpr
  | succ fuel ih =>
    intro l root hln hfuel hMr Ha Hb p c hMp hc hpc
    rw [siftDownLoop]
    dsimp only
    by_cases h1 : 2*root+1 < hi
    · rw [if_pos h1]
      have hrlen : first + root < l.length := by omega
      have hcont : ∀ j, j < hi → (j = 2*root+1 ∨ j = 2*root+2) →
          (∀ c', c' < hi → (c' = 2*root+1 ∨ c' = 2*root+2) →
            priAt l (first+j) ≤ priAt l (first+c')) →
          priAt (if pqLess l (first+root) (first+j)
              then siftDownLoop hi first (pqSwap l (first+root) (first+j)) j fuel
              else l) (first+p) ≤
            priAt (if pqLess l (first+root) (first+j)
              then siftDownLoop hi first (pqSwap l (first+root) (first+j)) j fuel
              else l) (first+c) := by
        intro j hjn hjchild hjmin
        have hjlen : first + j < l.length := by omega
        by_cases hless : pqLess l (first+root) (first+j) = true
        · rw [if_pos hless]
          have hlt : priAt l (first+j) < priAt l (first+root) := by
            rw [pqLess_eq l (first+root) (first+j) hrlen hjlen] at hless
            simpa using hless
          have hswap := fun t => priAt_pqSwap l (first+root) (first+j) t hrlen hjlen
          have hrj : first + root ≠ first + j := by omega
          have hvi : priAt (pqSwap l (first+root) (first+j)) (first+root) =
              priAt l (first+j) := by
            rw [hswap (first+root), if_neg hrj, if_pos rfl]
          have hvj : priAt (pqSwap l (first+root) (first+j)) (first+j) =
              priAt l (first+root) := by
            rw [hswap (first+j), if_pos rfl]
          have Ha2 : ∀ p' c', M ≤ p' → c' < hi → (c' = 2*p'+1 ∨ c' = 2*p'+2) → p' ≠ j →
              priAt (pqSwap l (first+root) (first+j)) (first+p') ≤
                priAt (pqSwap l (first+root) (first+j)) (first+c') := by
            intro p' c' hMp' hc' hpc' hp'j
            by_cases hp'r : p' = root
            · rw [hp'r]
              rw [hp'r] at hpc'
              by_cases hc'j : c' = j
              · rw [hc'j, hvi, hvj]
                exact le_of_lt hlt
              · have hvc : priAt (pqSwap l (first+root) (first+j)) (first+c') =
                    priAt l (first+c') := by
                  rw [hswap (first+c'), if_neg (by omega), if_neg (by omega)]
                rw [hvc, hvi]
                exact hjmin c' hc' hpc'
            · have hvp : priAt (pqSwap l (first+root) (first+j)) (first+p') =
                  priAt l (first+p') := by
                rw [hswap (first+p'), if_neg (by omega), if_neg (by omega)]
              by_cases hc'r : c' = root
              · rw [hc'r] at hpc' ⊢
                rw [hvi, hvp]
                exact Hb j hjn hjchild p' hMp' hpc'
              · by_cases hc'j : c' = j
                · rw [hc'j] at hpc'
                  omega
                · have hvc : priAt (pqSwap l (first+root) (first+j)) (first+c') =
                      priAt l (first+c') := by
                    rw [hswap (first+c'), if_neg (by omega), if_neg (by omega)]
                  rw [hvc, hvp]
                  exact Ha p' c' hMp' hc' hpc' hp'r
          have Hb2 : ∀ c', c' < hi → (c' = 2*j+1 ∨ c' = 2*j+2) →
              ∀ p', M ≤ p' → (j = 2*p'+1 ∨ j = 2*p'+2) →
                priAt (pqSwap l (first+root) (first+j)) (first+p') ≤
                  priAt (pqSwap l (first+root) (first+j)) (first+c') := by
            intro c' hc' hcj p' hMp' hjp'
            have hp'r : p' = root := by omega
            rw [hp'r]
            have hc'j : c' ≠ j := by omega
            have hc'r : c' ≠ root := by omega
            have hvc : priAt (pqSwap l (first+root) (first+j)) (first+c') =
                priAt l (first+c') := by
              rw [hswap (first+c'), if_neg (by omega), if_neg (by omega)]
            rw [hvc, hvi]
            exact Ha j c' (by omega) hc' hcj (by omega)
          exact ih (pqSwap l (first+root) (first+j)) j
            (by rw [pqSwap_length]; exact hln) (by omega) (by omega) Ha2 Hb2 p c hMp hc hpc
        · rw [if_neg hless]
          have hge : priAt l (first+root) ≤ priAt l (first+j) := by
            rw [pqLess_eq l (first+root) (first+j) hrlen hjlen] at hless
            simpa using hless
          by_cases hpr : p = root
          · subst hpr
            exact le_trans hge (hjmin c hc hpc)
          · exact Ha p c hMp hc hpc hpr
      split
      · next hch =>
        have hch2 : 2*root+1+1 < hi ∧
            priAt l (first+(2*root+1)+1) < priAt l (first+(2*root+1)) := by
          simp only [Bool.and_eq_true, decide_eq_true_eq] at hch
          refine ⟨hch.1, ?_⟩
          have hc2 := hch.2
          rw [pqLess_eq l (first+(2*root+1)) (first+(2*root+1)+1) (by omega) (by omega)] at hc2
          simpa using hc2
        refine hcont (2*root+1+1) (by omega) (by omega) ?_
        intro c' hc' hcases
        rcases hcases with hca | hcb
        · rw [hca]
          exact le_of_lt hch2.2
        · rw [hcb]
      · next hch =>
        have hch2 : ¬ (2*root+1+1 < hi) ∨
            priAt l (first+(2*root+1)) ≤ priAt l (first+(2*root+1)+1) := by
          by_cases h2 : 2*root+1+1 < hi
          · refine Or.inr ?_
            simp only [Bool.and_eq_true, decide_eq_true_eq, not_and] at hch
            have hc2 := hch h2
            rw [pqLess_eq l (first+(2*root+1)) (first+(2*root+1)+1) (by omega) (by omega)] at hc2
            simpa using hc2
          · exact Or.inl h2
        refine hcont (2*root+1) h1 (by omega) ?_
        intro c' hc' hcases
        rcases hcases with hca | hcb
        · rw [hca]
        · rcases hch2 with hna | hle
          · omega
          · rw [hcb]
            have h22 : first + (2*root+2) = first + (2*root+1) + 1 := by omega
            rw [h22]
            exact hle
    · rw [if_neg h1]
      by_cases hpr : p = root
      · subst hpr
        omega
      · exact Ha p c hMp hc hpc hpr

/-- In the min-priority heap of `heapSort`, the root of the worked prefix carries a
minimal priority. -/
theorem minHeapO_root (l : PQ α) (first hi : ℕ)
    (h : ∀ p c, c < hi → (c = 2*p+1 ∨ c = 2*p+2) →
      priAt l (first+p) ≤ priAt l (first+c)) :
    ∀ k, k < hi → priAt l first ≤ priAt l (first+k) := by
  intro k
  induction k using Nat.strong_induction_on with
  | _ k ih =>
    intro hk
    match k with
    | 0 => exact le_refl _
    | k+1 =>
      have hp : k + 1 = 2*(k/2)+1 ∨ k + 1 = 2*(k/2)+2 := by omega
      exact le_trans (ih (k/2) (by omega) (by omega)) (h (k/2) (k+1) hk hp)

/-- The build phase of `heapSort` establishes the min-priority heap relation on the
whole prefix, working from the last parent down to the root. -/
theorem heapSortBuild_heap (hi first : ℕ) :
    ∀ (i : ℕ) (l : PQ α), first + hi ≤ l.length →
      (∀ p c, i + 1 ≤ p → c < hi → (c = 2*p+1 ∨ c = 2*p+2) →
        priAt l (first+p) ≤ priAt l (first+c)) →
      ∀ p c, c < hi → (c = 2*p+1 ∨ c = 2*p+2) →
        priAt (heapSortBuild hi first l i) (first+p) ≤
          priAt (heapSortBuild hi first l i) (first+c) := by
  intro i
  induction i with
  | zero =>
    intro l hln Hinit p c hc hpc
    rw [heapSortBuild, siftDownGo]
    refine siftDownLoop_heapO hi first 0 hi l 0 hln (by omega) (by omega) ?_ ?_ p c
      (by omega) hc hpc
    · intro p' c' _ hc' hpc' hp'
      exact Hinit p' c' (by omega) hc' hpc'
    · intro c' _ _ p' _ hroot
      omega
  | succ i ih =>
    intro l hln Hinit p c hc hpc
    rw [heapSortBuild]
    refine ih (siftDownGo l (i+1) hi first) ?_ ?_ p c hc hpc
    · rw [siftDownGo_length]
      exact hln
    · intro p' c' hp' hc' hpc'
      rw [siftDownGo]
      refine siftDownLoop_heapO hi first (i+1) hi l (i+1) hln (by omega) (by omega)
        ?_ ?_ p' c' hp' hc' hpc'
      · intro p2 c2 hp2 hc2 hpc2 hp2r
        exact Hinit p2 c2 (by omega) hc2 hpc2
      · intro c2 _ _ p2 hp2 hroot
        omega

/-- The pop phase of `heapSort`: given the heap relation on the prefix `[0, i]`, a
sorted suffix behind it, and the bound that the suffix head is no greater than any
prefix slot, repeated root extraction sorts the whole range. -/
theorem heapSortPop_sortedR (first hi : ℕ) :
    ∀ (i : ℕ) (l : PQ α), first + hi ≤ l.length → i < hi →
      (∀ p c, c < i + 1 → (c = 2*p+1 ∨ c = 2*p+2) →
        priAt l (first+p) ≤ priAt l (first+c)) →
      (∀ t, i + 1 ≤ t → t + 1 < hi → priAt l (first+(t+1)) ≤ priAt l (first+t)) →
      (i + 1 < hi → ∀ k, k ≤ i → priAt l (first+(i+1)) ≤ priAt l (first+k)) →
      ∀ t, t + 1 < hi → priAt (heapSortPop first l i) (first+(t+1)) ≤
        priAt (heapSortPop first l i) (first+t) := by
  intro i
  induction i with
  | zero =>
    intro l hln hihi H1 H2 H3 t ht
    rw [heapSortPop, siftDownGo]
    have hflen : first < l.length := by omega
    have hsw : ∀ k, priAt (siftDownLoop 0 first (pqSwap l first first) 0 0) k =
        priAt l k := by
      intro k
      rw [siftDownLoop]
      rw [priAt_pqSwap l first first k hflen hflen]
      by_cases hk : k = first
      · rw [if_pos hk, hk]
      · rw [if_neg hk, if_neg hk]
    rw [hsw, hsw]
    cases t with
    | zero => exact H3 (by omega) 0 (by omega)
    | succ t2 => exact H2 (t2+1) (by omega) ht
  | succ i ih =>
    intro l hln hihi H1 H2 H3 t ht
    rw [heapSortPop]
    have hflen : first < l.length := by omega
    have hilen : first + (i+1) < l.length := by omega
    have he1 : first + (i+1) = first + i + 1 := by omega
    have hswap := fun k => priAt_pqSwap l first (first+i+1) k hflen (by omega)
    set l1 := pqSwap l first (first+i+1) with hl1
    have hlen1 : l1.length = l.length := by rw [hl1, pqSwap_length]
    have hv0 : priAt l1 (first+(i+1)) = priAt l first := by
      rw [he1, hswap (first+i+1), if_pos rfl]
    have hvtop : priAt l1 first = priAt l (first+(i+1)) := by
      rw [hswap first, if_neg (by omega), if_pos rfl, he1]
    have huntouched : ∀ k, k ≠ first → k ≠ first + (i+1) → priAt l1 k = priAt l k := by
      intro k h1 h2
      rw [hswap k, if_neg (by omega), if_neg h1]
    have hroot_min : ∀ k, k < i + 2 → priAt l first ≤ priAt l (first+k) :=
      minHeapO_root l first (i+2) H1
    set l2 := siftDownGo l1 0 (i+1) first with hl2
    have hl2r : RangeP l1 l2 first (first + (i+1)) := by
      rw [hl2]
      exact rangeP_siftDownGo l1 0 (i+1) first first (first+(i+1)) (le_refl first)
        (le_refl _)
    have hout : ∀ k, first + (i+1) ≤ k → priAt l2 k = priAt l1 k := by
      intro k hk
      exact rangeP_priAt_outside hl2r k (Or.inr hk)
    have hlen2 : l2.length = l.length := by
      rw [hl2, siftDownGo_length, hlen1]
    refine ih l2 (by omega) (by omega) ?_ ?_ ?_ t ht
    · -- heap relation on [0, i+1) restored by the sift
      intro p c hc hpc
      rw [hl2, siftDownGo]
      refine siftDownLoop_heapO (i+1) first 0 (i+1) l1 0 (by omega) (by omega) (by omega)
        ?_ ?_ p c (by omega) hc hpc
      · intro p2 c2 _ hc2 hpc2 hp2
        rw [huntouched (first+p2) (by omega) (by omega),
          huntouched (first+c2) (by omega) (by omega)]
        exact H1 p2 c2 (by omega) hpc2
      · intro c2 _ _ p2 _ hroot
        omega
    · -- suffix stays sorted, with the extracted root on its front
      intro t2 ht2 ht2b
      rw [hout (first+(t2+1)) (by omega), hout (first+t2) (by omega)]
      rcases Nat.eq_or_lt_of_le ht2 with heq | hlt2
      · rw [← heq, hv0, huntouched (first+(i+1+1)) (by omega) (by omega)]
        exact H3 (by omega) 0 (by omega)
      · rw [huntouched (first+(t2+1)) (by omega) (by omega),
          huntouched (first+t2) (by omega) (by omega)]
        exact H2 t2 (by omega) ht2b
    · -- every remaining heap slot is at least the new suffix head
      intro hi1 k hk
      have hv2 : priAt l2 (first+(i+1)) = priAt l first := by
        rw [hout (first+(i+1)) (le_refl _), hv0]
      rw [hv2]
      have hb1 : ∀ k2, first ≤ k2 → k2 < first + (i+1) →
          priAt l first ≤ priAt l1 k2 := by
        intro k2 hk2a hk2b
        by_cases hk2 : k2 = first
        · rw [hk2, hvtop]
          exact hroot_min (i+1) (by omega)
        · rw [huntouched k2 hk2 (by omega)]
          have hk2c : k2 - first < i + 2 := by omega
          have h5 := hroot_min (k2 - first) hk2c
          have h7 : first + (k2 - first) = k2 := by omega
          rw [h7] at h5
          exact h5
      have hb2 := rangeP_transfer (fun x => priAt l first ≤ x) hl2r (by omega) hb1
      exact hb2 (first+k) (by omega) (by omega)

/-- Go sort's `heapSort(data, a, b)` sorts the range `[a, b)` by non-increasing
priority. -/
theorem heapSortGo_sortedR (l : PQ α) (a b : ℕ) (hab : a ≤ b) (hb : b ≤ l.length) :
    SortedR (heapSortGo l a b) a b := by
  rw [heapSortGo]
  split
  · next h0 =>
    exact sortedR_vacuous l a b (by omega)
  · next h0 =>
    have hbuild := heapSortBuild_heap (b-a) a ((b-a-1)/2) l (by omega) ?_
    · have hpop := heapSortPop_sortedR a (b-a) (b-a-1) (heapSortBuild (b-a) a l ((b-a-1)/2))
        (by rw [heapSortBuild_length]; omega) (by omega) ?_ ?_ ?_
      · intro k h1 h2
        have h3 := hpop (k - a) (by omega)
        have e1 : a + (k - a + 1) = k + 1 := by omega
        have e2 : a + (k - a) = k := by omega
        rw [e1, e2] at h3
        exact h3
      · intro p c hc hpc
        exact hbuild p c (by omega) hpc
      · intro t ht1 ht2
        omega
      · intro h9 k hk
        omega
    · intro p c hp hc hpc
      omega

/-! Correctness of `partialInsertionSort(data, a, b)`: when it reports `true` the range
is sorted.  Its left-shift loop is bounded below by slot `1`, not by `a`; inside
`pdqsort` the slot `a-1` always carries a priority at least as large as every slot of
the range (`Hstop` below), which stops the walk at the range border. -/

theorem pisAdvance_spec (l : PQ α) (b : ℕ) :
    ∀ (fuel i : ℕ), b - i ≤ fuel → i ≤ b →
      i ≤ pisAdvance l b i fuel ∧ pisAdvance l b i fuel ≤ b ∧
      (∀ t, i ≤ t → t < pisAdvance l b i fuel → pqLess l t (t-1) = false) ∧
      (pisAdvance l b i fuel = b ∨ (pisAdvance l b i fuel < b ∧
        pqLess l (pisAdvance l b i fuel) (pisAdvance l b i fuel - 1) = true)) := by
  intro fuel
  induction fuel with
  | zero =>
    intro i hfuel hib
    rw [pisAdvance]
    refine ⟨le_refl i, hib, ?_, Or.inl (by omega)⟩
    intro t ht1 ht2
    omega
  | succ fuel ih =>
    intro i hfuel hib
    rw [pisAdvance]
    split
    · next hc =>
      simp only [Bool.and_eq_true, Bool.not_eq_true', decide_eq_true_eq] at hc
      obtain ⟨h1, h2, h3, h4⟩ := ih (i+1) (by omega) (by omega)
      refine ⟨by omega, h2, ?_, h4⟩
      intro t ht1 ht2
      rcases Nat.eq_or_lt_of_le ht1 with heq | hlt
      · rw [← heq]
        exact hc.2
      · exact h3 t (by omega) ht2
    · next hc =>
      simp only [Bool.and_eq_true, Bool.not_eq_true', decide_eq_true_eq, not_and] at hc
      refine ⟨le_refl i, hib, ?_, ?_⟩
      · intro t ht1 ht2
        omega
      · by_cases hib2 : i < b
        · refine Or.inr ⟨hib2, ?_⟩
          have h5 := hc hib2
          rcases Bool.eq_false_or_eq_true (pqLess l i (i-1)) with h6 | h6
          · exact h6
          · exact absurd h6 h5
        · exact Or.inl (by omega)

theorem sortedR_extend (l : PQ α) (a : ℕ) {i i2 b : ℕ} (hb : b ≤ l.length)
    (hi : a + 1 ≤ i) (hs : SortedR l a i)
    (hscan : ∀ t, i ≤ t → t < i2 → pqLess l t (t-1) = false) (hi2 : i2 ≤ b) :
    SortedR l a i2 := by
  intro k hk1 hk2
  by_cases hk3 : k + 1 < i
  · exact hs k hk1 hk3
  · have h6 := hscan (k+1) (by omega) (by omega)
    have e1 : k + 1 - 1 = k := by omega
    rw [e1, pqLess_eq l (k+1) k (by omega) (by omega)] at h6
    simp only [decide_eq_false_iff_not, not_lt] at h6
    exact h6

theorem pisShiftLeft_spec (a S b : ℕ) (hSb : S ≤ b) :
    ∀ (j : ℕ) (l : PQ α), b ≤ l.length → j < S → a ≤ j →
      (1 ≤ a → ∀ k, a ≤ k → k < b → priAt l k ≤ priAt l (a-1)) →
      (∀ k, a ≤ k → k + 1 < S → k + 1 ≠ j → priAt l (k+1) ≤ priAt l k) →
      (∀ k, j < k → k < S → priAt l k < priAt l j) →
      (∀ k, a + 1 ≤ j → j < k → k < S → priAt l k ≤ priAt l (j-1)) →
      RangeP l (pisShiftLeft l j) a b ∧
      ∀ k, a ≤ k → k + 1 < S →
        priAt (pisShiftLeft l j) (k+1) ≤ priAt (pisShiftLeft l j) k := by
  intro j
  induction j with
  | zero =>
    intro l hbl hjS haj Hstop I1 I2 I3
    rw [pisShiftLeft]
    exact ⟨rangeP_refl l a b, fun k hk1 hk2 => I1 k hk1 hk2 (by omega)⟩
  | succ j ih =>
    intro l hbl hjS haj Hstop I1 I2 I3
    rw [pisShiftLeft]
    split
    · next hcond =>
      have hjm : j + 1 < l.length := by omega
      have hjm2 : j < l.length := by omega
      have hlt : priAt l j < priAt l (j+1) := by
        rw [pqLess_eq l (j+1) j hjm hjm2] at hcond
        simpa using hcond
      have haj2 : a ≤ j := by
        rcases Nat.eq_or_lt_of_le haj with heq | hlt2
        · exfalso
          have hb1 := Hstop (by omega) (j+1) (by omega) (by omega)
          have hj0 : a - 1 = j := by omega
          rw [hj0] at hb1
          omega
        · omega
      have hR1 := rangeP_pqSwap l a b (j+1) j (by omega) (by omega) haj2 (by omega)
      have Hstop2 : 1 ≤ a → ∀ k, a ≤ k → k < b →
          priAt (pqSwap l (j+1) j) k ≤ priAt (pqSwap l (j+1) j) (a-1) := by
        intro ha1 k hk1 hk2
        have hout : priAt (pqSwap l (j+1) j) (a-1) = priAt l (a-1) :=
          rangeP_priAt_outside hR1 (a-1) (Or.inl (by omega))
        rw [hout]
        exact rangeP_transfer (fun x => x ≤ priAt l (a-1)) hR1 hbl
          (fun t ht1 ht2 => Hstop ha1 t ht1 ht2) k hk1 hk2
      have hswap := fun t => priAt_pqSwap l (j+1) j t hjm hjm2
      have hI1 : ∀ k, a ≤ k → k + 1 < S → k + 1 ≠ j →
          priAt (pqSwap l (j+1) j) (k+1) ≤ priAt (pqSwap l (j+1) j) k := by
        intro t ht0 ht htj
        rw [hswap (t+1), hswap t]
        by_cases h1 : t + 1 = j + 1
        · have ht0' : t = j := by omega
          rw [if_neg (by omega), if_pos h1, if_pos ht0']
          exact le_of_lt hlt
        · by_cases h2 : t = j + 1
          · rw [if_neg (by omega), if_neg h1, if_neg (by omega), if_pos h2]
            have ha := I3 (t+1) (by omega) (by omega) (by omega)
            simpa using ha
          · rw [if_neg htj, if_neg h1, if_neg (by omega), if_neg h2]
            exact I1 t ht0 ht (by omega)
      have hI2 : ∀ t, j < t → t < S → priAt (pqSwap l (j+1) j) t <
          priAt (pqSwap l (j+1) j) j := by
        intro t h1 h2
        rw [hswap t, hswap j, if_pos rfl]
        by_cases h3 : t = j
        · omega
        · by_cases h4 : t = j + 1
          · rw [if_neg h3, if_pos h4]
            exact hlt
          · rw [if_neg h3, if_neg h4]
            exact I2 t (by omega) h2
      have hI3 : ∀ t, a + 1 ≤ j → j < t → t < S →
          priAt (pqSwap l (j+1) j) t ≤ priAt (pqSwap l (j+1) j) (j-1) := by
        intro t h0 h1 h2
        have hb2 := I1 (j-1) (by omega) (by omega) (by omega)
        have hj1 : j - 1 + 1 = j := by omega
        rw [hj1] at hb2
        have hj1v : priAt (pqSwap l (j+1) j) (j-1) = priAt l (j-1) := by
          rw [hswap (j-1), if_neg (by omega), if_neg (by omega)]
        rw [hswap t, hj1v]
        by_cases h3 : t = j
        · omega
        · by_cases h4 : t = j + 1
          · rw [if_neg h3, if_pos h4]
            exact hb2
          · rw [if_neg h3, if_neg h4]
            have ha := I3 t (by omega) (by omega) h2
            have hc : j + 1 - 1 = j := by omega
            rw [hc] at ha
            exact le_trans ha hb2
      obtain ⟨hR, hS⟩ := ih (pqSwap l (j+1) j) (by rw [pqSwap_length]; exact hbl)
        (by omega) haj2 Hstop2 hI1 hI2 hI3
      exact ⟨rangeP_trans hR1 hR, hS⟩
    · next hcond =>
      refine ⟨rangeP_refl l a b, ?_⟩
      intro k hk1 hk2
      by_cases hkj : k + 1 = j + 1
      · have hge : priAt l (j+1) ≤ priAt l j := by
          rw [pqLess_eq l (j+1) j (by omega) (by omega)] at hcond
          simpa using hcond
        have hkk : k = j := by omega
        rw [hkj, hkk]
        exact hge
      · exact I1 k hk1 hk2 hkj

theorem pisOuter_spec (a b : ℕ) (hab : a + 1 ≤ b) :
    ∀ (steps i : ℕ) (l : PQ α), b ≤ l.length → a + 1 ≤ i → i ≤ b →
      (1 ≤ a → ∀ k, a ≤ k → k < b → priAt l k ≤ priAt l (a-1)) →
      SortedR l a i →
      RangeP l (pisOuter a b l i steps).1 a b ∧
      ((pisOuter a b l i steps).2 = true → SortedR (pisOuter a b l i steps).1 a b) := by
  intro steps
  induction steps with
  | zero =>
    intro i l hbl hi1 hi2 Hstop hs
    rw [pisOuter]
    refine ⟨rangeP_refl l a b, ?_⟩
    intro h
    exact absurd h (by simp)
  | succ steps ih =>
    intro i l hbl hi1 hi2 Hstop hs
    rw [pisOuter]
    obtain ⟨ha1, ha2, ha3, ha4⟩ := pisAdvance_spec l b b i (by omega) hi2
    set i2 := pisAdvance l b i b with hi2def
    have hsort2 : SortedR l a i2 := sortedR_extend l a hbl hi1 hs ha3 ha2
    split
    · next hcond =>
      refine ⟨rangeP_refl l a b, ?_⟩
      intro _
      rw [← hcond]
      exact hsort2
    · next hcond =>
      split
      · refine ⟨rangeP_refl l a b, ?_⟩
        intro h
        exact absurd h (by simp)
      · next h50 =>
        have hi2b : i2 < b ∧ pqLess l i2 (i2-1) = true := by
          rcases ha4 with h | h
          · exact absurd h hcond
          · exact h
        have hi2len : i2 < l.length := by omega
        have hi2len2 : i2 - 1 < l.length := by omega
        have hlt : priAt l (i2-1) < priAt l i2 := by
          have h5 := hi2b.2
          rw [pqLess_eq l i2 (i2-1) hi2len hi2len2] at h5
          simpa using h5
        have hR1 := rangeP_pqSwap l a b i2 (i2-1) (by omega) (by omega) (by omega)
          (by omega)
        set l1 := pqSwap l i2 (i2-1) with hl1
        have hlen1 : l1.length = l.length := by rw [hl1, pqSwap_length]
        have hswap := fun t => priAt_pqSwap l i2 (i2-1) t hi2len hi2len2
        have hst1 : 1 ≤ a → ∀ k, a ≤ k → k < b → priAt l1 k ≤ priAt l1 (a-1) := by
          intro ha0 k hk1 hk2
          have hout : priAt l1 (a-1) = priAt l (a-1) :=
            rangeP_priAt_outside hR1 (a-1) (Or.inl (by omega))
          rw [hout]
          exact rangeP_transfer (fun x => x ≤ priAt l (a-1)) hR1 hbl
            (fun t ht1 ht2 => Hstop ha0 t ht1 ht2) k hk1 hk2
        have hstep2 : RangeP l1 (if i2 - a ≥ 2 then pisShiftLeft l1 (i2-1) else l1) a b ∧
            SortedR (if i2 - a ≥ 2 then pisShiftLeft l1 (i2-1) else l1) a i2 := by
          split
          · next hge2 =>
            refine pisShiftLeft_spec a i2 b (by omega) (i2-1) l1 (by omega) (by omega)
              (by omega) hst1 ?_ ?_ ?_
            · intro k hk1 hk2 hk3
              have hu1 : priAt l1 (k+1) = priAt l (k+1) := by
                rw [hswap (k+1), if_neg (by omega), if_neg (by omega)]
              have hu2 : priAt l1 k = priAt l k := by
                rw [hswap k, if_neg (by omega), if_neg (by omega)]
              rw [hu1, hu2]
              exact hsort2 k hk1 (by omega)
            · intro k hk1 hk2
              omega
            · intro k hk0 hk1 hk2
              omega
          · next hge2 =>
            refine ⟨rangeP_refl l1 a b, ?_⟩
            intro k hk1 hk2
            omega
        set l2 := (if i2 - a ≥ 2 then pisShiftLeft l1 (i2-1) else l1) with hl2
        have hlen2 : l2.length = l.length := by rw [hstep2.1.1, hlen1]
        have hstep3 : RangeP l2 (if b - i2 ≥ 2 then pisShiftRight b l2 (i2+1) b else l2) a b ∧
            SortedR (if b - i2 ≥ 2 then pisShiftRight b l2 (i2+1) b else l2) a i2 := by
          split
          · next hge3 =>
            have hR3 : RangeP l2 (pisShiftRight b l2 (i2+1) b) i2 b :=
              rangeP_pisShiftRight i2 b b (i2+1) l2 (le_refl _)
            refine ⟨rangeP_mono a b hR3 (by omega) (le_refl b), ?_⟩
            intro k hk1 hk2
            have hu1 : priAt (pisShiftRight b l2 (i2+1) b) (k+1) = priAt l2 (k+1) :=
              rangeP_priAt_outside hR3 (k+1) (Or.inl (by omega))
            have hu2 : priAt (pisShiftRight b l2 (i2+1) b) k = priAt l2 k :=
              rangeP_priAt_outside hR3 k (Or.inl (by omega))
            rw [hu1, hu2]
            exact hstep2.2 k hk1 hk2
          · exact ⟨rangeP_refl l2 a b, hstep2.2⟩
        set l3 := (if b - i2 ≥ 2 then pisShiftRight b l2 (i2+1) b else l2) with hl3
        have hlen3 : l3.length = l.length := by rw [hstep3.1.1, hlen2]
        have hRall : RangeP l l3 a b :=
          rangeP_trans hR1 (rangeP_trans hstep2.1 hstep3.1)
        have hst3 : 1 ≤ a → ∀ k, a ≤ k → k < b → priAt l3 k ≤ priAt l3 (a-1) := by
          intro ha0 k hk1 hk2
          have hout : priAt l3 (a-1) = priAt l (a-1) :=
            rangeP_priAt_outside hRall (a-1) (Or.inl (by omega))
          rw [hout]
          exact rangeP_transfer (fun x => x ≤ priAt l (a-1)) hRall hbl
            (fun t ht1 ht2 => Hstop ha0 t ht1 ht2) k hk1 hk2
        obtain ⟨hRr, hSr⟩ := ih i2 l3 (by omega) (by omega) (by omega) hst3 hstep3.2
        exact ⟨rangeP_trans hRall hRr, hSr⟩

theorem partialInsertionSortGo_spec (l : PQ α) (a b : ℕ) (hb : b ≤ l.length)
    (hab : a + 1 ≤ b)
    (Hstop : 1 ≤ a → ∀ k, a ≤ k → k < b → priAt l k ≤ priAt l (a-1)) :
    RangeP l (partialInsertionSortGo l a b).1 a b ∧
    ((partialInsertionSortGo l a b).2 = true →
      SortedR (partialInsertionSortGo l a b).1 a b) := by
  rw [partialInsertionSortGo]
  exact pisOuter_spec a b hab 5 (a+1) l hb (le_refl _) hab Hstop
    (sortedR_vacuous l a (a+1) (le_refl _))

/-! Correctness of `partition` and `partitionEqual`: the two-pointer loops leave the
pivot slot `a` untouched, gather the elements ordered before the pivot on the left and
the rest on the right, and cross by exactly one. -/

theorem pqLess_true_iff (l : PQ α) (i j : ℕ) (hi : i < l.length) (hj : j < l.length) :
    pqLess l i j = true ↔ priAt l j < priAt l i := by
  rw [pqLess_eq l i j hi hj]
  simp

theorem pqLess_false_iff (l : PQ α) (i j : ℕ) (hi : i < l.length) (hj : j < l.length) :
    pqLess l i j = false ↔ priAt l i ≤ priAt l j := by
  rw [pqLess_eq l i j hi hj]
  simp [not_lt]

theorem pqLess_congr {l l' : PQ α} (i j : ℕ) (hi : l'[i]? = l[i]?) (hj : l'[j]? = l[j]?) :
    pqLess l' i j = pqLess l i j := by
  rw [pqLess, pqLess, hi, hj]

theorem priAt_congr {l l' : PQ α} (k : ℕ) (hk : l'[k]? = l[k]?) : priAt l' k = priAt l k := by
  rw [priAt, priAt, hk]

theorem scanLt_spec2 (l : PQ α) (a j : ℕ) :
    ∀ (fuel i : ℕ), j + 1 - i ≤ fuel →
      (∀ t, i ≤ t → t < scanLt l a j i fuel → pqLess l t a = true) ∧
      (scanLt l a j i fuel ≤ j → pqLess l (scanLt l a j i fuel) a = false) := by
  intro fuel
  induction fuel with
  | zero =>
    intro i hfuel
    rw [scanLt]
    refine ⟨fun t ht1 ht2 => by omega, fun h => by omega⟩
  | succ fuel ih =>
    intro i hfuel
    rw [scanLt]
    split
    · next hc =>
      simp only [Bool.and_eq_true, decide_eq_true_eq] at hc
      obtain ⟨s1, s2⟩ := ih (i+1) (by omega)
      refine ⟨?_, s2⟩
      intro t ht1 ht2
      rcases Nat.eq_or_lt_of_le ht1 with heq | hlt
      · rw [← heq]
        exact hc.2
      · exact s1 t (by omega) ht2
    · next hc =>
      simp only [Bool.and_eq_true, decide_eq_true_eq, not_and] at hc
      refine ⟨fun t ht1 ht2 => by omega, ?_⟩
      intro hij
      have h5 := hc hij
      rcases Bool.eq_false_or_eq_true (pqLess l i a) with h6 | h6
      · exact absurd h6 h5
      · exact h6

theorem scanGe_spec2 (l : PQ α) (a i : ℕ) (hi1 : 1 ≤ i) :
    ∀ (fuel j : ℕ), j + 2 - i ≤ fuel →
      (∀ t, scanGe l a i j fuel < t → t ≤ j → pqLess l t a = false) ∧
      (i ≤ scanGe l a i j fuel → pqLess l (scanGe l a i j fuel) a = true) := by
  intro fuel
  induction fuel with
  | zero =>
    intro j hfuel
    rw [scanGe]
    refine ⟨fun t ht1 ht2 => by omega, fun h => by omega⟩
  | succ fuel ih =>
    intro j hfuel
    rw [scanGe]
    split
    · next hc =>
      simp only [Bool.and_eq_true, Bool.not_eq_true', decide_eq_true_eq] at hc
      obtain ⟨hc1, hc2⟩ := hc
      obtain ⟨s1, s2⟩ := ih (j-1) (by omega)
      have hle := scanGe_le l a i fuel (j-1)
      refine ⟨?_, s2⟩
      intro t ht1 ht2
      rcases Nat.eq_or_lt_of_le ht2 with heq | hlt
      · rw [heq]
        exact hc2
      · exact s1 t ht1 (by omega)
    · next hc =>
      simp only [Bool.and_eq_true, Bool.not_eq_true', decide_eq_true_eq, not_and] at hc
      refine ⟨fun t ht1 ht2 => by omega, ?_⟩
      intro hij
      have h5 := hc hij
      rcases Bool.eq_false_or_eq_true (pqLess l j a) with h6 | h6
      · exact h6
      · exact absurd h6 h5

theorem scanLe_spec2 (l : PQ α) (a j : ℕ) :
    ∀ (fuel i : ℕ), j + 1 - i ≤ fuel →
      (∀ t, i ≤ t → t < scanLe l a j i fuel → pqLess l a t = false) ∧
      (scanLe l a j i fuel ≤ j → pqLess l a (scanLe l a j i fuel) = true) := by
  intro fuel
  induction fuel with
  | zero =>
    intro i hfuel
    rw [scanLe]
    refine ⟨fun t ht1 ht2 => by omega, fun h => by omega⟩
  | succ fuel ih =>
    intro i hfuel
    rw [scanLe]
    split
    · next hc =>
      simp only [Bool.and_eq_true, Bool.not_eq_true', decide_eq_true_eq] at hc
      obtain ⟨s1, s2⟩ := ih (i+1) (by omega)
      refine ⟨?_, s2⟩
      intro t ht1 ht2
      rcases Nat.eq_or_lt_of_le ht1 with heq | hlt
      · rw [← heq]
        exact hc.2
      · exact s1 t (by omega) ht2
    · next hc =>
      simp only [Bool.and_eq_true, Bool.not_eq_true', decide_eq_true_eq, not_and] at hc
      refine ⟨fun t ht1 ht2 => by omega, ?_⟩
      intro hij
      have h5 := hc hij
      rcases Bool.eq_false_or_eq_true (pqLess l a i) with h6 | h6
      · exact h6
      · exact absurd h6 h5

theorem scanGt_spec2 (l : PQ α) (a i : ℕ) (hi1 : 1 ≤ i) :
    ∀ (fuel j : ℕ), j + 2 - i ≤ fuel →
      (∀ t, scanGt l a i j fuel < t → t ≤ j → pqLess l a t = true) ∧
      (i ≤ scanGt l a i j fuel → pqLess l a (scanGt l a i j fuel) = false) := by
  intro fuel
  induction fuel with
  | zero =>
    intro j hfuel
    rw [scanGt]
    refine ⟨fun t ht1 ht2 => by omega, fun h => by omega⟩
  | succ fuel ih =>
    intro j hfuel
    rw [scanGt]
    split
    · next hc =>
      simp only [Bool.and_eq_true, decide_eq_true_eq] at hc
      obtain ⟨hc1, hc2⟩ := hc
      obtain ⟨s1, s2⟩ := ih (j-1) (by omega)
      refine ⟨?_, s2⟩
      intro t ht1 ht2
      rcases Nat.eq_or_lt_of_le ht2 with heq | hlt
      · rw [heq]
        exact hc2
      · exact s1 t ht1 (by omega)
    · next hc =>
      simp only [Bool.and_eq_true, decide_eq_true_eq, not_and] at hc
      refine ⟨fun t ht1 ht2 => by omega, ?_⟩
      intro hij
      have h5 := hc hij
      rcases Bool.eq_false_or_eq_true (pqLess l a j) with h6 | h6
      · exact absurd h6 h5
      · exact h6

theorem partLoop_spec (a b : ℕ) (hab : a < b) :
    ∀ (fuel : ℕ) (l : PQ α) (i j : ℕ), b ≤ l.length →
      a + 1 ≤ i → i ≤ j + 1 → a ≤ j → j ≤ b - 1 → j + 1 - i ≤ 2 * fuel →
      (∀ t, a + 1 ≤ t → t < i → pqLess l t a = true) →
      (∀ t, j < t → t ≤ b - 1 → pqLess l t a = false) →
      (partLoop a b l i j fuel).2.1 = (partLoop a b l i j fuel).2.2 + 1 ∧
      a ≤ (partLoop a b l i j fuel).2.2 ∧ (partLoop a b l i j fuel).2.2 ≤ b - 1 ∧
      (∀ t, a + 1 ≤ t → t < (partLoop a b l i j fuel).2.1 →
        pqLess (partLoop a b l i j fuel).1 t a = true) ∧
      (∀ t, (partLoop a b l i j fuel).2.2 < t → t ≤ b - 1 →
        pqLess (partLoop a b l i j fuel).1 t a = false) ∧
      (partLoop a b l i j fuel).1[a]? = l[a]? := by
  intro fuel
  induction fuel with
  | zero =>
    intro l i j hbl hi hij haj hjb hfuel Q4 Q5
    rw [partLoop]
    dsimp only
    exact ⟨by omega, by omega, by omega, fun t ht1 ht2 => Q4 t ht1 (by omega),
      fun t ht1 ht2 => Q5 t (by omega) ht2, rfl⟩
  | succ fuel ih =>
    intro l i j hbl hi hij haj hjb hfuel Q4 Q5
    rw [partLoop]
    obtain ⟨sLt1, sLt2⟩ := scanLt_spec2 l a j b i (by omega)
    have hi1ge : i ≤ scanLt l a j i b := scanLt_ge l a j b i
    have hi1le : scanLt l a j i b ≤ j + 1 := scanLt_le l a j b i hij
    set i1 := scanLt l a j i b with hi1def
    clear_value i1
    obtain ⟨sGe1, sGe2⟩ := scanGe_spec2 l a i1 (by omega) b j (by omega)
    have hj1le : scanGe l a i1 j b ≤ j := scanGe_le l a i1 b j
    have hj1lb : i1 - 1 ≤ scanGe l a i1 j b ∨ scanGe l a i1 j b = j := scanGe_lb l a i1 b j
    set j1 := scanGe l a i1 j b with hj1def
    clear_value j1
    have Q4e : ∀ t, a + 1 ≤ t → t < i1 → pqLess l t a = true := by
      intro t ht1 ht2
      by_cases ht3 : t < i
      · exact Q4 t ht1 ht3
      · exact sLt1 t (by omega) ht2
    have Q5e : ∀ t, j1 < t → t ≤ b - 1 → pqLess l t a = false := by
      intro t ht1 ht2
      by_cases ht3 : j < t
      · exact Q5 t ht3 ht2
      · exact sGe1 t ht1 (by omega)
    split
    · next hgt =>
      dsimp only
      have hij1 : i1 = j1 + 1 := by
        rcases hj1lb with h | h
        · omega
        · omega
      exact ⟨hij1, by omega, by omega, fun t ht1 ht2 => Q4e t ht1 ht2,
        fun t ht1 ht2 => Q5e t ht1 ht2, rfl⟩
    · next hle =>
      have hile : i1 ≤ j1 := by omega
      have hstopi : pqLess l i1 a = false := sLt2 (by omega)
      have hstopj : pqLess l j1 a = true := sGe2 hile
      have hne : i1 ≠ j1 := by
        intro h
        rw [h, hstopj] at hstopi
        exact Bool.noConfusion hstopi
      have hi1len : i1 < l.length := by omega
      have hj1len : j1 < l.length := by omega
      have halen : a < l.length := by omega
      have hane : a ≠ i1 ∧ a ≠ j1 := ⟨by omega, by omega⟩
      have hsw := fun t => priAt_pqSwap l i1 j1 t hi1len hj1len
      have hswa : (pqSwap l i1 j1)[a]? = l[a]? :=
        pqSwap_getElem?_ne l i1 j1 a hane.1 hane.2
      have hpva : priAt (pqSwap l i1 j1) a = priAt l a := priAt_congr a hswa
      have Q4s : ∀ t, a + 1 ≤ t → t < i1 + 1 → pqLess (pqSwap l i1 j1) t a = true := by
        intro t ht1 ht2
        by_cases ht3 : t = i1
        · rw [pqLess_true_iff _ t a (by rw [pqSwap_length]; omega)
            (by rw [pqSwap_length]; omega), hpva]
          have hv : priAt (pqSwap l i1 j1) t = priAt l j1 := by
            rw [ht3, hsw i1, if_neg hne, if_pos rfl]
          rw [hv]
          rw [pqLess_true_iff l j1 a hj1len halen] at hstopj
          exact hstopj
        · have hu1 : (pqSwap l i1 j1)[t]? = l[t]? :=
            pqSwap_getElem?_ne l i1 j1 t (by omega) (by omega)
          rw [pqLess_congr t a hu1 hswa]
          exact Q4e t ht1 (by omega)
      have Q5s : ∀ t, j1 - 1 < t → t ≤ b - 1 → pqLess (pqSwap l i1 j1) t a = false := by
        intro t ht1 ht2
        by_cases ht3 : t = j1
        · rw [pqLess_false_iff _ t a (by rw [pqSwap_length]; omega)
            (by rw [pqSwap_length]; omega), hpva]
          have hv : priAt (pqSwap l i1 j1) t = priAt l i1 := by
            rw [ht3, hsw j1, if_pos rfl]
          rw [hv]
          rw [pqLess_false_iff l i1 a hi1len halen] at hstopi
          exact hstopi
        · have hu1 : (pqSwap l i1 j1)[t]? = l[t]? :=
            pqSwap_getElem?_ne l i1 j1 t (by omega) (by omega)
          rw [pqLess_congr t a hu1 hswa]
          exact Q5e t (by omega) ht2
      obtain ⟨P1, P2, P3, P4, P5, P6⟩ := ih (pqSwap l i1 j1) (i1+1) (j1-1)
        (by rw [pqSwap_length]; exact hbl) (by omega) (by omega) (by omega) (by omega)
        (by omega) Q4s Q5s
      exact ⟨P1, P2, P3, P4, P5, P6.trans hswa⟩

theorem partitionGo_spec (l : PQ α) (a b pivot : ℕ) (hb : b ≤ l.length) (hp1 : a ≤ pivot)
    (hp2 : pivot < b) :
    RangeP l (partitionGo l a b pivot).1 a b ∧
    a ≤ (partitionGo l a b pivot).2.1 ∧ (partitionGo l a b pivot).2.1 < b ∧
    priAt (partitionGo l a b pivot).1 (partitionGo l a b pivot).2.1 = priAt l pivot ∧
    (∀ t, a ≤ t → t < (partitionGo l a b pivot).2.1 →
      priAt l pivot < priAt (partitionGo l a b pivot).1 t) ∧
    (∀ t, (partitionGo l a b pivot).2.1 < t → t < b →
      priAt (partitionGo l a b pivot).1 t ≤ priAt l pivot) := by
  refine ⟨rangeP_partitionGo l a b pivot hp1 hp2, ?_⟩
  rw [partitionGo]
  dsimp only
  have halen : a < l.length := by omega
  have hplen : pivot < l.length := by omega
  set l0 := pqSwap l a pivot with hl0
  have hlen0 : l0.length = l.length := by rw [hl0, pqSwap_length]
  have hpv : priAt l0 a = priAt l pivot := by
    rw [hl0, priAt_pqSwap l a pivot a halen hplen]
    by_cases h : a = pivot
    · rw [if_pos h, h]
    · rw [if_neg (by omega), if_pos rfl]
  set i1 := scanLt l0 a (b - 1) (a + 1) b with hi1def
  set j1 := scanGe l0 a i1 (b - 1) b with hj1def
  have hi1ge : a + 1 ≤ i1 := by rw [hi1def]; exact scanLt_ge l0 a (b-1) b (a+1)
  have hi1le : i1 ≤ b := by
    have h5 : i1 ≤ (b-1) + 1 := by rw [hi1def]; exact scanLt_le l0 a (b-1) b (a+1) (by omega)
    omega
  have hj1le : j1 ≤ b - 1 := by rw [hj1def]; exact scanGe_le l0 a i1 b (b-1)
  have hj1lb : i1 - 1 ≤ j1 ∨ j1 = b - 1 := by rw [hj1def]; exact scanGe_lb l0 a i1 b (b-1)
  obtain ⟨sLt1, sLt2⟩ := scanLt_spec2 l0 a (b-1) b (a+1) (by omega)
  obtain ⟨sGe1, sGe2⟩ := scanGe_spec2 l0 a i1 (by omega) b (b-1) (by omega)
  rw [← hi1def] at sLt1 sLt2
  rw [← hj1def] at sGe1 sGe2
  split
  · next hgt =>
    dsimp only
    have hij1 : i1 = j1 + 1 := by
      rcases hj1lb with h | h
      · omega
      · omega
    have hswf := fun t => priAt_pqSwap l0 j1 a t (by omega) (by omega)
    have hvmid : priAt (pqSwap l0 j1 a) j1 = priAt l pivot := by
      by_cases h : j1 = a
      · rw [hswf j1, if_pos h, h, hpv]
      · rw [hswf j1, if_neg h, if_pos rfl, hpv]
    refine ⟨by omega, by omega, hvmid, ?_, ?_⟩
    · intro t ht1 ht2
      by_cases h : t = a
      · have hja : a + 1 ≤ j1 := by omega
        rw [h, hswf a, if_pos rfl]
        have h6 := sLt1 j1 hja (by omega)
        rw [pqLess_true_iff l0 j1 a (by omega) (by omega), hpv] at h6
        exact h6
      · have hvt : priAt (pqSwap l0 j1 a) t = priAt l0 t := by
          rw [hswf t, if_neg h, if_neg (by omega)]
        rw [hvt]
        have h6 := sLt1 t (by omega) (by omega)
        rw [pqLess_true_iff l0 t a (by omega) (by omega), hpv] at h6
        exact h6
    · intro t ht1 ht2
      have hvt : priAt (pqSwap l0 j1 a) t = priAt l0 t := by
        rw [hswf t, if_neg (by omega), if_neg (by omega)]
      rw [hvt]
      have h6 := sGe1 t ht1 (by omega)
      rw [pqLess_false_iff l0 t a (by omega) (by omega), hpv] at h6
      exact h6
  · next hle =>
    dsimp only
    have hile : i1 ≤ j1 := by omega
    have hstopi : pqLess l0 i1 a = false := sLt2 (by omega)
    have hstopj : pqLess l0 j1 a = true := sGe2 hile
    have hne : i1 ≠ j1 := by
      intro h
      rw [h, hstopj] at hstopi
      exact Bool.noConfusion hstopi
    have hi1len : i1 < l0.length := by omega
    have hj1len : j1 < l0.length := by omega
    have halen0 : a < l0.length := by omega
    have hsw := fun t => priAt_pqSwap l0 i1 j1 t hi1len hj1len
    have hswa : (pqSwap l0 i1 j1)[a]? = l0[a]? :=
      pqSwap_getElem?_ne l0 i1 j1 a (by omega) (by omega)
    have hpva : priAt (pqSwap l0 i1 j1) a = priAt l pivot := by
      rw [priAt_congr a hswa, hpv]
    have Q4s : ∀ t, a + 1 ≤ t → t < i1 + 1 → pqLess (pqSwap l0 i1 j1) t a = true := by
      intro t ht1 ht2
      by_cases ht3 : t = i1
      · rw [pqLess_true_iff _ t a (by rw [pqSwap_length]; omega)
          (by rw [pqSwap_length]; omega)]
        have hv : priAt (pqSwap l0 i1 j1) t = priAt l0 j1 := by
          rw [ht3, hsw i1, if_neg hne, if_pos rfl]
        rw [hv, priAt_congr a hswa]
        rw [pqLess_true_iff l0 j1 a hj1len halen0] at hstopj
        exact hstopj
      · have hu1 : (pqSwap l0 i1 j1)[t]? = l0[t]? :=
          pqSwap_getElem?_ne l0 i1 j1 t (by omega) (by omega)
        rw [pqLess_congr t a hu1 hswa]
        exact sLt1 t ht1 (by omega)
    have Q5s : ∀ t, j1 - 1 < t → t ≤ b - 1 → pqLess (pqSwap l0 i1 j1) t a = false := by
      intro t ht1 ht2
      by_cases ht3 : t = j1
      · rw [pqLess_false_iff _ t a (by rw [pqSwap_length]; omega)
          (by rw [pqSwap_length]; omega)]
        have hv : priAt (pqSwap l0 i1 j1) t = priAt l0 i1 := by
          rw [ht3, hsw j1, if_pos rfl]
        rw [hv, priAt_congr a hswa]
        rw [pqLess_false_iff l0 i1 a hi1len halen0] at hstopi
        exact hstopi
      · have hu1 : (pqSwap l0 i1 j1)[t]? = l0[t]? :=
          pqSwap_getElem?_ne l0 i1 j1 t (by omega) (by omega)
        rw [pqLess_congr t a hu1 hswa]
        exact sGe1 t (by omega) ht2
    obtain ⟨P1, P2, P3, P4, P5, P6⟩ := partLoop_spec a b (by omega) b (pqSwap l0 i1 j1) (i1+1) (j1-1)
      (by rw [pqSwap_length]; omega) (by omega) (by omega) (by omega) (by omega)
      (by omega) Q4s Q5s
    set step := partLoop a b (pqSwap l0 i1 j1) (i1+1) (j1-1) b with hstepdef
    have hstepa : priAt step.1 a = priAt l pivot := by
      rw [priAt_congr a (P6.trans hswa), hpv]
    have hsteplen : step.1.length = l.length := by
      rw [hstepdef, partLoop_length, pqSwap_length, hlen0]
    have hswf := fun t => priAt_pqSwap step.1 step.2.2 a t (by omega) (by omega)
    have hvmid : priAt (pqSwap step.1 step.2.2 a) step.2.2 = priAt l pivot := by
      by_cases h : step.2.2 = a
      · rw [hswf step.2.2, if_pos h, h, hstepa]
      · rw [hswf step.2.2, if_neg h, if_pos rfl, hstepa]
    refine ⟨P2, by omega, hvmid, ?_, ?_⟩
    · intro t ht1 ht2
      by_cases h : t = a
      · rw [h, hswf a, if_pos rfl]
        have h6 := P4 step.2.2 (by omega) (by omega)
        rw [pqLess_true_iff step.1 step.2.2 a (by omega) (by omega), hstepa] at h6
        exact h6
      · have hvt : priAt (pqSwap step.1 step.2.2 a) t = priAt step.1 t := by
          rw [hswf t, if_neg h, if_neg (by omega)]
        rw [hvt]
        have h6 := P4 t (by omega) (by omega)
        rw [pqLess_true_iff step.1 t a (by omega) (by omega), hstepa] at h6
        exact h6
    · intro t ht1 ht2
      have hvt : priAt (pqSwap step.1 step.2.2 a) t = priAt step.1 t := by
        rw [hswf t, if_neg (by omega), if_neg (by omega)]
      rw [hvt]
      have h6 := P5 t ht1 (by omega)
      rw [pqLess_false_iff step.1 t a (by omega) (by omega), hstepa] at h6
      exact h6

theorem partEqLoop_spec (a b : ℕ) (hab : a < b) :
    ∀ (fuel : ℕ) (l : PQ α) (i j : ℕ), b ≤ l.length →
      a + 1 ≤ i → i ≤ j + 1 → a ≤ j → j ≤ b - 1 → j + 1 - i ≤ 2 * fuel →
      (∀ t, a + 1 ≤ t → t < i → pqLess l a t = false) →
      (∀ t, j < t → t ≤ b - 1 → pqLess l a t = true) →
      a + 1 ≤ (partEqLoop a b l i j fuel).2 ∧ (partEqLoop a b l i j fuel).2 ≤ b ∧
      (∀ t, a + 1 ≤ t → t < (partEqLoop a b l i j fuel).2 →
        pqLess (partEqLoop a b l i j fuel).1 a t = false) ∧
      (∀ t, (partEqLoop a b l i j fuel).2 ≤ t → t ≤ b - 1 →
        pqLess (partEqLoop a b l i j fuel).1 a t = true) ∧
      (partEqLoop a b l i j fuel).1[a]? = l[a]? := by
  intro fuel
  induction fuel with
  | zero =>
    intro l i j hbl hi hij haj hjb hfuel Q4 Q5
    rw [partEqLoop]
    dsimp only
    exact ⟨by omega, by omega, fun t ht1 ht2 => Q4 t ht1 (by omega),
      fun t ht1 ht2 => Q5 t (by omega) ht2, rfl⟩
  | succ fuel ih =>
    intro l i j hbl hi hij haj hjb hfuel Q4 Q5
    rw [partEqLoop]
    obtain ⟨sLt1, sLt2⟩ := scanLe_spec2 l a j b i (by omega)
    have hi1ge : i ≤ scanLe l a j i b := scanLe_ge l a j b i
    have hi1le : scanLe l a j i b ≤ j + 1 := scanLe_le l a j b i hij
    set i1 := scanLe l a j i b with hi1def
    clear_value i1
    obtain ⟨sGe1, sGe2⟩ := scanGt_spec2 l a i1 (by omega) b j (by omega)
    have hj1le : scanGt l a i1 j b ≤ j := scanGt_le l a i1 b j
    have hj1lb : i1 - 1 ≤ scanGt l a i1 j b ∨ scanGt l a i1 j b = j := scanGt_lb l a i1 b j
    set j1 := scanGt l a i1 j b with hj1def
    clear_value j1
    have Q4e : ∀ t, a + 1 ≤ t → t < i1 → pqLess l a t = false := by
      intro t ht1 ht2
      by_cases ht3 : t < i
      · exact Q4 t ht1 ht3
      · exact sLt1 t (by omega) ht2
    have Q5e : ∀ t, j1 < t → t ≤ b - 1 → pqLess l a t = true := by
      intro t ht1 ht2
      by_cases ht3 : j < t
      · exact Q5 t ht3 ht2
      · exact sGe1 t ht1 (by omega)
    split
    · next hgt =>
      dsimp only
      have hij1 : i1 = j1 + 1 := by
        rcases hj1lb with h | h
        · omega
        · omega
      exact ⟨by omega, by omega, fun t ht1 ht2 => Q4e t ht1 ht2,
        fun t ht1 ht2 => Q5e t (by omega) ht2, rfl⟩
    · next hle =>
      have hile : i1 ≤ j1 := by omega
      have hstopi : pqLess l a i1 = true := sLt2 (by omega)
      have hstopj : pqLess l a j1 = false := sGe2 hile
      have hne : i1 ≠ j1 := by
        intro h
        rw [h, hstopj] at hstopi
        exact Bool.noConfusion hstopi
      have hi1len : i1 < l.length := by omega
      have hj1len : j1 < l.length := by omega
      have halen : a < l.length := by omega
      have hsw := fun t => priAt_pqSwap l i1 j1 t hi1len hj1len
      have hswa : (pqSwap l i1 j1)[a]? = l[a]? :=
        pqSwap_getElem?_ne l i1 j1 a (by omega) (by omega)
      have hpva : priAt (pqSwap l i1 j1) a = priAt l a := priAt_congr a hswa
      have Q4s : ∀ t, a + 1 ≤ t → t < i1 + 1 → pqLess (pqSwap l i1 j1) a t = false := by
        intro t ht1 ht2
        by_cases ht3 : t = i1
        · rw [pqLess_false_iff _ a t (by rw [pqSwap_length]; omega)
            (by rw [pqSwap_length]; omega), hpva]
          have hv : priAt (pqSwap l i1 j1) t = priAt l j1 := by
            rw [ht3, hsw i1, if_neg hne, if_pos rfl]
          rw [hv]
          rw [pqLess_false_iff l a j1 halen hj1len] at hstopj
          exact hstopj
        · have hu1 : (pqSwap l i1 j1)[t]? = l[t]? :=
            pqSwap_getElem?_ne l i1 j1 t (by omega) (by omega)
          rw [pqLess_congr a t hswa hu1]
          exact Q4e t ht1 (by omega)
      have Q5s : ∀ t, j1 - 1 < t → t ≤ b - 1 → pqLess (pqSwap l i1 j1) a t = true := by
        intro t ht1 ht2
        by_cases ht3 : t = j1
        · rw [pqLess_true_iff _ a t (by rw [pqSwap_length]; omega)
            (by rw [pqSwap_length]; omega), hpva]
          have hv : priAt (pqSwap l i1 j1) t = priAt l i1 := by
            rw [ht3, hsw j1, if_pos rfl]
          rw [hv]
          rw [pqLess_true_iff l a i1 halen hi1len] at hstopi
          exact hstopi
        · have hu1 : (pqSwap l i1 j1)[t]? = l[t]? :=
            pqSwap_getElem?_ne l i1 j1 t (by omega) (by omega)
          rw [pqLess_congr a t hswa hu1]
          exact Q5e t (by omega) ht2
      obtain ⟨P1, P2, P3, P4, P5⟩ := ih (pqSwap l i1 j1) (i1+1) (j1-1)
        (by rw [pqSwap_length]; exact hbl) (by omega) (by omega) (by omega) (by omega)
        (by omega) Q4s Q5s
      exact ⟨P1, P2, P3, P4, P5.trans hswa⟩

theorem partitionEqualGo_spec (l : PQ α) (a b pivot : ℕ) (hb : b ≤ l.length)
    (hp1 : a ≤ pivot) (hp2 : pivot < b)
    (Hmax : ∀ k, a ≤ k → k < b → priAt l k ≤ priAt l pivot) :
    RangeP l (partitionEqualGo l a b pivot).1 a b ∧
    a + 1 ≤ (partitionEqualGo l a b pivot).2 ∧ (partitionEqualGo l a b pivot).2 ≤ b ∧
    (∀ t, a ≤ t → t < (partitionEqualGo l a b pivot).2 →
      priAt (partitionEqualGo l a b pivot).1 t = priAt l pivot) ∧
    (∀ t, (partitionEqualGo l a b pivot).2 ≤ t → t < b →
      priAt (partitionEqualGo l a b pivot).1 t < priAt l pivot) := by
  have hRall : RangeP l (partitionEqualGo l a b pivot).1 a b :=
    rangeP_partitionEqualGo l a b pivot hp1 hp2
  refine ⟨hRall, ?_⟩
  have hmaxT : ∀ k, a ≤ k → k < b →
      priAt (partitionEqualGo l a b pivot).1 k ≤ priAt l pivot :=
    rangeP_transfer (fun x => x ≤ priAt l pivot) hRall hb Hmax
  rw [partitionEqualGo] at hmaxT ⊢
  have halen : a < l.length := by omega
  have hplen : pivot < l.length := by omega
  set l0 := pqSwap l a pivot with hl0
  have hlen0 : l0.length = l.length := by rw [hl0, pqSwap_length]
  have hpv : priAt l0 a = priAt l pivot := by
    rw [hl0, priAt_pqSwap l a pivot a halen hplen]
    by_cases h : a = pivot
    · rw [if_pos h, h]
    · rw [if_neg (by omega), if_pos rfl]
  obtain ⟨P1, P2, P3, P4, P5⟩ := partEqLoop_spec a b (by omega) b l0 (a+1) (b-1) (by omega)
    (le_refl _) (by omega) (by omega) (by omega) (by omega)
    (fun t ht1 ht2 => by omega) (fun t ht1 ht2 => by omega)
  set lr := partEqLoop a b l0 (a+1) (b-1) b with hlrdef
  have hlenr : lr.1.length = l.length := by
    rw [hlrdef, partEqLoop_length, hlen0]
  have hra : priAt lr.1 a = priAt l pivot := by
    rw [priAt_congr a P5, hpv]
  refine ⟨P1, P2, ?_, ?_⟩
  · intro t ht1 ht2
    rcases Nat.eq_or_lt_of_le ht1 with heq | hlt
    · rw [← heq, hra]
    · have h6 := P3 t (by omega) ht2
      rw [pqLess_false_iff lr.1 a t (by omega) (by omega), hra] at h6
      have h7 := hmaxT t (by omega) (by omega)
      omega
  · intro t ht1 ht2
    have h6 := P4 t ht1 (by omega)
    rw [pqLess_true_iff lr.1 a t (by omega) (by omega), hra] at h6
    exact h6

theorem order2_fst (l : PQ α) (a b s : ℕ) :
    (order2 l a b s).1 = a ∨ (order2 l a b s).1 = b := by
  rw [order2]
  split
  · exact Or.inr rfl
  · exact Or.inl rfl

theorem order2_snd (l : PQ α) (a b s : ℕ) :
    (order2 l a b s).2.1 = a ∨ (order2 l a b s).2.1 = b := by
  rw [order2]
  split
  · exact Or.inl rfl
  · exact Or.inr rfl

theorem medianGo_fst (l : PQ α) (a b c s : ℕ) :
    (medianGo l a b c s).1 = a ∨ (medianGo l a b c s).1 = b ∨ (medianGo l a b c s).1 = c := by
  have e : (medianGo l a b c s).1
      = (order2 l (order2 l a b s).1
          (order2 l (order2 l a b s).2.1 c (order2 l a b s).2.2).1
          (order2 l (order2 l a b s).2.1 c (order2 l a b s).2.2).2.2).2.1 := rfl
  rw [e]
  rcases order2_snd l (order2 l a b s).1
      (order2 l (order2 l a b s).2.1 c (order2 l a b s).2.2).1
      (order2 l (order2 l a b s).2.1 c (order2 l a b s).2.2).2.2 with h3 | h3
  · rw [h3]
    rcases order2_fst l a b s with h | h
    · exact Or.inl h
    · exact Or.inr (Or.inl h)
  · rw [h3]
    rcases order2_fst l (order2 l a b s).2.1 c (order2 l a b s).2.2 with h | h
    · rw [h]
      rcases order2_snd l a b s with h2 | h2
      · exact Or.inl h2
      · exact Or.inr (Or.inl h2)
    · exact Or.inr (Or.inr h)

theorem medianAdjacentGo_fst (l : PQ α) (a s : ℕ) :
    (medianAdjacentGo l a s).1 = a - 1 ∨ (medianAdjacentGo l a s).1 = a ∨
      (medianAdjacentGo l a s).1 = a + 1 :=
  medianGo_fst l (a-1) a (a+1) s

theorem medianGo_bounds (l : PQ α) (x y z s lo hi : ℕ) (hx1 : lo ≤ x) (hx2 : x < hi)
    (hy1 : lo ≤ y) (hy2 : y < hi) (hz1 : lo ≤ z) (hz2 : z < hi) :
    lo ≤ (medianGo l x y z s).1 ∧ (medianGo l x y z s).1 < hi := by
  rcases medianGo_fst l x y z s with h | h | h
  · rw [h]; exact ⟨hx1, hx2⟩
  · rw [h]; exact ⟨hy1, hy2⟩
  · rw [h]; exact ⟨hz1, hz2⟩

theorem medianAdjacentGo_bounds (l : PQ α) (x s lo hi : ℕ) (h1 : lo + 1 ≤ x)
    (h2 : x + 1 < hi) :
    lo ≤ (medianAdjacentGo l x s).1 ∧ (medianAdjacentGo l x s).1 < hi := by
  rcases medianAdjacentGo_fst l x s with h | h | h
  · rw [h]; omega
  · rw [h]; omega
  · rw [h]; omega

theorem choosePivotGo_range (l : PQ α) (a b : ℕ) (hab : a < b) :
    a ≤ (choosePivotGo l a b).1 ∧ (choosePivotGo l a b).1 < b := by
  rw [choosePivotGo]
  dsimp only
  by_cases h8 : b - a ≥ 8
  · rw [if_pos h8]
    by_cases h50 : b - a ≥ 50
    · rw [if_pos h50]
      obtain ⟨hm11, hm12⟩ := medianAdjacentGo_bounds l (a + (b-a)/4*1) 0 a b
        (by omega) (by omega)
      set m1 := medianAdjacentGo l (a + (b-a)/4*1) 0 with hm1def
      clear_value m1
      obtain ⟨hm21, hm22⟩ := medianAdjacentGo_bounds l (a + (b-a)/4*2) m1.2 a b
        (by omega) (by omega)
      set m2 := medianAdjacentGo l (a + (b-a)/4*2) m1.2 with hm2def
      clear_value m2
      obtain ⟨hm31, hm32⟩ := medianAdjacentGo_bounds l (a + (b-a)/4*3) m2.2 a b
        (by omega) (by omega)
      set m3 := medianAdjacentGo l (a + (b-a)/4*3) m2.2 with hm3def
      clear_value m3
      obtain ⟨hk1, hk2⟩ := medianGo_bounds l m1.1 m2.1 m3.1 m3.2 a b
        hm11 hm12 hm21 hm22 hm31 hm32
      split
      · exact ⟨hk1, hk2⟩
      · exact ⟨hk1, hk2⟩
      · exact ⟨hk1, hk2⟩
    · rw [if_neg h50]
      obtain ⟨hk1, hk2⟩ := medianGo_bounds l (a + (b-a)/4*1) (a + (b-a)/4*2)
        (a + (b-a)/4*3) 0 a b (by omega) (by omega) (by omega) (by omega)
        (by omega) (by omega)
      split
      · exact ⟨hk1, hk2⟩
      · exact ⟨hk1, hk2⟩
      · exact ⟨hk1, hk2⟩
  · rw [if_neg h8]
    have hk : a ≤ a + (b - a) / 4 * 2 ∧ a + (b - a) / 4 * 2 < b := ⟨by omega, by omega⟩
    exact hk

theorem rangeP_pdqBreak (l : PQ α) (a b limit : ℕ) (wb : Bool) :
    RangeP l (pdqBreak l a b limit wb).1 a b := by
  rw [pdqBreak]
  split
  · exact rangeP_breakPatternsGo l a b
  · exact rangeP_refl l a b

theorem pdqPivot_spec (l1 : PQ α) (a b : ℕ) (hab : a < b) :
    RangeP l1 (pdqPivot l1 a b).1 a b ∧ a ≤ (pdqPivot l1 a b).2.1 ∧
      (pdqPivot l1 a b).2.1 < b := by
  obtain ⟨hc1, hc2⟩ := choosePivotGo_range l1 a b hab
  rw [pdqPivot]
  split
  · next h =>
    dsimp only
    exact ⟨rangeP_reverseRangeGo l1 a b (by omega), by omega, by omega⟩
  · next h =>
    dsimp only
    exact ⟨rangeP_refl l1 a b, hc1, hc2⟩

theorem pdqTryPis_spec (l2 : PQ α) (a b : ℕ) (wb wp : Bool) (hint : SortedHint)
    (hb : b ≤ l2.length) (hab : a + 1 ≤ b)
    (Hstop : 1 ≤ a → ∀ k, a ≤ k → k < b → priAt l2 k ≤ priAt l2 (a-1)) :
    RangeP l2 (pdqTryPis l2 a b wb wp hint).1 a b ∧
    ((pdqTryPis l2 a b wb wp hint).2 = true →
      SortedR (pdqTryPis l2 a b wb wp hint).1 a b) := by
  rw [pdqTryPis]
  split
  · exact partialInsertionSortGo_spec l2 a b hb hab Hstop
  · exact ⟨rangeP_refl l2 a b, fun h => Bool.noConfusion h⟩

theorem pdqsortRec_spec :
    ∀ (fuel : ℕ) (l : PQ α) (a b limit : ℕ) (wB wP : Bool),
      b ≤ l.length → b - a ≤ fuel →
      (1 ≤ a → ∀ k, a ≤ k → k < b → priAt l k ≤ priAt l (a-1)) →
      RangeP l (pdqsortRec l a b limit wB wP fuel) a b ∧
      SortedR (pdqsortRec l a b limit wB wP fuel) a b := by
  intro fuel
  induction fuel with
  | zero =>
    intro l a b limit wB wP hb hfuel Hctx
    rw [pdqsortRec]
    exact ⟨rangeP_refl l a b, sortedR_vacuous l a b (by omega)⟩
  | succ fuel ih =>
    intro l a b limit wB wP hb hfuel Hctx
    rw [pdqsortRec]
    by_cases h12 : b - a ≤ 12
    · rw [if_pos h12]
      exact ⟨rangeP_insertionSortGo l a b, insertionSortGo_sortedR l a b hb⟩
    · rw [if_neg h12]
      by_cases hlim : limit = 0
      · rw [if_pos hlim]
        exact ⟨rangeP_heapSortGo l a b (by omega), heapSortGo_sortedR l a b (by omega) hb⟩
      · rw [if_neg hlim]
        dsimp only
        have R0 := rangeP_pdqBreak l a b limit wB
        set st := pdqBreak l a b limit wB with hstdef
        clear_value st
        have hlen0 : st.1.length = l.length := R0.1
        obtain ⟨R1, hp1, hp2⟩ := pdqPivot_spec st.1 a b (by omega)
        set st2 := pdqPivot st.1 a b with hst2def
        clear_value st2
        have hlen1 : st2.1.length = l.length := by rw [R1.1, hlen0]
        have Hctx1 : 1 ≤ a → ∀ k, a ≤ k → k < b → priAt st2.1 k ≤ priAt st2.1 (a-1) := by
          intro ha k hk1 hk2
          have R01 : RangeP l st2.1 a b := rangeP_trans R0 R1
          have e1 : priAt st2.1 (a-1) = priAt l (a-1) :=
            rangeP_priAt_outside R01 (a-1) (Or.inl (by omega))
          rw [e1]
          exact rangeP_transfer (fun x => x ≤ priAt l (a-1)) R01 hb (Hctx ha) k hk1 hk2
        obtain ⟨R2, hS⟩ := pdqTryPis_spec st2.1 a b wB wP st2.2.2 (by omega) (by omega) Hctx1
        set pis := pdqTryPis st2.1 a b wB wP st2.2.2 with hpisdef
        clear_value pis
        have hlen2 : pis.1.length = l.length := by rw [R2.1, hlen1]
        have RL : RangeP l pis.1 a b := rangeP_trans (rangeP_trans R0 R1) R2
        have Hctx2 : 1 ≤ a → ∀ k, a ≤ k → k < b → priAt pis.1 k ≤ priAt pis.1 (a-1) := by
          intro ha k hk1 hk2
          have e1 : priAt pis.1 (a-1) = priAt l (a-1) :=
            rangeP_priAt_outside RL (a-1) (Or.inl (by omega))
          rw [e1]
          exact rangeP_transfer (fun x => x ≤ priAt l (a-1)) RL hb (Hctx ha) k hk1 hk2
        split
        · next hret =>
          exact ⟨RL, hS hret⟩
        · next hret =>
          split
          · next heqp =>
            simp only [Bool.and_eq_true, Bool.not_eq_true', decide_eq_true_eq] at heqp
            obtain ⟨ha0, hle⟩ := heqp
            have hpvle : priAt pis.1 (a-1) ≤ priAt pis.1 st2.2.1 :=
              (pqLess_false_iff pis.1 (a-1) st2.2.1 (by omega) (by omega)).mp hle
            have Hmax : ∀ k, a ≤ k → k < b → priAt pis.1 k ≤ priAt pis.1 st2.2.1 := by
              intro k hk1 hk2
              exact le_trans (Hctx2 (by omega) k hk1 hk2) hpvle
            obtain ⟨Pe1, Pe2, Pe3, Pe4, Pe5⟩ :=
              partitionEqualGo_spec pis.1 a b st2.2.1 (by omega) hp1 hp2 Hmax
            set pe := partitionEqualGo pis.1 a b st2.2.1 with hpedef
            clear_value pe
            have hlen3 : pe.1.length = l.length := by rw [Pe1.1, hlen2]
            have Hctx3 : 1 ≤ pe.2 → ∀ k, pe.2 ≤ k → k < b →
                priAt pe.1 k ≤ priAt pe.1 (pe.2 - 1) := by
              intro _ k hk1 hk2
              have e1 : priAt pe.1 (pe.2 - 1) = priAt pis.1 st2.2.1 :=
                Pe4 (pe.2 - 1) (by omega) (by omega)
              rw [e1]
              exact le_of_lt (Pe5 k hk1 hk2)
            obtain ⟨Rr, Sr⟩ := ih pe.1 pe.2 b st.2 wB wP (by omega) (by omega) Hctx3
            set res := pdqsortRec pe.1 pe.2 b st.2 wB wP fuel with hresdef
            clear_value res
            have hout : ∀ t, t < pe.2 → priAt res t = priAt pe.1 t := fun t ht =>
              rangeP_priAt_outside Rr t (Or.inl ht)
            have hconst : ∀ t, a ≤ t → t < pe.2 → priAt res t = priAt pis.1 st2.2.1 := by
              intro t ht1 ht2
              rw [hout t ht2]
              exact Pe4 t ht1 ht2
            have hlt : ∀ t, pe.2 ≤ t → t < b → priAt res t < priAt pis.1 st2.2.1 :=
              rangeP_transfer (fun x => x < priAt pis.1 st2.2.1) Rr (by omega) Pe5
            refine ⟨rangeP_trans RL (rangeP_trans Pe1
              (rangeP_mono a b Rr (by omega) (le_refl b))), ?_⟩
            intro k hk1 hk2
            by_cases hc1 : k + 1 < pe.2
            · rw [hconst (k+1) (by omega) hc1, hconst k hk1 (by omega)]
            · by_cases hc2 : k + 1 = pe.2
              · rw [hconst k hk1 (by omega)]
                exact le_of_lt (hlt (k+1) (by omega) hk2)
              · exact Sr k (by omega) hk2
          · next heqp =>
            obtain ⟨Pt1, Pt2, Pt3, Pt4, Pt5, Pt6⟩ :=
              partitionGo_spec pis.1 a b st2.2.1 (by omega) hp1 hp2
            set pt := partitionGo pis.1 a b st2.2.1 with hptdef
            clear_value pt
            have hlen3 : pt.1.length = l.length := by rw [Pt1.1, hlen2]
            split
            · next hless =>
              have HctxA : 1 ≤ a → ∀ k, a ≤ k → k < pt.2.1 →
                  priAt pt.1 k ≤ priAt pt.1 (a-1) := by
                intro ha k hk1 hk2
                have e1 : priAt pt.1 (a-1) = priAt pis.1 (a-1) :=
                  rangeP_priAt_outside Pt1 (a-1) (Or.inl (by omega))
                rw [e1]
                exact rangeP_transfer (fun x => x ≤ priAt pis.1 (a-1)) Pt1 (by omega)
                  (Hctx2 ha) k hk1 (by omega)
              obtain ⟨RA, SA⟩ := ih pt.1 a pt.2.1 st.2 true true (by omega) (by omega) HctxA
              set ia := pdqsortRec pt.1 a pt.2.1 st.2 true true fuel with hiadef
              clear_value ia
              have hlen4 : ia.length = l.length := by rw [RA.1, hlen3]
              have houtA : ∀ t, pt.2.1 ≤ t → priAt ia t = priAt pt.1 t := fun t ht =>
                rangeP_priAt_outside RA t (Or.inr ht)
              have HctxB : 1 ≤ pt.2.1 + 1 → ∀ k, pt.2.1 + 1 ≤ k → k < b →
                  priAt ia k ≤ priAt ia (pt.2.1 + 1 - 1) := by
                intro _ k hk1 hk2
                have e0 : pt.2.1 + 1 - 1 = pt.2.1 := by omega
                rw [e0, houtA pt.2.1 (le_refl _), Pt4, houtA k (by omega)]
                exact Pt6 k (by omega) hk2
              obtain ⟨RB, SB⟩ := ih ia (pt.2.1+1) b st.2
                (decide (min (pt.2.1 - a) (b - pt.2.1) ≥ (b - a) / 8)) pt.2.2
                (by omega) (by omega) HctxB
              set res := pdqsortRec ia (pt.2.1+1) b st.2
                (decide (min (pt.2.1 - a) (b - pt.2.1) ≥ (b - a) / 8)) pt.2.2 fuel with hresdef
              clear_value res
              have houtB : ∀ t, t < pt.2.1 + 1 → priAt res t = priAt ia t := fun t ht =>
                rangeP_priAt_outside RB t (Or.inl ht)
              have hmidv : priAt res pt.2.1 = priAt pis.1 st2.2.1 := by
                rw [houtB pt.2.1 (by omega), houtA pt.2.1 (le_refl _), Pt4]
              have hleft : ∀ t, a ≤ t → t < pt.2.1 → priAt pis.1 st2.2.1 < priAt res t := by
                intro t ht1 ht2
                rw [houtB t (by omega)]
                exact rangeP_transfer (fun x => priAt pis.1 st2.2.1 < x) RA (by omega)
                  Pt5 t ht1 ht2
              have hright : ∀ t, pt.2.1 + 1 ≤ t → t < b →
                  priAt res t ≤ priAt pis.1 st2.2.1 := by
                intro t ht1 ht2
                exact rangeP_transfer (fun x => x ≤ priAt pis.1 st2.2.1) RB (by omega)
                  (fun u hu1 hu2 => by
                    rw [houtA u (by omega)]
                    exact Pt6 u (by omega) hu2) t ht1 ht2
              have hsortL : ∀ k, a ≤ k → k + 1 < pt.2.1 →
                  priAt res (k+1) ≤ priAt res k := by
                intro k hk1 hk2
                rw [houtB (k+1) (by omega), houtB k (by omega)]
                exact SA k hk1 hk2
              refine ⟨rangeP_trans RL (rangeP_trans Pt1 (rangeP_trans
                (rangeP_mono a b RA (le_refl a) (by omega))
                (rangeP_mono a b RB (by omega) (le_refl b)))), ?_⟩
              intro k hk1 hk2
              by_cases hc1 : k + 1 < pt.2.1
              · exact hsortL k hk1 hc1
              · by_cases hc2 : k + 1 = pt.2.1
                · rw [hc2, hmidv]
                  exact le_of_lt (hleft k hk1 (by omega))
                · by_cases hc3 : k = pt.2.1
                  · rw [hc3, hmidv]
                    exact hright (pt.2.1+1) (le_refl _) (by omega)
                  · exact SB k (by omega) hk2
            · next hless =>
              have HctxB0 : 1 ≤ pt.2.1 + 1 → ∀ k, pt.2.1 + 1 ≤ k → k < b →
                  priAt pt.1 k ≤ priAt pt.1 (pt.2.1 + 1 - 1) := by
                intro _ k hk1 hk2
                have e0 : pt.2.1 + 1 - 1 = pt.2.1 := by omega
                rw [e0, Pt4]
                exact Pt6 k (by omega) hk2
              obtain ⟨RB0, SB0⟩ := ih pt.1 (pt.2.1+1) b st.2 true true
                (by omega) (by omega) HctxB0
              set ib := pdqsortRec pt.1 (pt.2.1+1) b st.2 true true fuel with hibdef
              clear_value ib
              have hlen4 : ib.length = l.length := by rw [RB0.1, hlen3]
              have houtB0 : ∀ t, t < pt.2.1 + 1 → priAt ib t = priAt pt.1 t := fun t ht =>
                rangeP_priAt_outside RB0 t (Or.inl ht)
              have HctxA0 : 1 ≤ a → ∀ k, a ≤ k → k < pt.2.1 →
                  priAt ib k ≤ priAt ib (a-1) := by
                intro ha k hk1 hk2
                rw [houtB0 (a-1) (by omega), houtB0 k (by omega)]
                have e1 : priAt pt.1 (a-1) = priAt pis.1 (a-1) :=
                  rangeP_priAt_outside Pt1 (a-1) (Or.inl (by omega))
                rw [e1]
                exact rangeP_transfer (fun x => x ≤ priAt pis.1 (a-1)) Pt1 (by omega)
                  (Hctx2 ha) k hk1 (by omega)
              obtain ⟨RA0, SA0⟩ := ih ib a pt.2.1 st.2
                (decide (min (pt.2.1 - a) (b - pt.2.1) ≥ (b - a) / 8)) pt.2.2
                (by omega) (by omega) HctxA0
              set res := pdqsortRec ib a pt.2.1 st.2
                (decide (min (pt.2.1 - a) (b - pt.2.1) ≥ (b - a) / 8)) pt.2.2 fuel with hresdef
              clear_value res
              have houtA0 : ∀ t, pt.2.1 ≤ t → priAt res t = priAt ib t := fun t ht =>
                rangeP_priAt_outside RA0 t (Or.inr ht)
              have hmidv : priAt res pt.2.1 = priAt pis.1 st2.2.1 := by
                rw [houtA0 pt.2.1 (le_refl _), houtB0 pt.2.1 (by omega), Pt4]
              have hleft : ∀ t, a ≤ t → t < pt.2.1 → priAt pis.1 st2.2.1 < priAt res t := by
                intro t ht1 ht2
                refine rangeP_transfer (fun x => priAt pis.1 st2.2.1 < x) RA0 (by omega)
                  ?_ t ht1 ht2
                intro u hu1 hu2
                rw [houtB0 u (by omega)]
                exact Pt5 u hu1 hu2
              have hright : ∀ t, pt.2.1 + 1 ≤ t → t < b →
                  priAt res t ≤ priAt pis.1 st2.2.1 := by
                intro t ht1 ht2
                rw [houtA0 t (by omega)]
                exact rangeP_transfer (fun x => x ≤ priAt pis.1 st2.2.1) RB0 (by omega)
                  (fun u hu1 hu2 => Pt6 u (by omega) hu2) t ht1 ht2
              have hsortR : ∀ k, pt.2.1 + 1 ≤ k → k + 1 < b →
                  priAt res (k+1) ≤ priAt res k := by
                intro k hk1 hk2
                rw [houtA0 (k+1) (by omega), houtA0 k (by omega)]
                exact SB0 k hk1 hk2
              refine ⟨rangeP_trans RL (rangeP_trans Pt1 (rangeP_trans
                (rangeP_mono a b RB0 (by omega) (le_refl b))
                (rangeP_mono a b RA0 (le_refl a) (by omega)))), ?_⟩
              intro k hk1 hk2
              by_cases hc1 : k + 1 < pt.2.1
              · exact SA0 k hk1 hc1
              · by_cases hc2 : k + 1 = pt.2.1
                · rw [hc2, hmidv]
                  exact le_of_lt (hleft k hk1 (by omega))
                · by_cases hc3 : k = pt.2.1
                  · rw [hc3, hmidv]
                    exact hright (pt.2.1+1) (le_refl _) (by omega)
                  · exact hsortR k (by omega) hk2

theorem sortSort_spec (l : PQ α) :
    SortedAdj (sortSort l) ∧ (emap (sortSort l)).Perm (emap l) ∧
      (sortSort l).length = l.length := by
  rw [sortSort]
  split
  · next h1 =>
    exact ⟨fun k hk => by omega, List.Perm.refl _, rfl⟩
  · next h1 =>
    obtain ⟨R, S⟩ := pdqsortRec_spec (l.length + 1) l 0 l.length (bitsLen l.length)
      true true (le_refl _) (by omega) (fun h => by omega)
    refine ⟨?_, R.2.2, R.1⟩
    apply sortedAdj_of_sortedR
    rw [R.1]
    exact S

theorem insertionInner_sorted (m : ℕ) :
    ∀ (j : ℕ) (l : PQ α), l.length = m → j < m →
      (∀ k, k + 1 < m → k + 1 ≠ j → priAt l (k+1) ≤ priAt l k) →
      (∀ k, j < k → k < m → priAt l k < priAt l j) →
      (∀ k, 1 ≤ j → j < k → k < m → priAt l k ≤ priAt l (j-1)) →
      ∀ k, k + 1 < m →
        priAt (insertionInner l 0 j) (k+1) ≤ priAt (insertionInner l 0 j) k := by
  intro j
  induction j with
  | zero =>
    intro l hm _ I1 _ _ k hk
    rw [insertionInner]
    exact I1 k hk (by omega)
  | succ j ih =>
    intro l hm hj I1 I2 I3 k hk
    have hjm : j + 1 < l.length := by omega
    have hjm' : j < l.length := by omega
    rw [insertionInner]
    split
    · next hcond =>
      have hlt : priAt l j < priAt l (j+1) := by
        rw [pqLess_eq l (j+1) j hjm hjm'] at hcond
        simp only [Bool.and_eq_true, decide_eq_true_eq] at hcond
        exact hcond.2
      have hswap := fun t => priAt_pqSwap l (j+1) j t hjm hjm'
      have hI1' : ∀ t, t + 1 < m → t + 1 ≠ j →
          priAt (pqSwap l (j+1) j) (t+1) ≤ priAt (pqSwap l (j+1) j) t := by
        intro t ht htj
        rw [hswap (t+1), hswap t]
        by_cases h1 : t + 1 = j + 1
        · have ht0 : t = j := by omega
          rw [if_neg (by omega), if_pos h1, if_pos ht0]
          exact le_of_lt hlt
        · by_cases h2 : t = j + 1
          · rw [if_neg (by omega), if_neg h1, if_neg (by omega), if_pos h2]
            have ha := I3 (t+1) (by omega) (by omega) (by omega)
            simpa using ha
          · rw [if_neg htj, if_neg h1, if_neg (by omega), if_neg h2]
            exact I1 t ht (by omega)
      have hI2' : ∀ t, j < t → t < m → priAt (pqSwap l (j+1) j) t <
          priAt (pqSwap l (j+1) j) j := by
        intro t h1 h2
        rw [hswap t, hswap j, if_pos rfl]
        by_cases h3 : t = j
        · omega
        · by_cases h4 : t = j + 1
          · rw [if_neg h3, if_pos h4]
            exact hlt
          · rw [if_neg h3, if_neg h4]
            exact I2 t (by omega) h2
      have hI3' : ∀ t, 1 ≤ j → j < t → t < m →
          priAt (pqSwap l (j+1) j) t ≤ priAt (pqSwap l (j+1) j) (j-1) := by
        intro t h0 h1 h2
        have hb := I1 (j-1) (by omega) (by omega)
        have hj1 : j - 1 + 1 = j := by omega
        rw [hj1] at hb
        have hj1v : priAt (pqSwap l (j+1) j) (j-1) = priAt l (j-1) := by
          rw [hswap (j-1), if_neg (by omega), if_neg (by omega)]
        rw [hswap t, hj1v]
        by_cases h3 : t = j
        · omega
        · by_cases h4 : t = j + 1
          · rw [if_neg h3, if_pos h4]
            exact hb
          · rw [if_neg h3, if_neg h4]
            have ha := I3 t (by omega) (by omega) h2
            have hc : j + 1 - 1 = j := by omega
            rw [hc] at ha
            exact le_trans ha hb
      exact ih (pqSwap l (j+1) j) (by rw [pqSwap_length]; exact hm) (by omega)
        hI1' hI2' hI3' k hk
    · next hcond =>
      have hge : priAt l (j+1) ≤ priAt l j := by
        rw [pqLess_eq l (j+1) j hjm hjm'] at hcond
        simp only [Bool.and_eq_true, decide_eq_true_eq, not_and] at hcond
        exact not_lt.mp (hcond (by omega))
      by_cases hkj : k + 1 = j + 1
      · have hkk : k = j := by omega
        subst hkk
        exact hge
      · exact I1 k hk hkj

/-- The inner loop does nothing when the new pair is already in order. -/
theorem insertionInner_noop (l : PQ α) (i : ℕ) (h1 : 1 ≤ i) (hi : i < l.length)
    (h : priAt l i ≤ priAt l (i-1)) : insertionInner l 0 i = l := by
  match i, h1 with
  | j+1, _ =>
    rw [insertionInner]
    split
    · next hcond =>
      rw [pqLess_eq l (j+1) j hi (by omega)] at hcond
      simp only [Bool.and_eq_true, decide_eq_true_eq] at hcond
      have : j + 1 - 1 = j := by omega
      rw [this] at h
      exact absurd hcond.2 (not_lt.mpr h)
    · rfl

/-- Once the loop counter reaches `b = m`, the outer loop stops. -/
theorem insertionOuter_at_end (m : ℕ) (l : PQ α) (fuel : ℕ) :
    insertionOuter l 0 m m fuel = l := by
  cases fuel with
  | zero => rfl
  | succ fuel =>
    rw [insertionOuter]
    simp

/-- The outer loop of `insertionSort(data, 0, m)`, run on a slice whose prefix
`[0, m-1)` is already sorted: the early iterations do nothing, the final one bubbles
the appended element into place, producing a fully sorted slice. -/
theorem insertionOuter_sorted (m : ℕ) :
    ∀ (fuel i : ℕ) (l : PQ α), l.length = m → 1 ≤ i → i ≤ m - 1 → m - i ≤ fuel →
      (∀ k, k + 1 < m → k + 1 ≠ m - 1 → priAt l (k+1) ≤ priAt l k) →
      ∀ k, k + 1 < m →
        priAt (insertionOuter l 0 m i fuel) (k+1) ≤ priAt (insertionOuter l 0 m i fuel) k := by
  intro fuel
  induction fuel with
  | zero => intro i l _ _ _ _ _ _ _; omega
  | succ fuel ih =>
    intro i l hm h1 hi hfuel hpre k hk
    rw [insertionOuter]
    rw [if_pos (by omega)]
    by_cases hlast : i < m - 1
    · have hnoop : insertionInner l 0 i = l := by
        refine insertionInner_noop l i h1 (by omega) ?_
        have := hpre (i-1) (by omega) (by omega)
        have hii : i - 1 + 1 = i := by omega
        rwa [hii] at this
      rw [hnoop]
      exact ih (i+1) l hm (by omega) (by omega) (by omega) hpre k hk
    · have hieq : i = m - 1 := by omega
      subst hieq
      have hsorted := insertionInner_sorted m (m-1) l hm (by omega)
        (fun k hk1 hk2 => hpre k hk1 hk2)
        (fun k hk1 hk2 => by omega)
        (fun k hk0 hk1 hk2 => by omega)
      have hstep : m - 1 + 1 = m := by omega
      rw [hstep, insertionOuter_at_end]
      exact hsorted k hk

/-- `insertionSort(data, 0, m)` on a slice whose prefix `[0, m-1)` is sorted yields a
sorted slice. -/
theorem insertionSortGo_sorted (l : PQ α) (m : ℕ) (hm : l.length = m) (h2 : 2 ≤ m)
    (hpre : ∀ k, k + 1 < m → k + 1 ≠ m - 1 → priAt l (k+1) ≤ priAt l k) :
    SortedAdj (insertionSortGo l 0 m) := by
  intro k hk
  rw [insertionSortGo_length, hm] at hk
  exact insertionOuter_sorted m m 1 l hm (by omega) (by omega) (by omega) hpre k hk

/-- For slices of at most 12 elements, `sort.Sort` is exactly
`insertionSort(data, 0, n)` (Go 1.19+: `pdqsort` immediately takes its
`length <= maxInsertion` branch; for `n <= 1` both are the identity). -/
theorem sortSort_small (l : PQ α) (h : l.length ≤ 12) :
    sortSort l = insertionSortGo l 0 l.length := by
  rw [sortSort]
  split
  · next h1 =>
    match l, h1 with
    | [], _ => rfl
    | [e], _ => rfl
  · next h1 =>
    have hfuel : l.length + 1 = Nat.succ l.length := rfl
    rw [hfuel, pdqsortRec]
    rw [if_pos (by omega)]

/-- `container/heap`'s `up` does nothing on a sorted slice: the new last element is
already no greater than its parent. -/
theorem upLoop_sorted_noop (l : PQ α) (h : SortedAdj l) (fuel j : ℕ) (hj : j < l.length) :
    upLoop l j fuel = l := by
  cases fuel with
  | zero => rfl
  | succ fuel =>
    rw [upLoop]
    have hcond : (((j-1)/2 = j : Bool) || !(pqLess l j ((j-1)/2))) = true := by
      by_cases hij : (j-1)/2 = j
      · simp [hij]
      · have hi : (j-1)/2 < l.length := by omega
        rw [pqLess_eq l j _ hj hi]
        have hmono := sortedAdj_mono l h j hj ((j-1)/2) (by omega)
        simp [not_lt.mpr hmono]
    simp only [hcond, if_true]

/-- Appending keeps the slots of the original prefix. -/
theorem priAt_append_lt (l : PQ α) (x : QElem α) (t : ℕ) (ht : t < l.length) :
    priAt (l ++ [x]) t = priAt l t := by
  rw [priAt, priAt, List.getElem?_append, if_pos ht]

/-- `heap.Push` always leaves the store sorted: `sort.Sort` sorts the appended slice
and `up` then does nothing on a sorted slice. -/
theorem heapPush_sorted (l : PQ α) (e : QElem α) : SortedAdj (heapPush l e) := by
  rw [heapPush]
  set x : QElem α := { e with index := (l.length : Int) } with hx
  obtain ⟨hS, hP, hL⟩ := sortSort_spec (l ++ [x])
  have hlen1 : (sortSort (l ++ [x])).length = l.length + 1 := by
    rw [hL]
    simp
  rw [upLoop_sorted_noop _ hS _ _ (by omega)]
  exact hS

/-- Slots at or beyond the sift range are untouched by `down`. -/
theorem downLoop_untouched (n : ℕ) :
    ∀ (fuel i k : ℕ) (l : PQ α), n ≤ k → (downLoop n l i fuel)[k]? = l[k]? := by
  intro fuel
  induction fuel with
  | zero => intro i k l _; rfl
  | succ fuel ih =>
    intro i k l hk
    rw [downLoop]
    dsimp only
    split
    · next h1 =>
      split
      · next h2 =>
        simp only [Bool.and_eq_true, decide_eq_true_eq] at h2
        split
        · rw [ih _ _ _ hk]
          exact pqSwap_getElem?_ne l i _ k (by omega) (by omega)
        · rfl
      · split
        · rw [ih _ _ _ hk]
          exact pqSwap_getElem?_ne l i _ k (by omega) (by omega)
        · rfl
    · rfl

/-- The classic sift-down lemma for `container/heap`'s `down`: if every parent-child
pair within `[0, n)` is in heap order except possibly the pairs out of `i`, and `i`'s
children are dominated by `i`'s parent, then after the sift the whole prefix is in
heap order.  The fuel never runs out because the root index strictly increases. -/
theorem downLoop_heap (n : ℕ) :
    ∀ (fuel : ℕ) (l : PQ α) (i : ℕ), n ≤ l.length → n - i ≤ fuel →
      (∀ p c, c < n → (c = 2*p+1 ∨ c = 2*p+2) → p ≠ i → priAt l c ≤ priAt l p) →
      (∀ c, c < n → (c = 2*i+1 ∨ c = 2*i+2) →
        ∀ p, (i = 2*p+1 ∨ i = 2*p+2) → priAt l c ≤ priAt l p) →
      ∀ p c, c < n → (c = 2*p+1 ∨ c = 2*p+2) →
        priAt (downLoop n l i fuel) c ≤ priAt (downLoop n l i fuel) p := by
  intro fuel
  induction fuel with
  | zero =>
    intro l i _ hfuel Ha _ p c hc hpc
    by_cases hpi : p = i
    · subst hpi
      omega
    · exact Ha p c hc hpc hpi
  | succ fuel ih =>
    intro l i hln hfuel Ha Hb p c hc hpc
    rw [downLoop]
    dsimp only
    by_cases h1 : 2*i+1 < n
    · rw [if_pos h1]
      have hilen : i < l.length := by omega
      have hcont : ∀ j, j < n → (j = 2*i+1 ∨ j = 2*i+2) →
          (∀ c', c' < n → (c' = 2*i+1 ∨ c' = 2*i+2) → priAt l c' ≤ priAt l j) →
          priAt (if pqLess l j i then downLoop n (pqSwap l i j) j fuel else l) c ≤
            priAt (if pqLess l j i then downLoop n (pqSwap l i j) j fuel else l) p := by
        intro j hjn hjchild hjmax
        have hjlen : j < l.length := by omega
        by_cases hless : pqLess l j i = true
        · rw [if_pos hless]
          have hlt : priAt l i < priAt l j := by
            rw [pqLess_eq l j i hjlen hilen] at hless
            simpa using hless
          have hswap := fun t => priAt_pqSwap l i j t hilen hjlen
          have hij : i ≠ j := by omega
          have hvi : priAt (pqSwap l i j) i = priAt l j := by
            rw [hswap i, if_neg hij, if_pos rfl]
          have hvj : priAt (pqSwap l i j) j = priAt l i := by
            rw [hswap j, if_pos rfl]
          have Ha' : ∀ p' c', c' < n → (c' = 2*p'+1 ∨ c' = 2*p'+2) → p' ≠ j →
              priAt (pqSwap l i j) c' ≤ priAt (pqSwap l i j) p' := by
            intro p' c' hc' hpc' hp'j
            by_cases hp'i : p' = i
            · rw [hp'i]
              rw [hp'i] at hpc'
              by_cases hc'j : c' = j
              · rw [hc'j, hvj, hvi]
                exact le_of_lt hlt
              · have hc'i : c' ≠ i := by omega
                have hvc : priAt (pqSwap l i j) c' = priAt l c' := by
                  rw [hswap c', if_neg hc'j, if_neg hc'i]
                rw [hvc, hvi]
                exact hjmax c' hc' hpc'
            · have hvp : priAt (pqSwap l i j) p' = priAt l p' := by
                rw [hswap p', if_neg hp'j, if_neg hp'i]
              by_cases hc'i : c' = i
              · rw [hc'i] at hpc' ⊢
                rw [hvi, hvp]
                exact Hb j hjn hjchild p' hpc'
              · by_cases hc'j : c' = j
                · rw [hc'j] at hpc'
                  omega
                · have hvc : priAt (pqSwap l i j) c' = priAt l c' := by
                    rw [hswap c', if_neg hc'j, if_neg hc'i]
                  rw [hvc, hvp]
                  exact Ha p' c' hc' hpc' hp'i
          have Hb' : ∀ c', c' < n → (c' = 2*j+1 ∨ c' = 2*j+2) →
              ∀ p', (j = 2*p'+1 ∨ j = 2*p'+2) → priAt (pqSwap l i j) c' ≤
                priAt (pqSwap l i j) p' := by
            intro c' hc' hcj p' hjp'
            have hp'i : p' = i := by omega
            rw [hp'i]
            have hc'j : c' ≠ j := by omega
            have hc'i : c' ≠ i := by omega
            have hvc : priAt (pqSwap l i j) c' = priAt l c' := by
              rw [hswap c', if_neg hc'j, if_neg hc'i]
            rw [hvc, hvi]
            exact Ha j c' hc' hcj (by omega)
          exact ih (pqSwap l i j) j (by rw [pqSwap_length]; exact hln) (by omega)
            Ha' Hb' p c hc hpc
        · rw [if_neg hless]
          have hge : priAt l j ≤ priAt l i := by
            rw [pqLess_eq l j i hjlen hilen] at hless
            simpa using hless
          by_cases hpi : p = i
          · subst hpi
            exact le_trans (hjmax c hc hpc) hge
          · exact Ha p c hc hpc hpi
      split
      · next hch =>
        have hch' : 2*i+1+1 < n ∧ priAt l (2*i+1) < priAt l (2*i+1+1) := by
          simp only [Bool.and_eq_true, decide_eq_true_eq] at hch
          refine ⟨hch.1, ?_⟩
          have := hch.2
          rw [pqLess_eq l (2*i+1+1) (2*i+1) (by omega) (by omega)] at this
          simpa using this
        refine hcont (2*i+1+1) (by omega) (by omega) ?_
        intro c' hc' hcases
        rcases hcases with hca | hcb
        · rw [hca]
          exact le_of_lt hch'.2
        · rw [hcb]
      · next hch =>
        have hch' : ¬ (2*i+1+1 < n) ∨ priAt l (2*i+1+1) ≤ priAt l (2*i+1) := by
          by_cases h2 : 2*i+1+1 < n
          · refine Or.inr ?_
            simp only [Bool.and_eq_true, decide_eq_true_eq, not_and] at hch
            have := hch h2
            rw [pqLess_eq l (2*i+1+1) (2*i+1) (by omega) (by omega)] at this
            simpa using this
          · exact Or.inl h2
        refine hcont (2*i+1) h1 (by omega) ?_
        intro c' hc' hcases
        rcases hcases with hca | hcb
        · rw [hca]
        · rcases hch' with hna | hle
          · omega
          · rw [hcb]
            have h22 : 2*i+2 = 2*i+1+1 := by omega
            rw [h22]
            exact hle
    · rw [if_neg h1]
      by_cases hpi : p = i
      · subst hpi
        omega
      · exact Ha p c hc hpc hpi

theorem priAt_dropLast (l : PQ α) (t : ℕ) (ht : t < l.length - 1) :
    priAt l.dropLast t = priAt l t := by
  rw [priAt, priAt, List.getElem?_dropLast, if_pos ht]

/-- `heap.Pop` leaves a max-heap: the swap-to-root breaks heap order only at the root,
and the sift-down repairs it before the final slot is removed. -/
theorem heapPop_isMaxHeap (l : PQ α) (hne : l ≠ []) (h : IsMaxHeap l) :
    IsMaxHeap (heapPop l).2 := by
  have hlen : 1 ≤ l.length := by
    cases l
    · exact absurd rfl hne
    · simp
  have hheap2 : ∀ p c, c < l.length - 1 → (c = 2*p+1 ∨ c = 2*p+2) →
      priAt (downLoop (l.length - 1) (pqSwap l 0 (l.length - 1)) 0 (l.length - 1)) c ≤
        priAt (downLoop (l.length - 1) (pqSwap l 0 (l.length - 1)) 0 (l.length - 1)) p := by
    refine downLoop_heap (l.length - 1) (l.length - 1) (pqSwap l 0 (l.length - 1)) 0
      (by rw [pqSwap_length]; omega) (by omega) ?_ ?_
    · intro p c hc hpc hp0
      have hbound0 : (0 : ℕ) < l.length := by omega
      have hboundn : l.length - 1 < l.length := by omega
      have hvc : priAt (pqSwap l 0 (l.length - 1)) c = priAt l c := by
        rw [priAt_pqSwap l 0 (l.length - 1) c hbound0 hboundn,
          if_neg (by omega), if_neg (by omega)]
      have hvp : priAt (pqSwap l 0 (l.length - 1)) p = priAt l p := by
        rw [priAt_pqSwap l 0 (l.length - 1) p hbound0 hboundn,
          if_neg (by omega), if_neg (by omega)]
      rw [hvc, hvp]
      exact h p c (by omega) hpc
    · intro c _ _ p hp
      omega
  rw [heapPop]
  split
  · next heq => exact absurd (List.getLast?_eq_none_iff.mp heq) (heapPop_stage_ne_nil l hne)
  · next e heq =>
    intro p c hc hpc
    have hl2len :
        (downLoop (l.length - 1) (pqSwap l 0 (l.length - 1)) 0 (l.length - 1)).length =
          l.length := by
      rw [downLoop_length, pqSwap_length]
    have hc' : c < l.length - 1 := by
      simp only [List.length_dropLast, hl2len] at hc
      exact hc
    rw [priAt_dropLast _ c (by rw [hl2len]; exact hc'),
      priAt_dropLast _ p (by rw [hl2len]; omega)]
    exact hheap2 p c hc' hpc

/-- `heap.Pop` returns the element whose priority sits at the root slot. -/
theorem heapPop_root_priority (l : PQ α) (hne : l ≠ []) :
    ∃ e, (heapPop l).1 = some e ∧ e.priority = priAt l 0 := by
  have hlen : 1 ≤ l.length := by
    cases l
    · exact absurd rfl hne
    · simp
  have h2 := heapPop_stage_ne_nil l hne
  rw [heapPop]
  split
  · next heq => exact absurd (List.getLast?_eq_none_iff.mp heq) h2
  · next e heq =>
    refine ⟨{ e with index := -1 }, rfl, ?_⟩
    have hl2len :
        (downLoop (l.length - 1) (pqSwap l 0 (l.length - 1)) 0 (l.length - 1)).length =
          l.length := by
      rw [downLoop_length, pqSwap_length]
    have hge : e = (downLoop (l.length - 1) (pqSwap l 0 (l.length - 1)) 0
        (l.length - 1)).getLast h2 := by
      rw [List.getLast?_eq_getLast_of_ne_nil h2] at heq
      exact (Option.some.inj heq).symm
    have huntouched :=
      downLoop_untouched (l.length - 1) (l.length - 1) 0 (l.length - 1)
        (pqSwap l 0 (l.length - 1)) (le_refl _)
    have hswapval : priAt (pqSwap l 0 (l.length - 1)) (l.length - 1) = priAt l 0 := by
      rw [priAt_pqSwap l 0 (l.length - 1) (l.length - 1) (by omega) (by omega), if_pos rfl]
    have hstep : priAt (downLoop (l.length - 1) (pqSwap l 0 (l.length - 1)) 0
        (l.length - 1)) (l.length - 1) =
        priAt (pqSwap l 0 (l.length - 1)) (l.length - 1) := by
      rw [priAt, priAt, huntouched]
    show e.priority = priAt l 0
    rw [hge, List.getLast_eq_get, ← priAt_of_lt, hl2len, hstep, hswapval]

/-- The drain returns the same contents as the store, through any projection ignoring
the `index` field. -/
theorem drainF_map_perm (f : QElem α → β)
    (hf : ∀ (e : QElem α) (x : Int), f { e with index := x } = f e) :
    ∀ (fuel : ℕ) (l : PQ α), l.length ≤ fuel →
      ((drainF fuel l).map f).Perm (l.map f) := by
  intro fuel
  induction fuel with
  | zero =>
    intro l hl
    have : l = [] := List.length_eq_zero.mp (by omega)
    subst this
    exact List.Perm.refl _
  | succ fuel ih =>
    intro l hl
    rw [drainF]
    dsimp only
    split
    · next hpos =>
      have hne : l ≠ [] := by
        intro h
        rw [h] at hpos
        simp at hpos
      obtain ⟨e, he, hperm⟩ := heapPop_map_perm f hf l hne
      rw [he]
      dsimp only
      rw [List.map_cons]
      refine List.Perm.trans ?_ hperm
      refine List.Perm.cons _ ?_
      refine ih (heapPop l).2 ?_
      rw [heapPop_length l hne]
      omega
    · next hneg =>
      have : l = [] := List.length_eq_zero.mp (by omega)
      subst this
      exact List.Perm.refl _

/-- Draining a max-heap yields the elements in non-increasing priority order: each pop
returns a maximal remaining priority and leaves a max-heap. -/
theorem drainF_pairwise :
    ∀ (fuel : ℕ) (l : PQ α), l.length ≤ fuel → IsMaxHeap l →
      List.Pairwise (fun e1 e2 => e2.priority ≤ e1.priority) (drainF fuel l) := by
  intro fuel
  induction fuel with
  | zero => intro l _ _; exact List.Pairwise.nil
  | succ fuel ih =>
    intro l hl hheap
    rw [drainF]
    dsimp only
    split
    · next hpos =>
      have hne : l ≠ [] := by
        intro h
        rw [h] at hpos
        simp at hpos
      obtain ⟨e, he, hepri⟩ := heapPop_root_priority l hne
      rw [he]
      dsimp only
      have hlen2 : (heapPop l).2.length ≤ fuel := by
        rw [heapPop_length l hne]
        omega
      refine List.Pairwise.cons ?_ (ih (heapPop l).2 hlen2 (heapPop_isMaxHeap l hne hheap))
      intro x hx
      have hxp : x.priority ∈ (heapPop l).2.map (fun e => e.priority) := by
        have hperm := drainF_map_perm (fun e => e.priority) (fun e x => rfl) fuel
          (heapPop l).2 hlen2
        exact hperm.mem_iff.mp (List.mem_map_of_mem _ hx)
      obtain ⟨e2, he2, hperm2⟩ :=
        heapPop_map_perm (fun e => e.priority) (fun e x => rfl) l hne
      have hxl : x.priority ∈ l.map (fun e => e.priority) :=
        hperm2.subset (List.mem_cons_of_mem _ hxp)
      obtain ⟨e3, he3mem, he3⟩ := List.mem_map.mp hxl
      rw [hepri, ← he3]
      exact isMaxHeap_root_max_mem l hheap e3 he3mem
    · exact List.Pairwise.nil

/-- The queue built by a sequence of `AppendPriority` calls on a fresh queue. -/
def buildQueue (ops : List (α × Int)) : GoQueue α :=
  ops.foldl (fun q dp => appendPriorityGo q dp.1 dp.2) newQueue

theorem buildQueue_fold (ops : List (α × Int)) :
    ∀ (q : GoQueue α), SortedAdj q.queue →
      (List.foldl (fun q dp => appendPriorityGo q dp.1 dp.2) q ops).queue.length =
          q.queue.length + ops.length ∧
        SortedAdj (List.foldl (fun q dp => appendPriorityGo q dp.1 dp.2) q ops).queue := by
  induction ops with
  | nil => intro q hs; exact ⟨by simp, hs⟩
  | cons hd tl ih =>
    intro q hs
    rw [List.foldl_cons]
    have hq' : (appendPriorityGo q hd.1 hd.2).queue = heapPush q.queue ⟨hd.1, hd.2, 0⟩ := by
      rw [appendPriorityGo, appendQP, sendSignal_queue]
    have hlen' : (appendPriorityGo q hd.1 hd.2).queue.length = q.queue.length + 1 := by
      rw [hq', heapPush_length]
    have hs' : SortedAdj (appendPriorityGo q hd.1 hd.2).queue := by
      rw [hq']
      exact heapPush_sorted q.queue _
    obtain ⟨h1, h2⟩ := ih (appendPriorityGo q hd.1 hd.2) hs'
    refine ⟨?_, h2⟩
    rw [h1, hlen']
    simp only [List.length_cons]
    omega

/-- The payloads delivered by successive `Next` calls are exactly the store-level
drain's, in order. -/
theorem processF_eq_drainF :
    ∀ (fuel : ℕ) (q : GoQueue α), q.queue.length ≤ fuel →
      (processF (fuel+1) q).1 = (drainF fuel q.queue).map (fun e => some e.Data) := by
  intro fuel
  induction fuel with
  | zero =>
    intro q hq
    have hnil : q.queue = [] := List.length_eq_zero.mp (by omega)
    obtain ⟨-, hok, -, -⟩ := next_empty q hnil
    rw [processF]
    dsimp only
    rw [hok]
    simp only [Bool.false_eq_true, if_false]
    rw [hnil]
    rfl
  | succ fuel ih =>
    intro q hq
    by_cases hpos : q.queue.length > 0
    · have hne : q.queue ≠ [] := by
        intro h
        rw [h] at hpos
        simp at hpos
      obtain ⟨hd, hok, hqueue⟩ := next_pop q hpos
      rw [processF]
      dsimp only
      rw [hok]
      simp only [if_true]
      have hlen2 : (next q).2.2.queue.length ≤ fuel := by
        rw [hqueue, heapPop_length q.queue hne]
        omega
      have hihq := ih (next q).2.2 hlen2
      rw [drainF]
      dsimp only
      rw [if_pos hpos]
      obtain ⟨e, he⟩ := Option.isSome_iff_exists.mp (heapPop_isSome q.queue hne)
      rw [he]
      try dsimp only
      rw [List.map_cons, hd, he]
      try dsimp only
      rw [hihq, hqueue]
      rfl
    · have hnil : q.queue = [] := List.length_eq_zero.mp (by omega)
      obtain ⟨-, hok, -, -⟩ := next_empty q hnil
      rw [processF]
      dsimp only
      rw [hok]
      simp only [Bool.false_eq_true, if_false]
      rw [drainF]
      dsimp only
      rw [if_neg hpos]
      simp

/-- API form: `Process` delivers the store-level drain. -/
theorem processGo_eq_drainStore (q : GoQueue α) :
    (processGo q).1 = (drainStore q.queue).map (fun e => some e.Data) := by
  rw [processGo, drainStore]
  exact processF_eq_drainF q.queue.length q (le_refl _)

/-! Concrete scenarios from the spec's testable properties. -/

/-- The spec's strict-priority example: `AppendPriority` at levels Low, Normal, High,
Critical, Low, Normal, High, Critical in that order, with payloads 1..8 recording the
insertion positions. -/
def mixedExample : GoQueue ℕ :=
  appendPriorityGo (appendPriorityGo (appendPriorityGo (appendPriorityGo
    (appendPriorityGo (appendPriorityGo (appendPriorityGo (appendPriorityGo
      newQueue 1 PriorityLow) 2 PriorityNormal) 3 PriorityHigh) 4 PriorityCritical)
      5 PriorityLow) 6 PriorityNormal) 7 PriorityHigh) 8 PriorityCritical

/-- Three `Append` calls (all at the default level `PriorityNormal`) with payloads
1, 2, 3 in that order. -/
def fifoExample : GoQueue ℕ :=
  appendGo (appendGo (appendGo newQueue 1) 2) 3

/-! Claim theorems. -/

/-- C1 (code evaluated at the claim's failing input): on the spec's own example —
inserts at Low, Normal, High, Critical, Low, Normal, High, Critical with payloads
1..8 — successive `Next` calls deliver 4, 8, 7, 3, 2, 6, 5, 1.  The priority levels
are non-increasing (both Critical, then both High, then both Normal, then both Low),
but within the High level the second-inserted item (7) is delivered before the first
(3), and within Low 5 before 1, contradicting the claimed insertion order
4, 8, 3, 7, 2, 6, 1, 5: `heap.Pop` swaps the last slot to the root before popping,
which reorders equal-priority elements. -/
theorem c1_mixed_levels_example_eval :
    (processGo mixedExample).1 =
      [some 4, some 8, some 7, some 3, some 2, some 6, some 5, some 1] := by
  decide

/-- C2 (code evaluated at the claim's failing input): after `Append 1; Append 2;
Append 3` (one fixed priority level, no other operations), the three `Next` calls
return 1, 3, 2 — not the claimed arrival order 1, 2, 3.  The first `heap.Pop` moves
the most recently appended element to the front slot, so from three equal-priority
elements onward FIFO order is lost. -/
theorem c2_fifo_example_eval :
    (processGo fifoExample).1 = [some 1, some 3, some 2] := by
  decide

/-- C3: in every reachable queue state, a non-empty store implies the signal channel
is ready (buffers exactly one value), and a `Next` call that leaves the store empty
leaves the signal not ready — the drain happens inside the same locked section that
observed emptiness. -/
theorem c3_signal_readiness_invariant (q : GoQueue α) (h : Reach q) :
    (q.queue ≠ [] → q.sig = 1) ∧
      ((next q).2.2.queue = [] → (next q).2.2.sig = 0) := by
  refine ⟨(reach_inv h).2, ?_⟩
  intro hnil
  rw [next_queue] at hnil
  rw [next_sig]
  by_cases h1 : q.queue.length > 0
  · rw [if_pos h1] at hnil ⊢
    have h2 : ¬ (heapPop q.queue).2.length > 0 := by rw [hnil]; simp
    rw [if_neg h2]
    have hq1 : q.sig = 1 := by
      refine (reach_inv h).2 ?_
      intro hq
      rw [hq] at h1
      simp at h1
    omega
  · rw [if_neg h1]
    have := (reach_inv h).1
    omega

/-- Witness for C3 at the concrete reachable state `Append 0` on a fresh queue. -/
theorem c3_signal_readiness_invariant_witness :
    ((appendGo (newQueue : GoQueue ℕ) 0).queue ≠ [] →
        (appendGo (newQueue : GoQueue ℕ) 0).sig = 1) ∧
      ((next (appendGo (newQueue : GoQueue ℕ) 0)).2.2.queue = [] →
        (next (appendGo (newQueue : GoQueue ℕ) 0)).2.2.sig = 0) :=
  c3_signal_readiness_invariant (appendGo newQueue 0) (Reach.app newQueue 0 Reach.new)

/-- C4, as stated, is false: `Queue.append` performs no bounds check, so an
out-of-range priority is not dropped.  At the concrete input `AppendPriority(42, 7)`
on a fresh queue the entry is inserted (occupancy 1) and the very next `Next` returns
it. -/
theorem c4_out_of_range_dropped_counterexample :
    lenGo (appendPriorityGo (newQueue : GoQueue ℕ) 42 7) = 1 ∧
      (next (appendPriorityGo (newQueue : GoQueue ℕ) 42 7)).1 = some 42 ∧
      (next (appendPriorityGo (newQueue : GoQueue ℕ) 42 7)).2.1 = true := by
  decide

/-- C4 amended: for every item and every priority level outside the four defined
values, `AppendPriority` does not drop the entry: it inserts it with the raw integer
priority (occupancy grows by exactly one from any state), and from an empty queue the
immediately following `Next` call returns the item. -/
theorem c4_out_of_range_inserted (q : GoQueue α) (d : α) (p : Int)
    (_hp : p < PriorityLow ∨ p > PriorityCritical) :
    lenGo (appendPriorityGo q d p) = lenGo q + 1 ∧
      (next (appendPriorityGo (newQueue : GoQueue α) d p)).1 = some d ∧
      (next (appendPriorityGo (newQueue : GoQueue α) d p)).2.1 = true := by
  refine ⟨?_, ?_, ?_⟩
  · rw [lenGo, lenGo, appendPriorityGo, appendQP, sendSignal_queue]
    exact heapPush_length q.queue ⟨d, p, 0⟩
  · have hq : (appendPriorityGo (newQueue : GoQueue α) d p).queue = [⟨d, p, 0⟩] := by
      rw [appendPriorityGo, appendQP, sendSignal_queue]
      exact heapPush_nil ⟨d, p, 0⟩
    obtain ⟨h1, -, -⟩ := next_pop (appendPriorityGo (newQueue : GoQueue α) d p)
      (by rw [hq]; simp)
    rw [h1, hq, heapPop_singleton]
    rfl
  · have hq : (appendPriorityGo (newQueue : GoQueue α) d p).queue = [⟨d, p, 0⟩] := by
      rw [appendPriorityGo, appendQP, sendSignal_queue]
      exact heapPush_nil ⟨d, p, 0⟩
    obtain ⟨-, h2, -⟩ := next_pop (appendPriorityGo (newQueue : GoQueue α) d p)
      (by rw [hq]; simp)
    exact h2

/-- Witness for C4 amended, at item 42 and priority 7. -/
theorem c4_out_of_range_inserted_witness :
    ((7 : Int) < PriorityLow ∨ (7 : Int) > PriorityCritical) ∧
      (lenGo (appendPriorityGo (newQueue : GoQueue ℕ) 42 7) =
          lenGo (newQueue : GoQueue ℕ) + 1 ∧
        (next (appendPriorityGo (newQueue : GoQueue ℕ) 42 7)).1 = some 42 ∧
        (next (appendPriorityGo (newQueue : GoQueue ℕ) 42 7)).2.1 = true) :=
  ⟨Or.inr (by decide), c4_out_of_range_inserted newQueue 42 7 (Or.inr (by decide))⟩

/-- C5 (Signal() modelled from the spec, the method being absent from src/): calling
Signal() reconciles the signal with occupancy — on a non-empty store the returned
handle is ready; the reconciliation never grows the channel beyond one slot over its
previous occupancy and never touches the store. -/
theorem c5_signal_method_self_heals (q : GoQueue α) (h : q.queue ≠ []) :
    (signalMethod q).sig ≥ 1 ∧ (signalMethod q).sig ≤ max q.sig 1 ∧
      (signalMethod q).queue = q.queue := by
  have hlen : q.queue.length > 0 := by
    cases hq : q.queue with
    | nil => exact absurd hq h
    | cons a t => simp [hq]
  rw [signalMethod]
  split
  · next hc =>
    have h0 : q.sig = 0 := by
      simp only [Bool.and_eq_true, beq_iff_eq] at hc
      exact hc.2
    refine ⟨?_, ?_, rfl⟩
    · show q.sig + 1 ≥ 1
      omega
    · show q.sig + 1 ≤ max q.sig 1
      omega
  · next hc =>
    have h0 : ¬ q.sig = 0 := by
      simp only [Bool.and_eq_true, beq_iff_eq, decide_eq_true_eq, not_and] at hc
      exact hc hlen
    exact ⟨by omega, le_max_left _ _, rfl⟩

/-- Witness for C5 at a non-empty store whose signal was left unset. -/
theorem c5_signal_method_self_heals_witness :
    (({ queue := [⟨5, 1, 0⟩], sig := 0 } : GoQueue ℕ).queue ≠ []) ∧
      ((signalMethod ({ queue := [⟨5, 1, 0⟩], sig := 0 } : GoQueue ℕ)).sig ≥ 1 ∧
        (signalMethod ({ queue := [⟨5, 1, 0⟩], sig := 0 } : GoQueue ℕ)).sig ≤
          max ({ queue := [⟨5, 1, 0⟩], sig := 0 } : GoQueue ℕ).sig 1 ∧
        (signalMethod ({ queue := [⟨5, 1, 0⟩], sig := 0 } : GoQueue ℕ)).queue =
          ({ queue := [⟨5, 1, 0⟩], sig := 0 } : GoQueue ℕ).queue) :=
  ⟨by decide, c5_signal_method_self_heals _ (by decide)⟩

/-- C6: the signal channel is a single-slot notification, not a counter: in every
state reachable by any number of `Append`, `AppendPriority`, `SendSignal` and `Next`
calls it buffers at most one value (`SendSignal` re-raises only on an empty channel). -/
theorem c6_signal_single_slot (q : GoQueue α) (h : Reach q) : q.sig ≤ 1 :=
  (reach_inv h).1

/-- Witness for C6 after two back-to-back `SendSignal` calls on a fresh queue. -/
theorem c6_signal_single_slot_witness :
    (sendSignal (sendSignal (newQueue : GoQueue ℕ))).sig ≤ 1 :=
  c6_signal_single_slot (sendSignal (sendSignal newQueue))
    (Reach.send _ (Reach.send _ Reach.new))

/-- C7: for every queue state, `Process` delivers exactly the payloads present at call
start — a permutation of the store's contents, each exactly once — and terminates with
the queue empty. -/
theorem c7_process_drains_exactly (q : GoQueue α) :
    ((processGo q).1).Perm (q.queue.map (fun e => some e.Data)) ∧
      (processGo q).2.queue = [] :=
  processF_spec (q.queue.length + 1) q (Nat.lt_succ_self _)

/-- C8: `Next` on an empty queue reports absence through its boolean result: it
returns `(nil, false)` — a total, non-failing outcome. -/
theorem c8_next_empty_not_found (q : GoQueue α) (h : q.queue = []) :
    (next q).1 = none ∧ (next q).2.1 = false :=
  ⟨(next_empty q h).1, (next_empty q h).2.1⟩

/-- Witness for C8 at the fresh empty queue. -/
theorem c8_next_empty_not_found_witness :
    ((newQueue : GoQueue ℕ).queue = []) ∧
      ((next (newQueue : GoQueue ℕ)).1 = none ∧
        (next (newQueue : GoQueue ℕ)).2.1 = false) :=
  ⟨rfl, c8_next_empty_not_found newQueue rfl⟩

/-- C9: `Append` is `AppendPriority` at `PriorityNormal` (definitionally, the shared
`Queue.append` with priority 1), is total (never fails), and grows the occupancy
reported by `Len` by exactly one on every state. -/
theorem c9_append_defaults_to_normal (q : GoQueue α) (d : α) :
    appendGo q d = appendPriorityGo q d PriorityNormal ∧
      lenGo (appendGo q d) = lenGo q + 1 := by
  refine ⟨rfl, ?_⟩
  rw [lenGo, lenGo, appendGo, appendQP, sendSignal_queue]
  exact heapPush_length q.queue ⟨d, PriorityNormal, 0⟩

/-- C10: `AppendPriority` accepts any integer priority and inserts unconditionally
(the store holds one entry per call), and dequeue order compares the raw integers: for
every sequence of `AppendPriority` calls on a fresh queue, the drained entries — whose
payloads are exactly what successive `Next` calls return — come out in non-increasing
raw-priority order; in particular every entry with priority above `PriorityCritical`
precedes every Critical entry, and every entry with negative priority follows every
`PriorityLow` entry. -/
theorem c10_raw_integer_priority_order (ops : List (α × Int)) :
    (buildQueue ops).queue.length = ops.length ∧
    (processGo (buildQueue ops)).1 =
      (drainStore (buildQueue ops).queue).map (fun e => some e.Data) ∧
    List.Pairwise (fun e1 e2 => e2.priority ≤ e1.priority)
      (drainStore (buildQueue ops).queue) ∧
    (∀ i j : Fin (drainStore (buildQueue ops).queue).length,
      ((drainStore (buildQueue ops).queue).get i).priority > PriorityCritical →
      ((drainStore (buildQueue ops).queue).get j).priority = PriorityCritical → i < j) ∧
    (∀ i j : Fin (drainStore (buildQueue ops).queue).length,
      ((drainStore (buildQueue ops).queue).get i).priority < PriorityLow →
      ((drainStore (buildQueue ops).queue).get j).priority = PriorityLow → j < i) := by
  obtain ⟨hlen, hsorted⟩ := buildQueue_fold ops newQueue
    (by intro k hk; simp [newQueue] at hk)
  have hheap : IsMaxHeap (buildQueue ops).queue := sortedAdj_isMaxHeap _ hsorted
  have hpair : List.Pairwise (fun e1 e2 => e2.priority ≤ e1.priority)
      (drainStore (buildQueue ops).queue) := by
    rw [drainStore]
    exact drainF_pairwise _ _ (le_refl _) hheap
  have hget := List.pairwise_iff_get.mp hpair
  refine ⟨?_, processGo_eq_drainStore _, hpair, ?_, ?_⟩
  · rw [buildQueue, hlen]
    simp [newQueue]
  · intro i j h3 h4
    rcases lt_trichotomy i j with h | h | h
    · exact h
    · exfalso
      rw [h, h4] at h3
      exact lt_irrefl _ h3
    · exfalso
      have hji := hget j i h
      rw [h4] at hji
      exact absurd h3 (not_lt.mpr hji)
  · intro i j h3 h4
    rcases lt_trichotomy j i with h | h | h
    · exact h
    · exfalso
      rw [h] at h4
      rw [h4] at h3
      exact lt_irrefl _ h3
    · exfalso
      have hij := hget i j h
      rw [h4] at hij
      exact absurd h3 (not_lt.mpr hij)

/-- A demonstration input for C10: priorities 5 (above Critical), Critical, -1
(below Low) and Low. -/
def c10DemoOps : List (ℕ × Int) :=
  [(10, 5), (20, PriorityCritical), (30, -1), (40, PriorityLow)]

/-- Witness for C10 at the demonstration input. -/
theorem c10_raw_integer_priority_order_witness :
    (buildQueue c10DemoOps).queue.length = c10DemoOps.length ∧
      (processGo (buildQueue c10DemoOps)).1 =
        (drainStore (buildQueue c10DemoOps).queue).map (fun e => some e.Data) ∧
      List.Pairwise (fun e1 e2 => e2.priority ≤ e1.priority)
        (drainStore (buildQueue c10DemoOps).queue) :=
  ⟨(c10_raw_integer_priority_order c10DemoOps).1,
    (c10_raw_integer_priority_order c10DemoOps).2.1,
    (c10_raw_integer_priority_order c10DemoOps).2.2.1⟩

end CaffixQueue


